import Mathlib

/-!
# Charted: path routes and the JSON traversal engine

A shallow embedding of `include/charted/route/charted_route.hpp` (the path
tokenizers `detail::ParseDynamicRoute` and `detail::ParseStaticRoute`) and of
`include/charted_json/charted_json.hpp` (`Json::SetPathValue`, `Json::FindPath`).

Conventions of the embedding.

* A path text is a `List Char`.  A position inside the text (the C++ `cursor`, or a
  `const char*` pointing into the buffer) is represented by the text that is still
  unread from that position on.  So `cursor < path.size()` reads "the remainder is not
  empty", `path[cursor]` is the head of the remainder, `++cursor` drops the head, and
  `cursor - keyStart` is the difference of the two remainders' lengths.
* `std::uint16_t` and `std::uint32_t` are `Nat` with explicit `% 2^16` and `% 2^32`.
* The `while (cursor < path.size())` loop of the tokenizers is run with a step budget;
  running out of budget is the result `none`.
-/

namespace charted

/-! ## Tokens (`charted_route.hpp`, lines 14-33) -/

/-- The enum class `RouteTokenType`. -/
inductive RouteTokenType
  | Key
  | Index
  deriving DecidableEq, Repr

/-- The struct `RouteToken`.  `Ptr` is `none` for `nullptr`, otherwise the text from the
pointed-at character to the end of the buffer.  The member `Type` is named `Kind`
here, `Type` being reserved. -/
structure RouteToken where
  Ptr    : Option (List Char) := none
  Length : Nat := 0
  Kind   : RouteTokenType := RouteTokenType.Key
  Index  : Nat := 0
  deriving DecidableEq, Repr

/-- The member `RouteToken::GetString`. -/
def RouteToken.GetString (t : RouteToken) : List Char :=
  match t.Ptr with
  | some p => if t.Length > 0 then p.take t.Length else []
  | none => []

/-! ## The runtime tokenizer (`charted_route.hpp`, lines 194-287) -/

/-- The constant `maxTokenLength`. -/
def maxTokenLength : Nat := 65535

/-- The key scan `while (cursor < size && path[cursor] != '.' && path[cursor] != '[') ++cursor;`
(lines 213-216): the unread text when the loop exits. -/
def skipKey : List Char → List Char
  | [] => []
  | c :: cs => if c ≠ '.' ∧ c ≠ '[' then skipKey cs else c :: cs

/-- The digit scan `while (cursor < size && path[cursor] != ']')` (lines 237-246):
`none` when the body takes its `return false` (a character below `'0'` or above `'9'`),
otherwise the unread text when the loop exits. -/
def scanDigits : List Char → Option (List Char)
  | [] => some []
  | c :: cs =>
    if c = ']' then some (c :: cs)
    else if c < '0' ∨ c > '9' then none
    else scanDigits cs

/-- The decoding loop `for (i = indexStart; i < cursor; ++i) index = index * 10u + (path[i] - '0')`
(lines 254-258) over the scanned digits, in 32-bit unsigned arithmetic. -/
def decodeIndex (digits : List Char) : Nat :=
  digits.foldl (fun index c => (index * 10 + (c.toNat - '0'.toNat)) % 2 ^ 32) 0

/-- What one pass through the body of the outer loop does: it leaves the function with
`return`, or it goes round again with a new cursor and token vector. -/
inductive LoopStep
  | Return (valid : Bool) (tokens : List RouteToken)
  | Continue (cursor : List Char) (tokens : List RouteToken)
  deriving DecidableEq, Repr

/-- The tail of the loop body (lines 275-283): a single `'.'` after the segment is
consumed, a second one right behind it is an error. -/
def dynTrailingDot (cursor : List Char) (outTokens : List RouteToken) : LoopStep :=
  match cursor with
  | '.' :: rest =>
    if rest.head? = some '.' then LoopStep.Return false []
    else LoopStep.Continue rest outTokens
  | _ => LoopStep.Continue cursor outTokens

/-- The bracket part of the loop body (lines 233-273) followed by its tail. -/
def dynBracket (cursor : List Char) (outTokens : List RouteToken) : LoopStep :=
  match cursor with
  | '[' :: indexStart =>
    match scanDigits indexStart with
    | none => LoopStep.Return false []
    | some cursor =>
      if cursor = [] ∨ indexStart.length = cursor.length then LoopStep.Return false []
      else
        let index := decodeIndex (indexStart.take (indexStart.length - cursor.length))
        if indexStart.length - cursor.length > maxTokenLength then LoopStep.Return false []
        else
          dynTrailingDot cursor.tail
            (outTokens ++ [{ Ptr := some indexStart
                             Length := (indexStart.length - cursor.length) % 2 ^ 16
                             Kind := RouteTokenType.Index
                             Index := index }])
  | _ => dynTrailingDot cursor outTokens

/-- One pass through the body of `while (cursor < path.size())` (lines 200-284), entered
with the unread text `c :: cs`. -/
def dynBody (c : Char) (cs : List Char) (outTokens : List RouteToken) : LoopStep :=
  if c = '.' then
    if cs.head? = some '.' then LoopStep.Return false []
    else LoopStep.Continue cs outTokens
  else
    let keyStart := c :: cs
    let cursor := skipKey keyStart
    if keyStart.length - cursor.length > 0 then
      if keyStart.length - cursor.length > maxTokenLength then LoopStep.Return false []
      else
        dynBracket cursor
          (outTokens ++ [{ Ptr := some keyStart
                           Length := (keyStart.length - cursor.length) % 2 ^ 16
                           Kind := RouteTokenType.Key
                           Index := 0 }])
    else dynBracket cursor outTokens

/-- The outer loop `while (cursor < path.size())` with a budget of passes; leaving the
loop normally is `return true` (line 286). -/
def dynLoop : Nat → List Char → List RouteToken → Option (Bool × List RouteToken)
  | _, [], outTokens => some (true, outTokens)
  | 0, _ :: _, _ => none
  | fuel + 1, c :: cs, outTokens =>
    match dynBody c cs outTokens with
    | LoopStep.Return valid tokens => some (valid, tokens)
    | LoopStep.Continue cursor tokens => dynLoop fuel cursor tokens

/-- The function `detail::ParseDynamicRoute`: the returned flag and the content of
`outTokens` afterwards.  The vector is cleared on entry (line 196), whatever it held. -/
def ParseDynamicRoute (path : List Char) (outTokens : List RouteToken) :
    Option (Bool × List RouteToken) :=
  let cleared : List RouteToken := outTokens.drop outTokens.length
  dynLoop path.length path cleared

/-! ## Auxiliary definitions for the tokenizer proofs -/

/-- A character that the key scan steps over. -/
def isKeyChar (c : Char) : Bool := c != '.' && c != '['

/-- The tokenizer started in the middle of a text, with exactly the budget it needs. -/
def parseFrom (rest : List Char) (t : List RouteToken) : Option (Bool × List RouteToken) :=
  dynLoop rest.length rest t

/-- A decimal digit, the characters the digit scan steps over. -/
def isDigitChar (c : Char) : Bool := decide ('0' ≤ c ∧ c ≤ '9')

/-- Carrying on after one pass through the loop body. -/
def runStep : LoopStep → Option (Bool × List RouteToken)
  | LoopStep.Return valid tokens => some (valid, tokens)
  | LoopStep.Continue cursor tokens => parseFrom cursor tokens

/-- The Key token pushed for a key that starts at `keyStart` and is `n` characters long. -/
def keyToken (keyStart : List Char) (n : Nat) : RouteToken :=
  { Ptr := some keyStart, Length := n % 2 ^ 16, Kind := RouteTokenType.Key, Index := 0 }

/-- The Index token pushed for a digit run that starts at `indexStart` and is `n` digits long. -/
def indexToken (indexStart : List Char) (n : Nat) : RouteToken :=
  { Ptr := some indexStart, Length := n % 2 ^ 16, Kind := RouteTokenType.Index,
    Index := decodeIndex (indexStart.take n) }

/-! ## Routes (`charted_route.hpp`, lines 290-384, and `charted.hpp`) -/

/-- The class `DynamicRoute`: the owned path text, the token vector and the flag. -/
structure DynamicRoute where
  Path   : List Char
  Tokens : List RouteToken
  Valid  : Bool
  deriving DecidableEq, Repr

/-- The constructor `DynamicRoute(std::string_view path)`, which is also `charted::route(path)`:
the text is copied, the token vector starts empty and `Parse()` fills it and sets `Valid`. -/
def route (path : List Char) : Option DynamicRoute :=
  (ParseDynamicRoute path []).map (fun r => { Path := path, Tokens := r.2, Valid := r.1 })

/-- The member `DynamicRoute::GetTokens`. -/
def DynamicRoute.GetTokens (r : DynamicRoute) : List RouteToken := r.Tokens

/-- The member `DynamicRoute::GetTokenCount`. -/
def DynamicRoute.GetTokenCount (r : DynamicRoute) : Nat := r.Tokens.length

/-- The member `DynamicRoute::IsValid`. -/
def DynamicRoute.IsValid (r : DynamicRoute) : Bool := r.Valid

/-- What a token says: its kind, the text it references and its index field. -/
def RouteToken.content (t : RouteToken) : RouteTokenType × List Char × Nat :=
  (t.Kind, t.GetString, t.Index)

/-! ## The path grammar, as the specification words it -/

/-- A segment of a path: an optional key (empty when absent) and its bracket groups, each
given by its digits. -/
structure Segment where
  key    : List Char
  groups : List (List Char)
  deriving DecidableEq, Repr

/-- The text of one bracket group. -/
def bracketText (digits : List Char) : List Char := '[' :: digits ++ [']']

/-- The text of a segment: the key, then the bracket groups. -/
def Segment.text (s : Segment) : List Char := s.key ++ (s.groups.map bracketText).flatten

/-- Texts joined with single `'.'` characters. -/
def joinDots : List (List Char) → List Char
  | [] => []
  | [a] => a
  | a :: b :: l => a ++ '.' :: joinDots (b :: l)

/-- The value of a digit run read as a decimal numeral. -/
def decimalValue (digits : List Char) : Nat :=
  digits.foldl (fun n c => n * 10 + (c.toNat - '0'.toNat)) 0

/-- The tokens a segment stands for: a Key token for its key, if it has one, then an
Index token for every bracket group. -/
def Segment.contents (s : Segment) : List (RouteTokenType × List Char × Nat) :=
  (if s.key = [] then [] else [(RouteTokenType.Key, s.key, 0)]) ++
    s.groups.map (fun ds => (RouteTokenType.Index, ds, decimalValue ds))

/-- A non-empty segment within the stated bounds: the key has at most 65535 characters,
none of them `'.'` or `'['`; every bracket group has 1 to 65535 decimal digits and a
value below `2^32`. -/
def Segment.WellFormed (s : Segment) : Prop :=
  s.key.length ≤ 65535 ∧ (∀ c ∈ s.key, c ≠ '.' ∧ c ≠ '[') ∧
  (∀ ds ∈ s.groups, ds ≠ [] ∧ ds.length ≤ 65535 ∧ (∀ d ∈ ds, '0' ≤ d ∧ d ≤ '9') ∧
    decimalValue ds < 2 ^ 32) ∧
  (s.key ≠ [] ∨ s.groups ≠ [])

/-! ## The accepted texts -/

/-- The texts the tokenizer accepts, with the tokens it emits for them: `Lex rest ts` says
that the unread text `rest` is made of single dots, keys of 1 to 65535 key characters and
bracket groups of 1 to 65535 digits, and that `ts` are the tokens of those keys and groups
in order. -/
inductive Lex : List Char → List RouteToken → Prop
  | done : Lex [] []
  | dot (r : List Char) (ts : List RouteToken) :
      r.head? ≠ some '.' → Lex r ts → Lex ('.' :: r) ts
  | group (ds r : List Char) (ts : List RouteToken) :
      ds ≠ [] → ds.length ≤ maxTokenLength → (∀ d ∈ ds, isDigitChar d = true) → Lex r ts →
      Lex ('[' :: (ds ++ ']' :: r)) (indexToken (ds ++ ']' :: r) ds.length :: ts)
  | key (k r : List Char) (ts : List RouteToken) :
      k ≠ [] → k.length ≤ maxTokenLength → (∀ c ∈ k, isKeyChar c = true) →
      (∀ c ∈ r.head?, isKeyChar c = false) → Lex r ts →
      Lex (k ++ r) (keyToken (k ++ r) k.length :: ts)

/-- Whether a text has two adjacent `'.'` characters somewhere. -/
def hasDotDot : List Char → Bool
  | [] => false
  | c :: r => (c == '.' && r.head? == some '.') || hasDotDot r

/-- The shape of a segment in the grammar, without the length bounds: key characters are
neither `'.'` nor `'['`, and every bracket group holds one or more decimal digits. -/
def Segment.Shaped (s : Segment) : Prop :=
  (∀ c ∈ s.key, c ≠ '.' ∧ c ≠ '[') ∧
  (∀ ds ∈ s.groups, ds ≠ [] ∧ ∀ d ∈ ds, '0' ≤ d ∧ d ≤ '9')

/-- The stated grammar: a path is a sequence of segments separated by `'.'`, each segment
an optional key followed by zero or more bracket groups. -/
def InGrammar (path : List Char) : Prop :=
  ∃ segs : List Segment, (∀ s ∈ segs, s.Shaped) ∧ path = joinDots (segs.map Segment.text)

/-- Segments written one right after the other, with no `'.'` between them. -/
def runText (run : List Segment) : List Char := (run.map Segment.text).flatten

/-- The grammar with segments allowed to follow one another directly: a path is a sequence
of runs separated by `'.'`, each run being zero or more segments written back to back, so
that a key may come right after a bracket group. -/
def InRelaxedGrammar (path : List Char) : Prop :=
  ∃ runs : List (List Segment), (∀ run ∈ runs, ∀ s ∈ run, s.Shaped) ∧
    path = joinDots (runs.map runText)

/-! ## The parse-time tokenizer (`charted_route.hpp`, lines 58-174 and 386-406)

`ParseStaticRoute` scans the first `length` characters of `Path.Data`; the characters of
`Data` behind them (the terminator of the literal) are `term` below and show up only in
what the token pointers point at. -/

/-- The key scan of `ParseStaticRoute` (lines 89-92): the unread text when the loop exits. -/
def staticSkipKey : List Char → List Char
  | [] => []
  | c :: cs => if c ≠ '.' ∧ c ≠ '[' then staticSkipKey cs else c :: cs

/-- The digit scan of `ParseStaticRoute` (lines 118-127): `none` when the body fails on a
character below `'0'` or above `'9'`, otherwise the unread text when the loop exits. -/
def staticScanDigits : List Char → Option (List Char)
  | [] => some []
  | c :: cs =>
    if c = ']' then some (c :: cs)
    else if c < '0' ∨ c > '9' then none
    else staticScanDigits cs

/-- The decoding loop of `ParseStaticRoute` (lines 135-139), in 32-bit unsigned arithmetic. -/
def staticDecodeIndex (digits : List Char) : Nat :=
  digits.foldl (fun index c => (index * 10 + (c.toNat - '0'.toNat)) % 2 ^ 32) 0

/-- The struct `ParsedStaticRoute<MaxTokens>`; `Tokens` is the array of `MaxTokens` slots. -/
structure ParsedStaticRoute where
  Tokens : List RouteToken
  Count  : Nat
  Valid  : Bool
  deriving DecidableEq, Repr

/-- What one pass through the body of the outer loop of `ParseStaticRoute` does. -/
inductive StaticStep
  | Return (parsed : ParsedStaticRoute)
  | Continue (cursor : List Char) (parsed : ParsedStaticRoute)
  deriving DecidableEq, Repr

/-- The statement pair `parsed.Valid = false; return parsed;`. -/
def staticFail (parsed : ParsedStaticRoute) : StaticStep :=
  StaticStep.Return { parsed with Valid := false }

/-- The assignment `parsed.Tokens[parsed.Count++] = token`. -/
def staticPush (parsed : ParsedStaticRoute) (token : RouteToken) : ParsedStaticRoute :=
  { parsed with Tokens := parsed.Tokens.set parsed.Count token, Count := parsed.Count + 1 }

/-- The tail of the static loop body (lines 162-170). -/
def staticTrailingDot (cursor : List Char) (parsed : ParsedStaticRoute) : StaticStep :=
  match cursor with
  | '.' :: rest =>
    if rest.head? = some '.' then staticFail parsed
    else StaticStep.Continue rest parsed
  | _ => StaticStep.Continue cursor parsed

/-- The bracket part of the static loop body (lines 114-160) followed by its tail. -/
def staticBracket (MaxTokens : Nat) (term : List Char) (cursor : List Char)
    (parsed : ParsedStaticRoute) : StaticStep :=
  match cursor with
  | '[' :: indexStart =>
    match staticScanDigits indexStart with
    | none => staticFail parsed
    | some cursor =>
      if cursor = [] ∨ indexStart.length = cursor.length then staticFail parsed
      else
        let index := staticDecodeIndex (indexStart.take (indexStart.length - cursor.length))
        if parsed.Count ≥ MaxTokens then staticFail parsed
        else if indexStart.length - cursor.length > maxTokenLength then staticFail parsed
        else
          staticTrailingDot cursor.tail
            (staticPush parsed
              { Ptr := some (indexStart ++ term)
                Length := (indexStart.length - cursor.length) % 2 ^ 16
                Kind := RouteTokenType.Index
                Index := index })
  | _ => staticTrailingDot cursor parsed

/-- One pass through the body of `while (cursor < length)` of `ParseStaticRoute`
(lines 76-171), entered with the unread text `c :: cs`. -/
def staticBody (MaxTokens : Nat) (term : List Char) (c : Char) (cs : List Char)
    (parsed : ParsedStaticRoute) : StaticStep :=
  if c = '.' then
    if cs.head? = some '.' then staticFail parsed
    else StaticStep.Continue cs parsed
  else
    let keyStart := c :: cs
    let cursor := staticSkipKey keyStart
    if keyStart.length - cursor.length > 0 then
      if parsed.Count ≥ MaxTokens then staticFail parsed
      else if keyStart.length - cursor.length > maxTokenLength then staticFail parsed
      else
        staticBracket MaxTokens term cursor
          (staticPush parsed
            { Ptr := some (keyStart ++ term)
              Length := (keyStart.length - cursor.length) % 2 ^ 16
              Kind := RouteTokenType.Key
              Index := 0 })
    else staticBracket MaxTokens term cursor parsed

/-- The outer loop `while (cursor < length)` of `ParseStaticRoute` with a budget of passes;
leaving the loop normally is `return parsed` (line 173). -/
def staticLoop (MaxTokens : Nat) (term : List Char) :
    Nat → List Char → ParsedStaticRoute → Option ParsedStaticRoute
  | _, [], parsed => some parsed
  | 0, _ :: _, _ => none
  | fuel + 1, c :: cs, parsed =>
    match staticBody MaxTokens term c cs parsed with
    | StaticStep.Return result => some result
    | StaticStep.Continue cursor next => staticLoop MaxTokens term fuel cursor next

/-- The function `detail::ParseStaticRoute<Path, MaxTokens>`, given the character array
`Path.Data` (of size `Path.Size()`, terminator included). -/
def ParseStaticRoute (Data : List Char) (MaxTokens : Nat) : Option ParsedStaticRoute :=
  let pathSize := Data.length
  let length := if pathSize > 0 then pathSize - 1 else 0
  staticLoop MaxTokens (Data.drop length) length (Data.take length)
    { Tokens := List.replicate MaxTokens {}, Count := 0, Valid := true }

/-- The default template argument `MaxTokens` of `StaticRoute` (line 386). -/
def defaultMaxTokens (Data : List Char) : Nat :=
  if Data.length > 1 then Data.length - 1 else 1

/-- The character array of a string literal: its text and the terminating NUL. -/
def literal (text : List Char) : List Char := text ++ [Char.ofNat 0]

/-- The member `StaticRoute::GetTokens`: the first `Count` slots of the token table. -/
def ParsedStaticRoute.GetTokens (p : ParsedStaticRoute) : List RouteToken :=
  p.Tokens.take p.Count

/-! ## Relating the two tokenizers -/

/-- The token table of the parse-time tokenizer holds, in its first `Count` slots, tokens
that say the same as the runtime tokenizer's vector `t`; nothing has failed so far. -/
def Sim (MaxTokens : Nat) (t : List RouteToken) (p : ParsedStaticRoute) : Prop :=
  p.Valid = true ∧ p.Count = t.length ∧ p.Tokens.length = MaxTokens ∧
  (p.Tokens.take p.Count).map RouteToken.content = t.map RouteToken.content

/-- Two passes through the loop bodies end alike: both return as invalid, or both go on
from the same cursor with matching tokens and one free slot per unread character. -/
def StepSim (MaxTokens : Nat) : LoopStep → StaticStep → Prop
  | LoopStep.Return valid _, StaticStep.Return p => valid = false ∧ p.Valid = false
  | LoopStep.Continue cursor t, StaticStep.Continue cursor' p =>
    cursor = cursor' ∧ Sim MaxTokens t p ∧ t.length + cursor.length ≤ MaxTokens
  | _, _ => False

/-- Two runs of the loops end alike: the same flag, and matching tokens when it is true. -/
def ResultSim (MaxTokens : Nat) : Option (Bool × List RouteToken) → Option ParsedStaticRoute → Prop
  | some d, some s => s.Valid = d.1 ∧ (d.1 = true → Sim MaxTokens d.2 s)
  | none, none => True
  | _, _ => False

/-! ## The tree value

The traversal engine works on `nlohmann::json`, a library outside the repository, through
`is_object`, `is_array`, `operator[]`, `find`, `size`, `push_back` and assignment. -/

/-- Modelled from the spec: the tree value `NativeJson` (`nlohmann::json`), a variant of
null, bool, number, string, array (an ordered list of tree values) and object (a mapping
from strings to tree values with unique keys, kept in insertion order). -/
inductive NativeJson
  | null
  | bool (b : Bool)
  | number (n : Int)
  | string (s : List Char)
  | array (items : List NativeJson)
  | object (members : List (List Char × NativeJson))

instance : Inhabited NativeJson := ⟨NativeJson.null⟩

namespace NativeJson

/-- Modelled from the spec: the capability `is_object`. -/
def is_object : NativeJson → Bool
  | object _ => true
  | _ => false

/-- Modelled from the spec: the capability `is_array`. -/
def is_array : NativeJson → Bool
  | array _ => true
  | _ => false

/-- Modelled from the spec: `find(key)` on the members of an object, `none` for `end()`. -/
def findMember : List (List Char × NativeJson) → List Char → Option NativeJson
  | [], _ => none
  | (k, x) :: rest, key => if k = key then some x else findMember rest key

/-- Modelled from the spec: storing a value under a key of an object: the member is
replaced where it stands, or appended when the key is new. -/
def setMember : List (List Char × NativeJson) → List Char → NativeJson →
    List (List Char × NativeJson)
  | [], key, value => [(key, value)]
  | (k, x) :: rest, key, value =>
    if k = key then (key, value) :: rest else (k, x) :: setMember rest key value

/-- Modelled from the spec: `find(key)` on a node; only an object has members. -/
def find : NativeJson → List Char → Option NativeJson
  | object members, key => findMember members key
  | _, _ => none

/-- Modelled from the spec: reading `node[key]` on an object; `operator[]` creates a null
member when the key is new. -/
def atKey : NativeJson → List Char → NativeJson
  | object members, key => (findMember members key).getD null
  | _, _ => null

/-- Modelled from the spec: writing the member `node[key]` of an object. -/
def setKey : NativeJson → List Char → NativeJson → NativeJson
  | object members, key, value => object (setMember members key value)
  | _, key, value => object [(key, value)]

/-- Modelled from the spec: the capability `size`, used here on arrays only. -/
def size : NativeJson → Nat
  | array items => items.length
  | object members => members.length
  | null => 0
  | _ => 1

/-- Modelled from the spec: `push_back(value)` on an array. -/
def push_back : NativeJson → NativeJson → NativeJson
  | array items, value => array (items ++ [value])
  | _, value => array [value]

/-- Modelled from the spec: reading `node[index]` on an array, for an index in bounds. -/
def atIndex : NativeJson → Nat → NativeJson
  | array items, index => items.getD index null
  | _, _ => null

/-- Modelled from the spec: writing the element `node[index]` of an array, for an index in
bounds. -/
def setIndex : NativeJson → Nat → NativeJson → NativeJson
  | array items, index, value => array (items.set index value)
  | other, _, _ => other

end NativeJson

/-! ## The traversal engine (`charted_json.hpp`, lines 55-63, 90-111 and 154-297) -/

namespace Json

/-- The member `Json::IsRouteValid` for a `DynamicRoute`. -/
def IsRouteValid (routeValue : DynamicRoute) : Bool := routeValue.IsValid

/-- The coercion of the child to the container the next token needs (lines 195-205 and
219-229): an object before a Key token, an array before an Index token. -/
def coerceChild (next : RouteToken) (child : NativeJson) : NativeJson :=
  if next.Kind = RouteTokenType.Key then
    if !child.is_object then NativeJson.object [] else child
  else if !child.is_array then NativeJson.array [] else child

/-- The statement `if (!current->is_object()) *current = NativeJson::object();`. -/
def ensureObject (current : NativeJson) : NativeJson :=
  if !current.is_object then NativeJson.object [] else current

/-- The statement `if (!current->is_array()) *current = NativeJson::array();`. -/
def ensureArray (current : NativeJson) : NativeJson :=
  if !current.is_array then NativeJson.array [] else current

/-- The loop `while (index >= current->size()) current->push_back(NativeJson{});` run for
at most `fuel` passes. -/
def growLoop : Nat → Nat → NativeJson → NativeJson
  | 0, _, current => current
  | fuel + 1, index, current =>
    if index ≥ current.size then growLoop fuel index (current.push_back NativeJson.null)
    else current

/-- The growth loop of lines 214-217 and 250-253; it needs `index + 1 - size` passes. -/
def grow (index : Nat) (current : NativeJson) : NativeJson :=
  growLoop (index + 1 - current.size) index current

/-- The walk of `SetPathValue` from the node `current` on (lines 182-255): the node as it
is after the walk.  A non-final token coerces the node, steps to the coerced child and
walks on in it; the final token stores the value. -/
def setWalk : NativeJson → List RouteToken → NativeJson → NativeJson
  | current, [], _ => current
  | current, [last], value =>
    if last.Kind = RouteTokenType.Key then
      (ensureObject current).setKey last.GetString value
    else
      (grow last.Index (ensureArray current)).setIndex last.Index value
  | current, token :: next :: rest, value =>
    if token.Kind = RouteTokenType.Key then
      let current := ensureObject current
      let child := coerceChild next (current.atKey token.GetString)
      current.setKey token.GetString (setWalk child (next :: rest) value)
    else
      let current := grow token.Index (ensureArray current)
      let child := coerceChild next (current.atIndex token.Index)
      current.setIndex token.Index (setWalk child (next :: rest) value)

/-- The member `Json::SetPathValue`: the root after the call. -/
def SetPathValue (Root : NativeJson) (tokens : List RouteToken) (value : NativeJson) :
    NativeJson :=
  if tokens.isEmpty then Root
  else setWalk (if !Root.is_object then NativeJson.object [] else Root) tokens value

/-- The member `Json::Set(route, value)`: the root after the call. -/
def Set (Root : NativeJson) (routeValue : DynamicRoute) (value : NativeJson) : NativeJson :=
  if !IsRouteValid routeValue then Root
  else SetPathValue Root routeValue.GetTokens value

/-- The member `Json::FindPath`: `none` for `nullptr`, otherwise the node reached. -/
def FindPath : NativeJson → List RouteToken → Option NativeJson
  | current, [] => some current
  | current, token :: rest =>
    if token.Kind = RouteTokenType.Key then
      if !current.is_object then none
      else
        match current.find token.GetString with
        | none => none
        | some child => FindPath child rest
    else
      if !current.is_array then none
      else if token.Index ≥ current.size then none
      else FindPath (current.atIndex token.Index) rest

/-- The member `Json::TryGet<Json>(route)`: `none` for `std::nullopt`. -/
def TryGet (Root : NativeJson) (routeValue : DynamicRoute) : Option NativeJson :=
  if !IsRouteValid routeValue then none
  else FindPath Root routeValue.GetTokens

end Json

/-! ## The lookup, as the specification words it -/

/-- One step of the reference walk: a Key token steps to the child under that key if the
node is an object containing the key; an Index token steps to the element at that index if
the node is an array whose size is strictly greater than the index; otherwise the step
fails. -/
def refStep (node : NativeJson) (tok : RouteToken) : Option NativeJson :=
  match tok.Kind, node with
  | RouteTokenType.Key, NativeJson.object members =>
    (members.find? (fun m => m.1 = tok.GetString)).map (fun m => m.2)
  | RouteTokenType.Index, NativeJson.array items =>
    if items.length > tok.Index then items[tok.Index]? else none
  | _, _ => none

/-- The reference walk: the tokens are processed in order from the root, and the walk is
absent as soon as a step fails. -/
def refWalk (root : NativeJson) (tokens : List RouteToken) : Option NativeJson :=
  tokens.foldlM refStep root

/-- A node is the container a token needs: an object for a Key token, an array of size
strictly greater than the index for an Index token. -/
def ContainerFor (tok : RouteToken) (node : NativeJson) : Prop :=
  match tok.Kind with
  | RouteTokenType.Key => node.is_object = true
  | RouteTokenType.Index => node.is_array = true ∧ tok.Index < node.size

/-- A place where a key can start: the start of the text, right after a `'.'`, or right
after a `']'`; `pre` is the text in front of the place. -/
def KeyPosition (pre : List Char) : Prop :=
  pre = [] ∨ pre.getLast? = some '.' ∨ pre.getLast? = some ']'

/-! ## The token table of the parse-time tokenizer -/

/-- What holds of the parse-time tokenizer's state at every capacity, at the head of the
loop with `rest` unread of a text of `n` characters: the table has its `MaxTokens` slots,
`Count` is within the table, and every token counted so far has used up a character. -/
def StaticInv (MaxTokens n : Nat) (rest : List Char) (p : ParsedStaticRoute) : Prop :=
  p.Tokens.length = MaxTokens ∧ p.Count ≤ MaxTokens ∧ p.Count + rest.length ≤ n

/-- What holds after a pass through the static loop body: the state is as `StaticInv` says,
and when the loop goes on at most `bound` characters are left unread. -/
def StaticStepInv (MaxTokens n bound : Nat) : StaticStep → Prop
  | StaticStep.Return q => StaticInv MaxTokens n [] q
  | StaticStep.Continue cursor q => StaticInv MaxTokens n cursor q ∧ cursor.length ≤ bound

/-- The states `ParseStaticRoute` is in at the head of its loop, for the scanned text
`text`: the initial state, and every state a pass through the body goes on with. -/
inductive StaticReach (MaxTokens : Nat) (term text : List Char) :
    List Char → ParsedStaticRoute → Prop
  | start : StaticReach MaxTokens term text text
      { Tokens := List.replicate MaxTokens {}, Count := 0, Valid := true }
  | pass (c : Char) (cs cursor : List Char) (parsed next : ParsedStaticRoute) :
      StaticReach MaxTokens term text (c :: cs) parsed →
      staticBody MaxTokens term c cs parsed = StaticStep.Continue cursor next →
      StaticReach MaxTokens term text cursor next

/-- Whether the bracket part of a pass, entered with `count` tokens in the table, leaves
through the return of `if (parsed.Count >= MaxTokens)` (lines 141-145): the cursor is at a
`'['`, the digit scan has found a non-empty run closed by `']'`, and the table is full. -/
def bracketCapacityExceeded (MaxTokens : Nat) (cursor : List Char) (count : Nat) : Bool :=
  match cursor with
  | '[' :: indexStart =>
    match staticScanDigits indexStart with
    | none => false
    | some cursor =>
      if cursor = [] ∨ indexStart.length = cursor.length then false
      else decide (count ≥ MaxTokens)
  | _ => false

/-- Whether a pass through the static loop body, entered with the unread text `c :: cs`,
leaves through one of its two capacity returns: the one before the Key token is stored
(lines 96-100) or the one before the Index token is stored (lines 141-145). -/
def capacityExceeded (MaxTokens : Nat) (c : Char) (cs : List Char)
    (parsed : ParsedStaticRoute) : Bool :=
  if c = '.' then false
  else
    let keyStart := c :: cs
    let cursor := staticSkipKey keyStart
    if keyStart.length - cursor.length > 0 then
      if parsed.Count ≥ MaxTokens then true
      else if keyStart.length - cursor.length > maxTokenLength then false
      else bracketCapacityExceeded MaxTokens cursor (parsed.Count + 1)
    else bracketCapacityExceeded MaxTokens cursor parsed.Count

/-! ## The runs of the runtime tokenizer's loop -/

/-- The states `ParseDynamicRoute` is in at the head of its loop for the text `path`, with
the number of passes made so far: the initial state after no pass, and every state a pass
through the body goes on with. -/
inductive DynReach (path : List Char) : Nat → List Char → List RouteToken → Prop
  | start : DynReach path 0 path []
  | pass (n : Nat) (c : Char) (cs cursor : List Char) (t t' : List RouteToken) :
      DynReach path n (c :: cs) t →
      dynBody c cs t = LoopStep.Continue cursor t' →
      DynReach path (n + 1) cursor t'

/-- The token invariant: the referenced length is greater than 0, the text the token gives
has that length, and for an Index token it consists of the characters `'0'` to `'9'`. -/
def WellReferenced (tok : RouteToken) : Prop :=
  0 < tok.Length ∧ tok.GetString.length = tok.Length ∧
  (tok.Kind = RouteTokenType.Index → ∀ c ∈ tok.GetString, '0' ≤ c ∧ c ≤ '9')

/-- The number of characters from a token's pointer to the end of the buffer. -/
def RouteToken.unread (t : RouteToken) : Nat :=
  match t.Ptr with
  | some p => p.length
  | none => 0

/-- The start offset of a token in the text `path`: the pointer difference
`Ptr - path.data()`. -/
def RouteToken.offset (path : List Char) (t : RouteToken) : Nat :=
  path.length - t.unread

/-- What a result of the tokenizer says: the flag and what each token says. -/
def resultView (r : Bool × List RouteToken) : Bool × List (RouteTokenType × List Char × Nat) :=
  (r.1, r.2.map RouteToken.content)

/-! ## What the parse-time tokenizer keeps -/

/-- The state `q` keeps what the state `p` has stored: `Count` has not gone down, and the
slots `p` counts hold in `q` what they hold in `p`. -/
def Keeps (p q : ParsedStaticRoute) : Prop :=
  p.Count ≤ q.Count ∧ q.Tokens.take p.Count = p.Tokens.take p.Count

/-- The table holds exactly `Count` stored tokens: it has its `MaxTokens` slots, the slots
below `Count` hold tokens with a pointer into the text, and the slots from `Count` on still
hold the default token they were initialised with. -/
def TableFilled (MaxTokens : Nat) (p : ParsedStaticRoute) : Prop :=
  p.Tokens.length = MaxTokens ∧ p.Count ≤ MaxTokens ∧
  (∀ i, i < p.Count → ∃ tok, p.Tokens[i]? = some tok ∧ tok.Ptr ≠ none) ∧
  (∀ i, p.Count ≤ i → i < MaxTokens → p.Tokens[i]? = some {})

/-- From `p` to `q` at most `k` tokens were stored and nothing else was touched: `q` keeps
what `p` has stored, the flag is the same, and the table still holds exactly its `Count`
stored tokens. -/
def Kept (MaxTokens k : Nat) (p q : ParsedStaticRoute) : Prop :=
  Keeps p q ∧ q.Count ≤ p.Count + k ∧ q.Valid = p.Valid ∧
  (TableFilled MaxTokens p → TableFilled MaxTokens q)

/-- What a pass through the static loop body, or a part of it, does to the state `p`: it
stores at most `k` tokens and touches nothing else, except that a return sets the flag to
false. -/
def StepKeeps (MaxTokens k : Nat) (p : ParsedStaticRoute) : StaticStep → Prop
  | StaticStep.Return q =>
    Keeps p q ∧ q.Count ≤ p.Count + k ∧ q.Valid = false ∧
    (TableFilled MaxTokens p → TableFilled MaxTokens q)
  | StaticStep.Continue _ q => Kept MaxTokens k p q

/-! ## The tokenizer: budget and loop equations -/

theorem skipKey_eq_dropWhile (l : List Char) : skipKey l = l.dropWhile isKeyChar := by
  induction l with
  | nil => rfl
  | cons c cs ih =>
    by_cases h : c ≠ '.' ∧ c ≠ '['
    · have : isKeyChar c = true := by simp [isKeyChar, h.1, h.2]
      simp [skipKey, h, List.dropWhile_cons, this, ih]
    · have : isKeyChar c = false := by
        simp only [isKeyChar]
        by_cases h1 : c = '.'
        · simp [h1]
        · have h2 : c = '[' := by
            by_contra h2
            exact h ⟨h1, h2⟩
          simp [h2]
      simp [skipKey, h, List.dropWhile_cons, this]

theorem skipKey_length_le (l : List Char) : (skipKey l).length ≤ l.length := by
  rw [skipKey_eq_dropWhile]
  exact (List.dropWhile_sublist _).length_le

theorem scanDigits_length_le : ∀ (l cur : List Char), scanDigits l = some cur → cur.length ≤ l.length
  | [], cur, h => by simp [scanDigits] at h; simp [← h]
  | c :: cs, cur, h => by
    simp only [scanDigits] at h
    split at h
    · simp at h; simp [← h]
    · split at h
      · simp at h
      · have := scanDigits_length_le cs cur h
        simp; omega

theorem dynTrailingDot_length (cursor : List Char) (t : List RouteToken) (cur : List Char)
    (t' : List RouteToken) (h : dynTrailingDot cursor t = LoopStep.Continue cur t') :
    cur.length ≤ cursor.length := by
  unfold dynTrailingDot at h
  split at h
  · split at h
    · simp at h
    · simp at h; simp [← h.1]
  · simp at h; simp [← h.1]

theorem dynBracket_length (cursor : List Char) (t : List RouteToken) (cur : List Char)
    (t' : List RouteToken) (h : dynBracket cursor t = LoopStep.Continue cur t') :
    cur.length ≤ cursor.length ∧ (cursor.head? = some '[' → cur.length < cursor.length) := by
  unfold dynBracket at h
  split at h
  · rename_i indexStart
    split at h
    · simp at h
    · rename_i c hc
      split at h
      · simp at h
      · split at h
        · simp at h
        · have h1 := dynTrailingDot_length _ _ _ _ h
          have h2 := scanDigits_length_le _ _ hc
          have h3 : c.tail.length ≤ c.length := by simp
          simp only [List.length_cons]
          constructor
          · omega
          · intro _; omega
  · rename_i hne
    have h1 := dynTrailingDot_length _ _ _ _ h
    refine ⟨h1, ?_⟩
    intro hh
    cases cursor with
    | nil => simp at hh
    | cons a as =>
      simp at hh
      exact (hne as (by rw [hh])).elim

theorem dynBody_length (c : Char) (cs : List Char) (t : List RouteToken) (cur : List Char)
    (t' : List RouteToken) (h : dynBody c cs t = LoopStep.Continue cur t') :
    cur.length ≤ cs.length := by
  unfold dynBody at h
  split at h
  · split at h
    · simp at h
    · simp at h; simp [← h.1]
  · rename_i hdot
    by_cases hb : c = '['
    · subst hb
      have hk : skipKey ('[' :: cs) = '[' :: cs := by simp [skipKey]
      simp only [hk, Nat.sub_self, gt_iff_lt, Nat.lt_irrefl, ↓reduceIte] at h
      have := (dynBracket_length _ _ _ _ h).2 (by simp)
      simp at this; omega
    · have hk : skipKey (c :: cs) = skipKey cs := by simp [skipKey, hdot, hb]
      simp only [hk] at h
      have hl := skipKey_length_le cs
      split at h
      · split at h
        · simp at h
        · have := (dynBracket_length _ _ _ _ h).1
          omega
      · have := (dynBracket_length _ _ _ _ h).1
        omega

theorem dynLoop_fuel_aux : ∀ (n fuel₁ fuel₂ : Nat) (rest : List Char) (t : List RouteToken),
    rest.length ≤ n → rest.length ≤ fuel₁ → rest.length ≤ fuel₂ →
    dynLoop fuel₁ rest t = dynLoop fuel₂ rest t
  | _, _, _, [], _, _, _, _ => by simp [dynLoop]
  | 0, _, _, _ :: _, _, h, _, _ => by simp at h
  | _, 0, _, _ :: _, _, _, h, _ => by simp at h
  | _, _, 0, _ :: _, _, _, _, h => by simp at h
  | n + 1, f₁ + 1, f₂ + 1, c :: cs, t, hn, h₁, h₂ => by
    simp only [dynLoop]
    cases hb : dynBody c cs t with
    | Return v tk => rfl
    | Continue cur tk =>
      have hl := dynBody_length c cs t cur tk hb
      simp only [List.length_cons] at hn h₁ h₂
      exact dynLoop_fuel_aux n f₁ f₂ cur tk (by omega) (by omega) (by omega)

theorem dynLoop_eq_parseFrom (fuel : Nat) (rest : List Char) (t : List RouteToken)
    (h : rest.length ≤ fuel) : dynLoop fuel rest t = parseFrom rest t :=
  dynLoop_fuel_aux rest.length fuel rest.length rest t (le_refl _) h (le_refl _)

theorem ParseDynamicRoute_eq (path : List Char) (out : List RouteToken) :
    ParseDynamicRoute path out = parseFrom path [] := by
  simp [ParseDynamicRoute, parseFrom]

theorem parseFrom_nil (t : List RouteToken) : parseFrom [] t = some (true, t) := by
  simp [parseFrom, dynLoop]

theorem parseFrom_cons (c : Char) (cs : List Char) (t : List RouteToken) :
    parseFrom (c :: cs) t =
      match dynBody c cs t with
      | LoopStep.Return valid tokens => some (valid, tokens)
      | LoopStep.Continue cursor tokens => parseFrom cursor tokens := by
  simp only [parseFrom, List.length_cons, dynLoop]
  cases hb : dynBody c cs t with
  | Return v tk => rfl
  | Continue cur tk =>
    have hl := dynBody_length c cs t cur tk hb
    exact dynLoop_eq_parseFrom _ _ _ hl

theorem parseFrom_step (c : Char) (cs : List Char) (t : List RouteToken) :
    parseFrom (c :: cs) t = runStep (dynBody c cs t) := by
  rw [parseFrom_cons]; cases dynBody c cs t <;> rfl

theorem parseFrom_dot (r : List Char) (t : List RouteToken) :
    parseFrom ('.' :: r) t = if r.head? = some '.' then some (false, []) else parseFrom r t := by
  rw [parseFrom_step]
  simp only [dynBody, ↓reduceIte]
  split <;> rfl

theorem runStep_trailingDot (cur : List Char) (t : List RouteToken) :
    runStep (dynTrailingDot cur t) = parseFrom cur t := by
  unfold dynTrailingDot
  split
  · rw [parseFrom_dot]; split <;> rfl
  · rfl

theorem runStep_bracket_open (r : List Char) (t : List RouteToken) :
    runStep (dynBracket ('[' :: r) t) = parseFrom ('[' :: r) t := by
  rw [parseFrom_step]
  have hk : skipKey ('[' :: r) = '[' :: r := by simp [skipKey]
  simp [dynBody, hk]

theorem runStep_bracket (cur : List Char) (t : List RouteToken)
    (h : ∀ c ∈ cur.head?, isKeyChar c = false) :
    runStep (dynBracket cur t) = parseFrom cur t := by
  match cur, h with
  | [], _ => simp [dynBracket, runStep_trailingDot]
  | c :: r, h =>
    have hc : isKeyChar c = false := h c (by simp)
    by_cases hb : c = '['
    · subst hb; exact runStep_bracket_open r t
    · have : dynBracket (c :: r) t = dynTrailingDot (c :: r) t := by
        unfold dynBracket
        split
        · rename_i heq; simp at heq; exact absurd heq.1 hb
        · rfl
      rw [this, runStep_trailingDot]

theorem isDigitChar_iff (c : Char) : isDigitChar c = false ↔ (c < '0' ∨ c > '9') := by
  simp only [isDigitChar, decide_eq_false_iff_not, not_and_or, not_le, gt_iff_lt]

theorem scanDigits_eq (l : List Char) :
    scanDigits l =
      match l.dropWhile isDigitChar with
      | [] => some []
      | c :: r => if c = ']' then some (c :: r) else none := by
  induction l with
  | nil => rfl
  | cons c cs ih =>
    simp only [scanDigits]
    by_cases h1 : c = ']'
    · subst h1
      have : isDigitChar ']' = false := by decide
      simp [List.dropWhile_cons, this]
    · by_cases h2 : c < '0' ∨ c > '9'
      · have : isDigitChar c = false := (isDigitChar_iff c).2 h2
        simp [List.dropWhile_cons, this, h1, h2]
      · have : isDigitChar c = true := by
          cases h : isDigitChar c
          · exact absurd ((isDigitChar_iff c).1 h) h2
          · rfl
        simp [List.dropWhile_cons, this, h1, h2, ih]

theorem length_sub_dropWhile (p : Char → Bool) (l : List Char) :
    l.length - (l.dropWhile p).length = (l.takeWhile p).length := by
  have h := congrArg List.length (List.takeWhile_append_dropWhile p l)
  simp only [List.length_append] at h
  omega

theorem take_length_takeWhile (p : Char → Bool) (l : List Char) :
    l.take (l.takeWhile p).length = l.takeWhile p := by
  induction l with
  | nil => rfl
  | cons a as ih =>
    by_cases h : p a = true
    · simp [List.takeWhile_cons, h, ih]
    · simp [List.takeWhile_cons, h]

theorem dropWhile_head_false (p : Char → Bool) :
    ∀ (l : List Char) (x : Char) (xs : List Char), l.dropWhile p = x :: xs → p x = false
  | [], _, _, h => by simp at h
  | a :: as, x, xs, h => by
    by_cases ha : p a = true
    · rw [List.dropWhile_cons_of_pos ha] at h
      exact dropWhile_head_false p as x xs h
    · rw [List.dropWhile_cons_of_neg ha] at h
      simp at h
      rw [← h.1]
      simpa using ha

theorem parseFrom_open (r : List Char) (t : List RouteToken) :
    parseFrom ('[' :: r) t =
      if r.takeWhile isDigitChar ≠ [] ∧ (r.takeWhile isDigitChar).length ≤ maxTokenLength ∧
          (r.dropWhile isDigitChar).head? = some ']' then
        parseFrom (r.dropWhile isDigitChar).tail
          (t ++ [indexToken r (r.takeWhile isDigitChar).length])
      else some (false, []) := by
  rw [← runStep_bracket_open]
  simp only [dynBracket, scanDigits_eq]
  have hlen := length_sub_dropWhile isDigitChar r
  have htl : (r.takeWhile isDigitChar = []) ↔ r.length = (r.dropWhile isDigitChar).length := by
    have h := congrArg List.length (List.takeWhile_append_dropWhile isDigitChar r)
    simp only [List.length_append] at h
    rw [← List.length_eq_zero]
    omega
  cases hd : r.dropWhile isDigitChar with
  | nil => simp [runStep]
  | cons c rest =>
    rw [hd] at hlen htl
    by_cases hc : c = ']'
    · subst hc
      simp only [↓reduceIte, reduceCtorEq, false_or, List.head?_cons, and_true, List.tail_cons]
      by_cases he : r.takeWhile isDigitChar = []
      · simp [he, htl.1 he, runStep]
      · have hne : ¬ r.length = (']' :: rest).length := fun h => he (htl.2 h)
        rw [if_neg hne, hlen]
        by_cases hl : (r.takeWhile isDigitChar).length > maxTokenLength
        · have : ¬ (r.takeWhile isDigitChar).length ≤ maxTokenLength := by omega
          simp [hl, this, runStep]
        · have : (r.takeWhile isDigitChar).length ≤ maxTokenLength := by omega
          rw [if_neg hl, runStep_trailingDot]
          simp [he, this, indexToken]
    · simp [hc, runStep]

theorem parseFrom_key (c : Char) (r : List Char) (t : List RouteToken)
    (hc : isKeyChar c = true) :
    parseFrom (c :: r) t =
      if ((c :: r).takeWhile isKeyChar).length ≤ maxTokenLength then
        parseFrom ((c :: r).dropWhile isKeyChar)
          (t ++ [keyToken (c :: r) ((c :: r).takeWhile isKeyChar).length])
      else some (false, []) := by
  rw [parseFrom_step]
  have hdot : c ≠ '.' := by
    intro h; subst h; simp [isKeyChar] at hc
  have hlen := length_sub_dropWhile isKeyChar (c :: r)
  have hpos : 0 < ((c :: r).takeWhile isKeyChar).length := by
    simp [List.takeWhile_cons, hc]
  simp only [dynBody, hdot, ↓reduceIte, skipKey_eq_dropWhile, hlen, gt_iff_lt, hpos]
  by_cases hl : ((c :: r).takeWhile isKeyChar).length ≤ maxTokenLength
  · have : ¬ maxTokenLength < ((c :: r).takeWhile isKeyChar).length := by omega
    rw [if_neg this, if_pos hl, runStep_bracket]
    · rfl
    · intro d hd
      cases hdw : (c :: r).dropWhile isKeyChar with
      | nil => rw [hdw] at hd; simp at hd
      | cons x xs =>
        rw [hdw] at hd
        simp at hd
        subst hd
        exact dropWhile_head_false isKeyChar _ _ _ hdw
  · have : maxTokenLength < ((c :: r).takeWhile isKeyChar).length := by omega
    rw [if_pos this, if_neg hl]; rfl

/-! ## The tokenizer: keys, bracket groups and decoding -/

theorem decode_fold (ds : List Char) : ∀ a : Nat,
    ds.foldl (fun index c => (index * 10 + (c.toNat - '0'.toNat)) % 2 ^ 32) (a % 2 ^ 32) =
      (ds.foldl (fun n c => n * 10 + (c.toNat - '0'.toNat)) a) % 2 ^ 32 := by
  induction ds with
  | nil => intro a; simp
  | cons d ds ih =>
    intro a
    simp only [List.foldl_cons]
    have : (a % 2 ^ 32 * 10 + (d.toNat - '0'.toNat)) % 2 ^ 32 =
        (a * 10 + (d.toNat - '0'.toNat)) % 2 ^ 32 := by
      norm_num; omega
    rw [this, ih]

theorem decodeIndex_eq_mod (ds : List Char) : decodeIndex ds = decimalValue ds % 2 ^ 32 := by
  have := decode_fold ds 0
  simpa [decodeIndex, decimalValue] using this

theorem decodeIndex_eq (ds : List Char) (h : decimalValue ds < 2 ^ 32) :
    decodeIndex ds = decimalValue ds := by
  rw [decodeIndex_eq_mod, Nat.mod_eq_of_lt h]

theorem takeWhile_append_stop (p : Char → Bool) (k r : List Char) (hk : ∀ c ∈ k, p c = true)
    (hr : ∀ c ∈ r.head?, p c = false) : (k ++ r).takeWhile p = k := by
  induction k with
  | nil =>
    cases r with
    | nil => rfl
    | cons a as =>
      have := hr a (by simp)
      simp [List.takeWhile_cons, this]
  | cons a as ih =>
    have ha := hk a (by simp)
    simp only [List.cons_append, List.takeWhile_cons, ha, ↓reduceIte]
    rw [ih (fun c hc => hk c (by simp [hc]))]

theorem dropWhile_append_stop (p : Char → Bool) (k r : List Char) (hk : ∀ c ∈ k, p c = true)
    (hr : ∀ c ∈ r.head?, p c = false) : (k ++ r).dropWhile p = r := by
  induction k with
  | nil =>
    cases r with
    | nil => rfl
    | cons a as =>
      have := hr a (by simp)
      simp [List.dropWhile_cons, this]
  | cons a as ih =>
    have ha := hk a (by simp)
    simp only [List.cons_append, List.dropWhile_cons, ha, ↓reduceIte]
    rw [ih (fun c hc => hk c (by simp [hc]))]

/-- A key of 1 to 65535 key characters, followed by something that is not a key character,
is consumed as one Key token. -/
theorem parseFrom_keyRun (k r : List Char) (t : List RouteToken) (hne : k ≠ [])
    (hlen : k.length ≤ maxTokenLength) (hk : ∀ c ∈ k, isKeyChar c = true)
    (hr : ∀ c ∈ r.head?, isKeyChar c = false) :
    parseFrom (k ++ r) t = parseFrom r (t ++ [keyToken (k ++ r) k.length]) := by
  cases k with
  | nil => exact absurd rfl hne
  | cons c cs =>
    have h1 := takeWhile_append_stop isKeyChar (c :: cs) r hk hr
    have h2 := dropWhile_append_stop isKeyChar (c :: cs) r hk hr
    simp only [List.cons_append] at h1 h2 ⊢
    rw [parseFrom_key c (cs ++ r) t (hk c (by simp)), h1, h2, if_pos hlen]

/-- A bracket group of 1 to 65535 digits is consumed as one Index token, whatever follows. -/
theorem parseFrom_group (ds r : List Char) (t : List RouteToken) (hne : ds ≠ [])
    (hlen : ds.length ≤ maxTokenLength) (hd : ∀ c ∈ ds, isDigitChar c = true) :
    parseFrom ('[' :: (ds ++ ']' :: r)) t =
      parseFrom r (t ++ [indexToken (ds ++ ']' :: r) ds.length]) := by
  have hr : ∀ c ∈ (']' :: r).head?, isDigitChar c = false := by
    intro c hc; simp at hc; subst hc; decide
  have h1 := takeWhile_append_stop isDigitChar ds (']' :: r) hd hr
  have h2 := dropWhile_append_stop isDigitChar ds (']' :: r) hd hr
  rw [parseFrom_open, h1, h2]
  simp [hne, hlen]

theorem keyToken_content (k r : List Char) (hne : k ≠ []) (hlen : k.length ≤ maxTokenLength) :
    (keyToken (k ++ r) k.length).content = (RouteTokenType.Key, k, 0) := by
  have hpos : 0 < k.length := List.length_pos.2 hne
  have hmod : k.length % 65536 = k.length := by
    apply Nat.mod_eq_of_lt; simp only [maxTokenLength] at hlen; omega
  simp [RouteToken.content, keyToken, RouteToken.GetString, hmod, hpos]

theorem indexToken_content (ds r : List Char) (hne : ds ≠ []) (hlen : ds.length ≤ maxTokenLength) :
    (indexToken (ds ++ r) ds.length).content = (RouteTokenType.Index, ds, decodeIndex ds) := by
  have hpos : 0 < ds.length := List.length_pos.2 hne
  have hmod : ds.length % 65536 = ds.length := by
    apply Nat.mod_eq_of_lt; simp only [maxTokenLength] at hlen; omega
  simp [RouteToken.content, indexToken, RouteToken.GetString, hmod, hpos]


/-! ## The tokenizer on well-formed paths -/

theorem isKeyChar_of_ne (c : Char) (h : c ≠ '.' ∧ c ≠ '[') : isKeyChar c = true := by
  simp [isKeyChar, h.1, h.2]

theorem isDigitChar_of_le (c : Char) (h : '0' ≤ c ∧ c ≤ '9') : isDigitChar c = true := by
  simp [isDigitChar, h.1, h.2]

/-- The bracket groups of a segment are consumed one Index token each. -/
theorem parseFrom_groups : ∀ (groups : List (List Char)) (r : List Char) (t : List RouteToken),
    (∀ ds ∈ groups, ds ≠ [] ∧ ds.length ≤ 65535 ∧ (∀ d ∈ ds, '0' ≤ d ∧ d ≤ '9') ∧
      decimalValue ds < 2 ^ 32) →
    ∃ ts : List RouteToken,
      parseFrom ((groups.map bracketText).flatten ++ r) t = parseFrom r (t ++ ts) ∧
      ts.map RouteToken.content =
        groups.map (fun ds => (RouteTokenType.Index, ds, decimalValue ds))
  | [], r, t, _ => ⟨[], by simp, by simp⟩
  | ds :: gs, r, t, h => by
    obtain ⟨hne, hlen, hdig, hval⟩ := h ds (by simp)
    obtain ⟨ts, h1, h2⟩ := parseFrom_groups gs r
      (t ++ [indexToken (ds ++ ']' :: ((gs.map bracketText).flatten ++ r)) ds.length])
      (fun d hd => h d (by simp [hd]))
    refine ⟨indexToken (ds ++ ']' :: ((gs.map bracketText).flatten ++ r)) ds.length :: ts, ?_, ?_⟩
    · have := parseFrom_group ds ((gs.map bracketText).flatten ++ r) t hne hlen
        (fun c hc => isDigitChar_of_le c (hdig c hc))
      simp only [List.map_cons, List.flatten_cons, bracketText, List.cons_append,
        List.append_assoc, List.singleton_append, List.nil_append]
      rw [this, h1]
      simp
    · simp only [List.map_cons, h2]
      rw [indexToken_content ds _ hne hlen, decodeIndex_eq ds hval]

/-- A well-formed segment followed by the end of the text or by a `'.'` is consumed as its
tokens. -/
theorem parseFrom_segment (s : Segment) (hs : s.WellFormed) (r : List Char)
    (t : List RouteToken) (hr : ∀ c ∈ r.head?, c = '.') :
    ∃ ts : List RouteToken,
      parseFrom (s.text ++ r) t = parseFrom r (t ++ ts) ∧
      ts.map RouteToken.content = s.contents := by
  obtain ⟨hklen, hkc, hg, _⟩ := hs
  by_cases hk : s.key = []
  · obtain ⟨ts, h1, h2⟩ := parseFrom_groups s.groups r t hg
    refine ⟨ts, ?_, ?_⟩
    · simp only [Segment.text, hk, List.nil_append]; exact h1
    · simp [Segment.contents, hk, h2]
  · obtain ⟨ts, h1, h2⟩ := parseFrom_groups s.groups r
      (t ++ [keyToken (s.key ++ ((s.groups.map bracketText).flatten ++ r)) s.key.length]) hg
    refine ⟨keyToken (s.key ++ ((s.groups.map bracketText).flatten ++ r)) s.key.length :: ts,
      ?_, ?_⟩
    · have hstop : ∀ c ∈ ((s.groups.map bracketText).flatten ++ r).head?,
          isKeyChar c = false := by
        intro c hc
        cases hgs : s.groups with
        | nil =>
          rw [hgs] at hc
          simp only [List.map_nil, List.flatten_nil, List.nil_append] at hc
          rw [hr c hc]; decide
        | cons g gs =>
          rw [hgs] at hc
          simp [bracketText] at hc
          rw [← hc]; decide
      have := parseFrom_keyRun s.key _ t hk hklen
        (fun c hc => isKeyChar_of_ne c (hkc c hc)) hstop
      simp only [Segment.text, List.append_assoc]
      rw [this, h1]
      simp
    · simp only [List.map_cons, h2, Segment.contents, hk, ↓reduceIte, List.singleton_append]
      rw [keyToken_content s.key _ hk hklen]

theorem Segment.text_head (s : Segment) (hs : s.WellFormed) :
    s.text ≠ [] ∧ s.text.head? ≠ some '.' := by
  obtain ⟨_, hkc, _, hne⟩ := hs
  cases hk : s.key with
  | cons c cs =>
    have := (hkc c (by simp [hk])).1
    simp [Segment.text, hk, this]
  | nil =>
    cases hg : s.groups with
    | nil => simp [hk, hg] at hne
    | cons g gs => simp [Segment.text, hk, hg, bracketText]

theorem joinDots_head (s : Segment) (hs : s.WellFormed) (rest : List Segment) :
    (joinDots ((s :: rest).map Segment.text)).head? ≠ some '.' := by
  obtain ⟨h1, h2⟩ := s.text_head hs
  cases rest with
  | nil => simpa [joinDots] using h2
  | cons b l =>
    simp only [List.map_cons, joinDots]
    cases ht : s.text with
    | nil => exact absurd ht h1
    | cons c cs =>
      rw [ht] at h2
      simpa using h2

/-- The segments of a path are consumed in order. -/
theorem parseFrom_segments : ∀ (segs : List Segment) (t : List RouteToken),
    segs ≠ [] → (∀ s ∈ segs, s.WellFormed) →
    ∃ ts : List RouteToken,
      parseFrom (joinDots (segs.map Segment.text)) t = some (true, t ++ ts) ∧
      ts.map RouteToken.content = (segs.map Segment.contents).flatten
  | [], _, h, _ => absurd rfl h
  | [s], t, _, hwf => by
    obtain ⟨ts, h1, h2⟩ := parseFrom_segment s (hwf s (by simp)) [] t (by simp)
    refine ⟨ts, ?_, by simp [h2]⟩
    simp only [List.append_nil] at h1
    simp [joinDots, h1, parseFrom_nil]
  | s :: b :: l, t, _, hwf => by
    obtain ⟨ts, h1, h2⟩ := parseFrom_segment s (hwf s (by simp))
      ('.' :: joinDots ((b :: l).map Segment.text)) t (by simp)
    obtain ⟨ts', h3, h4⟩ := parseFrom_segments (b :: l) (t ++ ts) (by simp)
      (fun x hx => hwf x (by simp [hx]))
    refine ⟨ts ++ ts', ?_, ?_⟩
    · have hh := joinDots_head b (hwf b (by simp)) l
      simp only [List.map_cons, joinDots] at h1 h3 hh ⊢
      rw [h1, parseFrom_dot, if_neg hh, h3]
      simp
    · simp [h2, h4]


/-! ## The tokenizer always returns; the texts it accepts -/

theorem takeWhile_all (p : Char → Bool) (l : List Char) : ∀ c ∈ l.takeWhile p, p c = true :=
  fun _ hc => List.mem_takeWhile_imp hc

theorem dropWhile_stop (p : Char → Bool) (l : List Char) :
    ∀ c ∈ (l.dropWhile p).head?, p c = false := by
  intro c hc
  cases h : l.dropWhile p with
  | nil => rw [h] at hc; simp at hc
  | cons x xs =>
    rw [h] at hc
    simp at hc
    subst hc
    exact dropWhile_head_false p l _ _ h

/-- The tokenizer either accepts, and then the text is in `Lex` with the emitted tokens, or
it rejects with an empty token vector; it never runs out of budget. -/
theorem parseFrom_total : ∀ (n : Nat) (rest : List Char) (t : List RouteToken),
    rest.length ≤ n →
    (∃ ts, parseFrom rest t = some (true, t ++ ts) ∧ Lex rest ts) ∨
      parseFrom rest t = some (false, [])
  | _, [], t, _ => Or.inl ⟨[], by simp [parseFrom_nil], Lex.done⟩
  | 0, _ :: _, _, h => by simp at h
  | n + 1, c :: r, t, h => by
    simp only [List.length_cons, Nat.add_le_add_iff_right] at h
    by_cases hdot : c = '.'
    · subst hdot
      rw [parseFrom_dot]
      by_cases hh : r.head? = some '.'
      · right; simp [hh]
      · rw [if_neg hh]
        rcases parseFrom_total n r t h with ⟨ts, h1, h2⟩ | h1
        · exact Or.inl ⟨ts, h1, Lex.dot r ts hh h2⟩
        · exact Or.inr h1
    · by_cases hbr : c = '['
      · subst hbr
        rw [parseFrom_open]
        by_cases hc : r.takeWhile isDigitChar ≠ [] ∧
            (r.takeWhile isDigitChar).length ≤ maxTokenLength ∧
            (r.dropWhile isDigitChar).head? = some ']'
        · rw [if_pos hc]
          obtain ⟨hne, hlen, hhd⟩ := hc
          obtain ⟨tl, htl⟩ : ∃ tl, r.dropWhile isDigitChar = ']' :: tl := by
            cases hd : r.dropWhile isDigitChar with
            | nil => rw [hd] at hhd; simp at hhd
            | cons x xs => rw [hd] at hhd; simp at hhd; exact ⟨xs, by rw [hhd]⟩
          have hr : r = r.takeWhile isDigitChar ++ ']' :: tl := by
            rw [← htl, List.takeWhile_append_dropWhile]
          have hlt : tl.length ≤ n := by
            have := congrArg List.length hr
            simp only [List.length_append, List.length_cons] at this
            omega
          rw [htl, List.tail_cons]
          rcases parseFrom_total n tl
              (t ++ [indexToken r (r.takeWhile isDigitChar).length]) hlt with ⟨ts, h1, h2⟩ | h1
          · left
            refine ⟨indexToken r (r.takeWhile isDigitChar).length :: ts, by simpa using h1, ?_⟩
            have := Lex.group (r.takeWhile isDigitChar) tl ts hne hlen
              (takeWhile_all isDigitChar r) h2
            rw [← hr] at this
            exact this
          · exact Or.inr h1
        · right; rw [if_neg hc]
      · have hk : isKeyChar c = true := isKeyChar_of_ne c ⟨hdot, hbr⟩
        rw [parseFrom_key c r t hk]
        by_cases hlen : ((c :: r).takeWhile isKeyChar).length ≤ maxTokenLength
        · rw [if_pos hlen]
          have hd : (c :: r).dropWhile isKeyChar = r.dropWhile isKeyChar := by
            simp [List.dropWhile_cons, hk]
          have hlt : ((c :: r).dropWhile isKeyChar).length ≤ n := by
            rw [hd]
            exact le_trans (List.dropWhile_sublist _).length_le h
          have hne : (c :: r).takeWhile isKeyChar ≠ [] := by
            simp [List.takeWhile_cons, hk]
          rcases parseFrom_total n ((c :: r).dropWhile isKeyChar)
              (t ++ [keyToken (c :: r) ((c :: r).takeWhile isKeyChar).length]) hlt
            with ⟨ts, h1, h2⟩ | h1
          · left
            refine ⟨keyToken (c :: r) ((c :: r).takeWhile isKeyChar).length :: ts,
              by simpa using h1, ?_⟩
            have := Lex.key ((c :: r).takeWhile isKeyChar) ((c :: r).dropWhile isKeyChar) ts
              hne hlen (takeWhile_all isKeyChar _) (dropWhile_stop isKeyChar _) h2
            rw [List.takeWhile_append_dropWhile] at this
            exact this
          · exact Or.inr h1
        · right; rw [if_neg hlen]

/-- The runtime tokenizer always returns: it accepts with tokens described by `Lex`, or it
rejects with an empty token vector. -/
theorem ParseDynamicRoute_total (path : List Char) (out : List RouteToken) :
    (∃ ts, ParseDynamicRoute path out = some (true, ts) ∧ Lex path ts) ∨
      ParseDynamicRoute path out = some (false, []) := by
  rw [ParseDynamicRoute_eq]
  simpa using parseFrom_total path.length path [] (le_refl _)

theorem ParseDynamicRoute_accepts (path : List Char) (out ts : List RouteToken)
    (h : ParseDynamicRoute path out = some (true, ts)) : Lex path ts := by
  rcases ParseDynamicRoute_total path out with ⟨ts', h1, h2⟩ | h1
  · rw [h1] at h; simp at h; rw [← h]; exact h2
  · rw [h1] at h; simp at h

/-- Every text in `Lex` is accepted with the tokens `Lex` gives. -/
theorem Lex.accepted {rest : List Char} {ts : List RouteToken} (h : Lex rest ts) :
    ∀ t, parseFrom rest t = some (true, t ++ ts) := by
  induction h with
  | done => intro t; simp [parseFrom_nil]
  | dot r ts hh _ ih => intro t; rw [parseFrom_dot, if_neg hh, ih]
  | group ds r ts hne hlen hd _ ih =>
    intro t; rw [parseFrom_group ds r t hne hlen hd, ih]; simp
  | key k r ts hne hlen hk hr _ ih =>
    intro t; rw [parseFrom_keyRun k r t hne hlen hk hr, ih]; simp


/-! ## Accepted texts have no adjacent dots -/

theorem hasDotDot_mid : ∀ (pre post : List Char), hasDotDot (pre ++ '.' :: '.' :: post) = true
  | [], post => by simp [hasDotDot]
  | a :: pre, post => by
    simp only [List.cons_append, hasDotDot, Bool.or_eq_true]
    exact Or.inr (hasDotDot_mid pre post)

theorem hasDotDot_skip : ∀ (k r : List Char), (∀ c ∈ k, c ≠ '.') →
    hasDotDot (k ++ r) = hasDotDot r
  | [], r, _ => rfl
  | a :: k, r, h => by
    have ha : a ≠ '.' := h a (by simp)
    have ih := hasDotDot_skip k r (fun c hc => h c (by simp [hc]))
    show (a == '.' && (k ++ r).head? == some '.' || hasDotDot (k ++ r)) = hasDotDot r
    rw [ih]
    simp [ha]

theorem isKeyChar_ne_dot (c : Char) (h : isKeyChar c = true) : c ≠ '.' := by
  intro hc; subst hc; simp [isKeyChar] at h

theorem isKeyChar_ne_open (c : Char) (h : isKeyChar c = true) : c ≠ '[' := by
  intro hc; subst hc; simp [isKeyChar] at h

theorem isDigitChar_ne_dot (c : Char) (h : isDigitChar c = true) : c ≠ '.' := by
  intro hc; subst hc; revert h; decide

theorem isDigitChar_ne_open (c : Char) (h : isDigitChar c = true) : c ≠ '[' := by
  intro hc; subst hc; revert h; decide

theorem Lex.no_dotdot {rest : List Char} {ts : List RouteToken} (h : Lex rest ts) :
    hasDotDot rest = false := by
  induction h with
  | done => rfl
  | dot r ts hh _ ih =>
    simp only [hasDotDot, ih, Bool.or_false, Bool.and_eq_false_imp, beq_iff_eq]
    intro _
    simpa using hh
  | group ds r ts _ _ hd _ ih =>
    have : '[' :: (ds ++ ']' :: r) = ('[' :: (ds ++ [']'])) ++ r := by simp
    rw [this, hasDotDot_skip _ _ ?_, ih]
    intro c hc
    simp only [List.mem_cons, List.mem_append, List.mem_singleton, List.not_mem_nil,
      or_false] at hc
    rcases hc with h1 | h1 | h1
    · rw [h1]; decide
    · exact isDigitChar_ne_dot c (hd c h1)
    · rw [h1]; decide
  | key k r ts _ _ hk _ _ ih =>
    rw [hasDotDot_skip _ _ (fun c hc => isKeyChar_ne_dot c (hk c hc)), ih]


/-! ## Accepted texts have well-formed bracket groups -/

theorem split_after_run (x : Char) : ∀ (k r pre post : List Char), (∀ c ∈ k, c ≠ x) →
    k ++ r = pre ++ x :: post → ∃ mid, pre = k ++ mid ∧ r = mid ++ x :: post
  | [], r, pre, post, _, h => ⟨pre, rfl, by simpa using h⟩
  | a :: k, r, [], post, hk, h => by
    simp only [List.cons_append, List.nil_append, List.cons.injEq] at h
    exact absurd h.1 (hk a (by simp))
  | a :: k, r, b :: pre, post, hk, h => by
    simp only [List.cons_append, List.cons.injEq] at h
    obtain ⟨mid, h1, h2⟩ := split_after_run x k r pre post (fun c hc => hk c (by simp [hc])) h.2
    exact ⟨mid, by simp [h.1, h1], h2⟩

/-- In an accepted text every `'['` opens a bracket group: it is followed by one or more
digits and then `']'`. -/
theorem Lex.brackets_closed {rest : List Char} {ts : List RouteToken} (h : Lex rest ts) :
    ∀ pre post : List Char, rest = pre ++ '[' :: post →
      ∃ ds tl : List Char, ds ≠ [] ∧ (∀ d ∈ ds, '0' ≤ d ∧ d ≤ '9') ∧ post = ds ++ ']' :: tl := by
  induction h with
  | done => intro pre post h; simp at h
  | dot r ts _ _ ih =>
    intro pre post h
    cases pre with
    | nil => simp at h
    | cons a pre =>
      simp only [List.cons_append, List.cons.injEq] at h
      exact ih pre post h.2
  | group ds r ts hne _ hd _ ih =>
    intro pre post h
    cases pre with
    | nil =>
      simp only [List.nil_append, List.cons.injEq, true_and] at h
      exact ⟨ds, r, hne, fun d hdm => by simpa [isDigitChar] using hd d hdm, h.symm⟩
    | cons a pre =>
      simp only [List.cons_append, List.cons.injEq] at h
      have h2 : (ds ++ [']']) ++ r = pre ++ '[' :: post := by simpa using h.2
      obtain ⟨mid, _, h4⟩ := split_after_run '[' (ds ++ [']']) r pre post (by
        intro c hc
        simp only [List.mem_append, List.mem_singleton] at hc
        rcases hc with h1 | h1
        · exact isDigitChar_ne_open c (hd c h1)
        · rw [h1]; decide) h2
      exact ih mid post h4
  | key k r ts _ _ hk _ _ ih =>
    intro pre post h
    obtain ⟨mid, _, h4⟩ := split_after_run '[' k r pre post
      (fun c hc => isKeyChar_ne_open c (hk c hc)) h
    exact ih mid post h4


/-! ## Accepted texts and the grammar -/

theorem joinDots_cons_append (a b : List Char) (l : List (List Char)) :
    joinDots ((a ++ b) :: l) = a ++ joinDots (b :: l) := by
  cases l with
  | nil => rfl
  | cons x l => simp [joinDots]

theorem dot_mem_joinDots (a b : List Char) (l : List (List Char)) :
    '.' ∈ joinDots (a :: b :: l) := by
  simp [joinDots]

theorem groups_getLast? : ∀ (gs : List (List Char)) (pre : List Char), gs ≠ [] →
    (pre ++ (gs.map bracketText).flatten).getLast? = some ']'
  | [], _, h => absurd rfl h
  | [g], pre, _ => by
    have : pre ++ ([g].map bracketText).flatten = (pre ++ '[' :: g) ++ [']'] := by
      simp [bracketText]
    rw [this, List.getLast?_append]
    simp
  | g :: g' :: gs, pre, _ => by
    have : pre ++ ((g :: g' :: gs).map bracketText).flatten =
        (pre ++ bracketText g) ++ ((g' :: gs).map bracketText).flatten := by
      simp
    rw [this]
    exact groups_getLast? (g' :: gs) _ (by simp)

/-- Every accepted text is in the grammar with back-to-back segments. -/
theorem Lex.relaxed {rest : List Char} {ts : List RouteToken} (h : Lex rest ts) :
    ∃ (run : List Segment) (runs : List (List Segment)),
      (∀ x ∈ run :: runs, ∀ s ∈ x, s.Shaped) ∧ rest = joinDots ((run :: runs).map runText) := by
  induction h with
  | done => exact ⟨[], [], by simp, by simp [joinDots, runText]⟩
  | dot r ts _ _ ih =>
    obtain ⟨run, runs, h1, h2⟩ := ih
    refine ⟨[], run :: runs, ?_, ?_⟩
    · intro x hx
      rcases List.mem_cons.1 hx with h | h
      · subst h; simp
      · exact h1 x h
    · simp only [List.map_cons, joinDots, runText, List.map_nil, List.flatten_nil,
        List.nil_append] at h2 ⊢
      rw [h2]
  | group ds r ts hne _ hd _ ih =>
    obtain ⟨run, runs, h1, h2⟩ := ih
    refine ⟨{ key := [], groups := [ds] } :: run, runs, ?_, ?_⟩
    · intro x hx
      rcases List.mem_cons.1 hx with h | h
      · subst h
        intro s hs
        rcases List.mem_cons.1 hs with h' | h'
        · subst h'
          refine ⟨by simp, ?_⟩
          intro g hg
          simp only [List.mem_singleton] at hg
          subst hg
          exact ⟨hne, fun d hdm => by simpa [isDigitChar] using hd d hdm⟩
        · exact h1 run (by simp) s h'
      · exact h1 x (by simp [h])
    · have : runText ({ key := [], groups := [ds] } :: run) = ('[' :: (ds ++ [']'])) ++ runText run := by
        simp [runText, Segment.text, bracketText]
      simp only [List.map_cons] at h2 ⊢
      rw [this, joinDots_cons_append, ← h2]
      simp
  | key k r ts _ _ hk _ _ ih =>
    obtain ⟨run, runs, h1, h2⟩ := ih
    refine ⟨{ key := k, groups := [] } :: run, runs, ?_, ?_⟩
    · intro x hx
      rcases List.mem_cons.1 hx with h | h
      · subst h
        intro s hs
        rcases List.mem_cons.1 hs with h' | h'
        · subst h'
          exact ⟨fun c hc => ⟨isKeyChar_ne_dot c (hk c hc), isKeyChar_ne_open c (hk c hc)⟩,
            by simp⟩
        · exact h1 run (by simp) s h'
      · exact h1 x (by simp [h])
    · have : runText ({ key := k, groups := [] } :: run) = k ++ runText run := by
        simp [runText, Segment.text]
      simp only [List.map_cons] at h2 ⊢
      rw [this, joinDots_cons_append, ← h2]


/-! ## The emitted tokens -/

/-- Every emitted token is the Key token of a key of 1 to 65535 key characters or the Index
token of a run of 1 to 65535 digits closed by `']'`. -/
theorem Lex.token_shape {rest : List Char} {ts : List RouteToken} (h : Lex rest ts) :
    ∀ tok ∈ ts,
      (∃ k r : List Char, k ≠ [] ∧ k.length ≤ maxTokenLength ∧ (∀ c ∈ k, isKeyChar c = true) ∧
        tok = keyToken (k ++ r) k.length) ∨
      (∃ ds r : List Char, ds ≠ [] ∧ ds.length ≤ maxTokenLength ∧
        (∀ d ∈ ds, isDigitChar d = true) ∧ tok = indexToken (ds ++ ']' :: r) ds.length) := by
  induction h with
  | done => intro tok h; simp at h
  | dot r ts _ _ ih => exact ih
  | group ds r ts hne hlen hd _ ih =>
    intro tok h
    rcases List.mem_cons.1 h with h | h
    · exact Or.inr ⟨ds, r, hne, hlen, hd, h⟩
    · exact ih tok h
  | key k r ts hne hlen hk _ _ ih =>
    intro tok h
    rcases List.mem_cons.1 h with h | h
    · exact Or.inl ⟨k, r, hne, hlen, hk, h⟩
    · exact ih tok h

theorem decodeIndex_lt (ds : List Char) : decodeIndex ds < 2 ^ 32 := by
  rw [decodeIndex_eq_mod]
  exact Nat.mod_lt _ (by norm_num)


/-! ## The two tokenizers in lockstep -/

theorem take_set_succ {α : Type} : ∀ (l : List α) (n : Nat) (a : α), n < l.length →
    (l.set n a).take (n + 1) = l.take n ++ [a]
  | [], _, _, h => by simp at h
  | _ :: _, 0, _, _ => by simp
  | x :: l, n + 1, a, h => by
    simp only [List.length_cons, Nat.add_lt_add_iff_right] at h
    simp [List.set, take_set_succ l n a h]

theorem content_term (ks term : List Char) (len : Nat) (kind : RouteTokenType) (idx : Nat)
    (h : len ≤ ks.length) :
    RouteToken.content (RouteToken.mk (some (ks ++ term)) (len % 2 ^ 16) kind idx) =
    RouteToken.content (RouteToken.mk (some ks) (len % 2 ^ 16) kind idx) := by
  have hl : len % 2 ^ 16 ≤ ks.length := le_trans (Nat.mod_le _ _) h
  simp only [RouteToken.content, RouteToken.GetString]
  rw [List.take_append_of_le_length hl]

theorem Sim.push {MaxTokens : Nat} {t : List RouteToken} {p : ParsedStaticRoute}
    (h : Sim MaxTokens t p) (hcap : p.Count < MaxTokens) (a b : RouteToken)
    (hab : b.content = a.content) : Sim MaxTokens (t ++ [a]) (staticPush p b) := by
  obtain ⟨h1, h2, h3, h4⟩ := h
  refine ⟨h1, by simp [staticPush, h2], by simp [staticPush, h3], ?_⟩
  simp only [staticPush]
  rw [take_set_succ _ _ _ (by omega)]
  simp [h4, hab]

theorem staticSkipKey_eq : ∀ l : List Char, staticSkipKey l = skipKey l
  | [] => rfl
  | c :: cs => by simp only [staticSkipKey, skipKey, staticSkipKey_eq cs]

theorem staticScanDigits_eq : ∀ l : List Char, staticScanDigits l = scanDigits l
  | [] => rfl
  | c :: cs => by simp only [staticScanDigits, scanDigits, staticScanDigits_eq cs]

theorem staticDecodeIndex_eq (ds : List Char) : staticDecodeIndex ds = decodeIndex ds := rfl

theorem trailingDot_sim (MaxTokens : Nat) (cursor : List Char) (t : List RouteToken)
    (p : ParsedStaticRoute) (h : Sim MaxTokens t p) (hcap : t.length + cursor.length ≤ MaxTokens) :
    StepSim MaxTokens (dynTrailingDot cursor t) (staticTrailingDot cursor p) := by
  unfold dynTrailingDot staticTrailingDot
  split
  · rename_i rest
    split
    · simp [StepSim, staticFail]
    · simp only [List.length_cons] at hcap
      exact ⟨rfl, h, by omega⟩
  · exact ⟨rfl, h, hcap⟩

theorem bracket_sim (MaxTokens : Nat) (term cursor : List Char) (t : List RouteToken)
    (p : ParsedStaticRoute) (h : Sim MaxTokens t p) (hcap : t.length + cursor.length ≤ MaxTokens) :
    StepSim MaxTokens (dynBracket cursor t) (staticBracket MaxTokens term cursor p) := by
  unfold dynBracket staticBracket
  simp only [staticScanDigits_eq, staticDecodeIndex_eq]
  split
  · rename_i indexStart
    simp only [List.length_cons] at hcap
    cases hs : scanDigits indexStart with
    | none => simp [StepSim, staticFail]
    | some cur =>
      have hle := scanDigits_length_le _ _ hs
      simp only
      by_cases hc : cur = [] ∨ indexStart.length = cur.length
      · rw [if_pos hc, if_pos hc]; simp [StepSim, staticFail]
      · rw [if_neg hc, if_neg hc]
        have hcount : ¬ p.Count ≥ MaxTokens := by rw [h.2.1]; omega
        simp only [hcount, ↓reduceIte]
        by_cases hl : indexStart.length - cur.length > maxTokenLength
        · rw [if_pos hl, if_pos hl]; simp [StepSim, staticFail]
        · rw [if_neg hl, if_neg hl]
          apply trailingDot_sim
          · exact h.push (by rw [h.2.1]; omega) _ _
              (content_term indexStart term _ _ _ (Nat.sub_le _ _))
          · have : cur.tail.length = cur.length - 1 := by simp
            simp only [List.length_append, List.length_singleton]
            have hne : cur.length ≠ 0 := fun h0 => hc (Or.inl (List.length_eq_zero.1 h0))
            omega
  · exact trailingDot_sim MaxTokens cursor t p h hcap

theorem body_sim (MaxTokens : Nat) (term : List Char) (c : Char) (cs : List Char)
    (t : List RouteToken) (p : ParsedStaticRoute) (h : Sim MaxTokens t p)
    (hcap : t.length + (c :: cs).length ≤ MaxTokens) :
    StepSim MaxTokens (dynBody c cs t) (staticBody MaxTokens term c cs p) := by
  unfold dynBody staticBody
  simp only [staticSkipKey_eq]
  simp only [List.length_cons] at hcap
  by_cases hdot : c = '.'
  · simp only [hdot, ↓reduceIte]
    split
    · simp [StepSim, staticFail]
    · exact ⟨rfl, h, by omega⟩
  · simp only [hdot, ↓reduceIte]
    have hle := skipKey_length_le (c :: cs)
    simp only [List.length_cons] at hle
    by_cases hk : (c :: cs).length - (skipKey (c :: cs)).length > 0
    · rw [if_pos hk, if_pos hk]
      simp only [List.length_cons] at hk
      have hcount : ¬ p.Count ≥ MaxTokens := by rw [h.2.1]; omega
      simp only [hcount, ↓reduceIte]
      by_cases hl : (c :: cs).length - (skipKey (c :: cs)).length > maxTokenLength
      · rw [if_pos hl, if_pos hl]; simp [StepSim, staticFail]
      · rw [if_neg hl, if_neg hl]
        apply bracket_sim
        · exact h.push (by rw [h.2.1]; omega) _ _
            (content_term (c :: cs) term _ _ _ (Nat.sub_le _ _))
        · simp only [List.length_append, List.length_singleton]
          omega
    · rw [if_neg hk, if_neg hk]
      exact bracket_sim MaxTokens term _ t p h (by omega)

theorem loop_sim (MaxTokens : Nat) (term : List Char) : ∀ (fuel : Nat) (rest : List Char)
    (t : List RouteToken) (p : ParsedStaticRoute), Sim MaxTokens t p →
    t.length + rest.length ≤ MaxTokens →
    ResultSim MaxTokens (dynLoop fuel rest t) (staticLoop MaxTokens term fuel rest p)
  | 0, [], t, p, h, _ => by simp [dynLoop, staticLoop, ResultSim, h.1, h]
  | _ + 1, [], t, p, h, _ => by simp [dynLoop, staticLoop, ResultSim, h.1, h]
  | 0, _ :: _, _, _, _, _ => by simp [dynLoop, staticLoop, ResultSim]
  | fuel + 1, c :: cs, t, p, h, hcap => by
    have hb := body_sim MaxTokens term c cs t p h hcap
    simp only [dynLoop, staticLoop]
    cases hd : dynBody c cs t with
    | Return v tk =>
      cases hs : staticBody MaxTokens term c cs p with
      | Return q =>
        rw [hd, hs] at hb
        simp only [StepSim] at hb
        simp [ResultSim, hb.1, hb.2]
      | Continue cur q => rw [hd, hs] at hb; exact hb.elim
    | Continue cur tk =>
      cases hs : staticBody MaxTokens term c cs p with
      | Return q => rw [hd, hs] at hb; exact hb.elim
      | Continue cur' q =>
        rw [hd, hs] at hb
        obtain ⟨h1, h2, h3⟩ := hb
        subst h1
        exact loop_sim MaxTokens term fuel cur tk q h2 h3


/-! ## The traversal engine -/

open NativeJson

theorem NativeJson.findMember_setMember_same :
    ∀ (m : List (List Char × NativeJson)) (key : List Char) (v : NativeJson),
      findMember (setMember m key v) key = some v
  | [], key, v => by simp [setMember, findMember]
  | (k, x) :: rest, key, v => by
    by_cases h : k = key
    · simp [setMember, findMember, h]
    · simp [setMember, findMember, h, findMember_setMember_same rest key v]

theorem NativeJson.findMember_setMember_other :
    ∀ (m : List (List Char × NativeJson)) (key key' : List Char) (v : NativeJson),
      key' ≠ key → findMember (setMember m key v) key' = findMember m key'
  | [], key, key', v, h => by simp [setMember, findMember, Ne.symm h]
  | (k, x) :: rest, key, key', v, h => by
    by_cases hk : k = key
    · subst hk
      simp [setMember, findMember, Ne.symm h]
    · by_cases hk' : k = key'
      · subst hk'
        simp [setMember, findMember, hk]
      · simp [setMember, findMember, hk, hk', findMember_setMember_other rest key key' v h]

theorem Json.ensureObject_eq (cur : NativeJson) : ∃ m, Json.ensureObject cur = object m := by
  cases cur with
  | object m => exact ⟨m, rfl⟩
  | null => exact ⟨[], rfl⟩
  | bool _ => exact ⟨[], rfl⟩
  | number _ => exact ⟨[], rfl⟩
  | string _ => exact ⟨[], rfl⟩
  | array _ => exact ⟨[], rfl⟩

theorem Json.ensureArray_eq (cur : NativeJson) : ∃ items, Json.ensureArray cur = array items := by
  cases cur with
  | array items => exact ⟨items, rfl⟩
  | null => exact ⟨[], rfl⟩
  | bool _ => exact ⟨[], rfl⟩
  | number _ => exact ⟨[], rfl⟩
  | string _ => exact ⟨[], rfl⟩
  | object _ => exact ⟨[], rfl⟩

theorem Json.growLoop_array (index : Nat) : ∀ (fuel : Nat) (items : List NativeJson),
    fuel = index + 1 - items.length →
    Json.growLoop fuel index (array items) = array (items ++ List.replicate fuel null)
  | 0, items, _ => by simp [Json.growLoop]
  | fuel + 1, items, h => by
    have hge : index ≥ items.length := by omega
    simp only [Json.growLoop, size, hge, ↓reduceIte, push_back]
    rw [Json.growLoop_array index fuel (items ++ [null]) (by simp; omega)]
    simp [List.replicate_succ]

/-- After the growth loop an array has more than `index` elements; those it had are where
they were and the new ones are null. -/
theorem Json.grow_array (index : Nat) (items : List NativeJson) :
    Json.grow index (array items) =
      array (items ++ List.replicate (index + 1 - items.length) null) := by
  simp only [Json.grow, size]
  exact Json.growLoop_array index _ items rfl

theorem Json.grow_ensureArray (index : Nat) (cur : NativeJson) :
    ∃ items, Json.grow index (Json.ensureArray cur) = array items ∧ index < items.length := by
  obtain ⟨items, h⟩ := Json.ensureArray_eq cur
  refine ⟨_, by rw [h, Json.grow_array], ?_⟩
  simp only [List.length_append, List.length_replicate]
  omega

/-- The lookup along the tokens of a walk of `SetPathValue` ends at the stored value. -/
theorem Json.FindPath_setWalk : ∀ (tokens : List RouteToken) (cur v : NativeJson),
    tokens ≠ [] → Json.FindPath (Json.setWalk cur tokens v) tokens = some v
  | [], _, _, h => absurd rfl h
  | [last], cur, v, _ => by
    by_cases hk : last.Kind = RouteTokenType.Key
    · obtain ⟨m, hm⟩ := Json.ensureObject_eq cur
      simp [Json.setWalk, hk, hm, setKey, Json.FindPath, is_object, find,
        findMember_setMember_same]
    · obtain ⟨items, hi, hlt⟩ := Json.grow_ensureArray last.Index cur
      simp [Json.setWalk, hk, hi, setIndex, Json.FindPath, is_array, size, atIndex, hlt]
  | token :: next :: rest, cur, v, _ => by
    have ih := fun c => Json.FindPath_setWalk (next :: rest) c v (by simp)
    by_cases hk : token.Kind = RouteTokenType.Key
    · obtain ⟨m, hm⟩ := Json.ensureObject_eq cur
      simp only [Json.setWalk, hk, ↓reduceIte, hm, setKey]
      rw [Json.FindPath]
      simp only [hk, ↓reduceIte, is_object, Bool.not_true, Bool.false_eq_true, find,
        findMember_setMember_same]
      exact ih _
    · obtain ⟨items, hi, hlt⟩ := Json.grow_ensureArray token.Index cur
      simp only [Json.setWalk, hk, ↓reduceIte, hi, setIndex]
      rw [Json.FindPath]
      simp only [hk, ↓reduceIte, is_array, Bool.not_true, Bool.false_eq_true, size,
        List.length_set, ge_iff_le, Nat.not_le.2 hlt, atIndex]
      have : (items.set token.Index
          (Json.setWalk (Json.coerceChild next (items.getD token.Index null)) (next :: rest) v)).getD
          token.Index null =
          Json.setWalk (Json.coerceChild next (items.getD token.Index null)) (next :: rest) v := by
        simp [List.getD_eq_getElem?_getD, hlt]
      rw [this]
      exact ih _


/-! ## The lookup and the reference walk -/

theorem Json.FindPath_cons (cur : NativeJson) (tok : RouteToken) (rest : List RouteToken) :
    Json.FindPath cur (tok :: rest) = (refStep cur tok).bind (fun c => Json.FindPath c rest) := by
  rw [Json.FindPath]
  cases hk : tok.Kind with
  | Key =>
    simp only [↓reduceIte, refStep, hk]
    cases cur with
    | object m =>
      simp only [is_object, Bool.not_true, Bool.false_eq_true, ↓reduceIte, find]
      have : findMember m tok.GetString =
          (m.find? (fun x => x.1 = tok.GetString)).map (fun x => x.2) := by
        induction m with
        | nil => rfl
        | cons a m ih =>
          obtain ⟨k, x⟩ := a
          by_cases h : k = tok.GetString
          · simp [findMember, List.find?_cons, h]
          · simp [findMember, List.find?_cons, h, ih]
      rw [this]
      cases (m.find? (fun x => x.1 = tok.GetString)) <;> rfl
    | null => rfl
    | bool _ => rfl
    | number _ => rfl
    | string _ => rfl
    | array _ => rfl
  | Index =>
    simp only [reduceCtorEq, ↓reduceIte, refStep, hk]
    cases cur with
    | array items =>
      simp only [is_array, Bool.not_true, Bool.false_eq_true, ↓reduceIte, size, atIndex]
      by_cases h : tok.Index < items.length
      · have h' : ¬ tok.Index ≥ items.length := by omega
        simp [h, h', List.getD_eq_getElem?_getD]
      · have h' : tok.Index ≥ items.length := by omega
        simp [h, h']
    | null => rfl
    | bool _ => rfl
    | number _ => rfl
    | string _ => rfl
    | object _ => rfl

theorem refWalk_nil (root : NativeJson) : refWalk root [] = some root := rfl

theorem refWalk_cons (root : NativeJson) (tok : RouteToken) (rest : List RouteToken) :
    refWalk root (tok :: rest) = (refStep root tok).bind (fun c => refWalk c rest) := by
  simp only [refWalk, List.foldlM_cons]
  rfl

theorem Json.FindPath_eq_refWalk : ∀ (tokens : List RouteToken) (root : NativeJson),
    Json.FindPath root tokens = refWalk root tokens
  | [], _ => rfl
  | tok :: rest, root => by
    rw [Json.FindPath_cons, refWalk_cons]
    cases refStep root tok with
    | none => rfl
    | some c => exact Json.FindPath_eq_refWalk rest c

theorem refWalk_none_iff : ∀ (tokens : List RouteToken) (root : NativeJson),
    refWalk root tokens = none ↔
      ∃ (k : Nat) (tok : RouteToken) (node : NativeJson),
        tokens[k]? = some tok ∧ refWalk root (tokens.take k) = some node ∧
        refStep node tok = none
  | [], root => by simp [refWalk_nil]
  | t :: rest, root => by
    rw [refWalk_cons]
    constructor
    · intro h
      cases hs : refStep root t with
      | none => exact ⟨0, t, root, by simp, by simp [refWalk_nil], hs⟩
      | some c =>
        rw [hs] at h
        obtain ⟨k, tok, node, h1, h2, h3⟩ := (refWalk_none_iff rest c).1 h
        refine ⟨k + 1, tok, node, by simpa using h1, ?_, h3⟩
        simp only [List.take_succ_cons]
        rw [refWalk_cons, hs]
        exact h2
    · rintro ⟨k, tok, node, h1, h2, h3⟩
      cases k with
      | zero =>
        simp only [List.getElem?_cons_zero, Option.some.injEq] at h1
        simp only [List.take_zero, refWalk_nil, Option.some.injEq] at h2
        subst h1 h2
        rw [h3]; rfl
      | succ k =>
        simp only [List.getElem?_cons_succ] at h1
        simp only [List.take_succ_cons] at h2
        rw [refWalk_cons] at h2
        cases hs : refStep root t with
        | none => rfl
        | some c =>
          rw [hs] at h2
          exact (refWalk_none_iff rest c).2 ⟨k, tok, node, h1, h2, h3⟩


/-! ## Walks of SetPathValue and the lookup -/

/-- The lookup reads only what the tokens say: kind, referenced text and index. -/
theorem Json.FindPath_congr : ∀ (a b : List RouteToken) (root : NativeJson),
    a.map RouteToken.content = b.map RouteToken.content →
    Json.FindPath root a = Json.FindPath root b
  | [], [], _, _ => rfl
  | [], _ :: _, _, h => by simp at h
  | _ :: _, [], _, h => by simp at h
  | x :: a, y :: b, root, h => by
    simp only [List.map_cons, List.cons.injEq] at h
    obtain ⟨hc, ht⟩ := h
    have hstep : refStep root x = refStep root y := by
      simp only [RouteToken.content, Prod.mk.injEq] at hc
      simp only [refStep, hc.1, hc.2.1, hc.2.2]
    rw [Json.FindPath_cons, Json.FindPath_cons, hstep]
    cases refStep root y with
    | none => rfl
    | some c => exact Json.FindPath_congr a b c ht

/-- The node a walk of `SetPathValue` leaves behind is the container its first token
needs. -/
theorem Json.setWalk_container (tok : RouteToken) (rest : List RouteToken)
    (cur v : NativeJson) : ContainerFor tok (Json.setWalk cur (tok :: rest) v) := by
  unfold ContainerFor
  cases hk : tok.Kind with
  | Key =>
    obtain ⟨m, hm⟩ := Json.ensureObject_eq cur
    cases rest with
    | nil => simp [Json.setWalk, hk, hm, setKey, is_object]
    | cons next rest => simp [Json.setWalk, hk, hm, setKey, is_object]
  | Index =>
    obtain ⟨items, hi, hlt⟩ := Json.grow_ensureArray tok.Index cur
    cases rest with
    | nil => simp [Json.setWalk, hk, hi, setIndex, is_array, size, hlt]
    | cons next rest => simp [Json.setWalk, hk, hi, setIndex, is_array, size, hlt]

/-- Looking up through the first token of a walk of `SetPathValue` lands in the child the
walk went on in. -/
theorem Json.FindPath_setWalk_step (tok next : RouteToken) (rest : List RouteToken)
    (cur v : NativeJson) :
    ∃ child, ∀ p, Json.FindPath (Json.setWalk cur (tok :: next :: rest) v) (tok :: p) =
      Json.FindPath (Json.setWalk child (next :: rest) v) p := by
  by_cases hk : tok.Kind = RouteTokenType.Key
  · obtain ⟨m, hm⟩ := Json.ensureObject_eq cur
    refine ⟨Json.coerceChild next ((object m).atKey tok.GetString), fun p => ?_⟩
    simp only [Json.setWalk, hk, ↓reduceIte, hm, setKey]
    rw [Json.FindPath]
    simp only [hk, ↓reduceIte, is_object, Bool.not_true, Bool.false_eq_true, find,
      findMember_setMember_same]
  · obtain ⟨items, hi, hlt⟩ := Json.grow_ensureArray tok.Index cur
    refine ⟨Json.coerceChild next ((array items).atIndex tok.Index), fun p => ?_⟩
    simp only [Json.setWalk, hk, ↓reduceIte, hi, setIndex]
    rw [Json.FindPath]
    simp only [hk, ↓reduceIte, is_array, Bool.not_true, Bool.false_eq_true, size,
      List.length_set, ge_iff_le, Nat.not_le.2 hlt, atIndex]
    congr 1
    simp [List.getD_eq_getElem?_getD, hlt]

/-- After a walk of `SetPathValue`, the lookup over a proper part of the tokens from the
front finds the container the next token needs. -/
theorem Json.FindPath_setWalk_take : ∀ (tokens : List RouteToken) (cur v : NativeJson)
    (k : Nat) (tok : RouteToken), tokens[k]? = some tok →
    ∃ node, Json.FindPath (Json.setWalk cur tokens v) (tokens.take k) = some node ∧
      ContainerFor tok node
  | [], _, _, _, _, h => by simp at h
  | t :: rest, cur, v, 0, tok, h => by
    simp only [List.getElem?_cons_zero, Option.some.injEq] at h
    subst h
    exact ⟨_, rfl, Json.setWalk_container t rest cur v⟩
  | [t], cur, v, k + 1, tok, h => by simp at h
  | t :: next :: rest, cur, v, k + 1, tok, h => by
    simp only [List.getElem?_cons_succ] at h
    obtain ⟨child, hc⟩ := Json.FindPath_setWalk_step t next rest cur v
    obtain ⟨node, h1, h2⟩ := Json.FindPath_setWalk_take (next :: rest) child v k tok h
    refine ⟨node, ?_, h2⟩
    rw [List.take_succ_cons, hc]
    exact h1

theorem Json.Set_valid (Root : NativeJson) (r : DynamicRoute) (v : NativeJson)
    (hv : r.IsValid = true) (hn : r.GetTokens ≠ []) :
    Json.Set Root r v =
      Json.setWalk (if !Root.is_object then NativeJson.object [] else Root) r.GetTokens v := by
  simp [Json.Set, Json.IsRouteValid, hv, Json.SetPathValue, hn]


/-! ## The route of `A.B` -/

theorem route_A_B : route "A.B".toList =
    some { Path := "A.B".toList, Tokens := [keyToken "A.B".toList 1, keyToken "B".toList 1],
           Valid := true } := by decide


/-! ## Setting twice -/

theorem NativeJson.setMember_setMember_same :
    ∀ (m : List (List Char × NativeJson)) (key : List Char) (v w : NativeJson),
      setMember (setMember m key v) key w = setMember m key w
  | [], key, v, w => by simp [setMember]
  | (k, x) :: rest, key, v, w => by
    by_cases h : k = key
    · simp [setMember, h]
    · simp [setMember, h, setMember_setMember_same rest key v w]

theorem Json.coerceChild_container (next : RouteToken) (node : NativeJson)
    (h : ContainerFor next node) : Json.coerceChild next node = node := by
  unfold ContainerFor at h
  unfold Json.coerceChild
  cases hk : next.Kind with
  | Key => rw [hk] at h; simp at h; simp [h]
  | Index => rw [hk] at h; simp at h; simp [h.1]

theorem Json.grow_of_lt (index : Nat) (items : List NativeJson) (h : index < items.length) :
    Json.grow index (array items) = array items := by
  rw [Json.grow_array]
  have : index + 1 - items.length = 0 := by omega
  simp [this]

/-- Walking the same tokens with the same value a second time changes nothing. -/
theorem Json.setWalk_idem : ∀ (tokens : List RouteToken) (cur v : NativeJson),
    Json.setWalk (Json.setWalk cur tokens v) tokens v = Json.setWalk cur tokens v
  | [], _, _ => rfl
  | [last], cur, v => by
    by_cases hk : last.Kind = RouteTokenType.Key
    · obtain ⟨m, hm⟩ := Json.ensureObject_eq cur
      simp only [Json.setWalk, hk, ↓reduceIte, hm, setKey]
      simp only [Json.ensureObject, is_object, Bool.not_true, Bool.false_eq_true, ↓reduceIte,
        setKey, setMember_setMember_same]
    · obtain ⟨items, hi, hlt⟩ := Json.grow_ensureArray last.Index cur
      simp only [Json.setWalk, hk, ↓reduceIte, hi, setIndex]
      simp only [Json.ensureArray, is_array, Bool.not_true, Bool.false_eq_true, ↓reduceIte]
      rw [Json.grow_of_lt _ _ (by simpa using hlt)]
      simp [setIndex]
  | tok :: next :: rest, cur, v => by
    have ih := fun c => Json.setWalk_idem (next :: rest) c v
    have hcont := fun c => Json.setWalk_container next rest c v
    by_cases hk : tok.Kind = RouteTokenType.Key
    · obtain ⟨m, hm⟩ := Json.ensureObject_eq cur
      simp only [Json.setWalk, hk, ↓reduceIte, hm, setKey]
      simp only [Json.ensureObject, is_object, Bool.not_true, Bool.false_eq_true, ↓reduceIte,
        setKey, atKey, findMember_setMember_same, Option.getD_some]
      rw [Json.coerceChild_container _ _ (hcont _), ih, setMember_setMember_same]
    · obtain ⟨items, hi, hlt⟩ := Json.grow_ensureArray tok.Index cur
      simp only [Json.setWalk, hk, ↓reduceIte, hi, setIndex]
      simp only [Json.ensureArray, is_array, Bool.not_true, Bool.false_eq_true, ↓reduceIte]
      rw [Json.grow_of_lt _ _ (by simpa using hlt)]
      simp only [atIndex, setIndex]
      have hget : ∀ w : NativeJson, (items.set tok.Index w).getD tok.Index null = w := by
        intro w; simp [List.getD_eq_getElem?_getD, hlt]
      rw [hget, Json.coerceChild_container _ _ (hcont _), ih]
      simp

/-- A walk that starts with an Index token does not look at a node that is not an array. -/
theorem Json.setWalk_index_start (tok : RouteToken) (rest : List RouteToken)
    (cur v : NativeJson) (hk : tok.Kind = RouteTokenType.Index) (hcur : cur.is_array = false) :
    Json.setWalk cur (tok :: rest) v = Json.setWalk (array []) (tok :: rest) v := by
  have h1 : Json.ensureArray cur = array [] := by simp [Json.ensureArray, hcur]
  have h2 : Json.ensureArray (array []) = array [] := rfl
  cases rest with
  | nil => simp only [Json.setWalk, hk, reduceCtorEq, ↓reduceIte, h1, h2]
  | cons next rest => simp only [Json.setWalk, hk, reduceCtorEq, ↓reduceIte, h1, h2]

theorem NativeJson.not_array_of_object (n : NativeJson) (h : n.is_object = true) :
    n.is_array = false := by
  cases n <;> simp_all [is_object, is_array]

theorem NativeJson.not_object_of_array (n : NativeJson) (h : n.is_array = true) :
    n.is_object = false := by
  cases n <;> simp_all [is_object, is_array]

/-- Calling `SetPathValue` twice with the same tokens and value is calling it once. -/
theorem Json.SetPathValue_idem (Root : NativeJson) (tokens : List RouteToken) (v : NativeJson) :
    Json.SetPathValue (Json.SetPathValue Root tokens v) tokens v =
      Json.SetPathValue Root tokens v := by
  cases tokens with
  | nil => rfl
  | cons tok rest =>
    simp only [Json.SetPathValue, List.isEmpty_cons, Bool.false_eq_true, ↓reduceIte]
    have hstart : (if (!Root.is_object) = true then object [] else Root).is_object = true := by
      cases h : Root.is_object
      · simp [is_object]
      · simpa using h
    have hcont := Json.setWalk_container tok rest
      (if (!Root.is_object) = true then object [] else Root) v
    unfold ContainerFor at hcont
    cases hk : tok.Kind with
    | Key =>
      rw [hk] at hcont
      simp only at hcont
      simp only [hcont, Bool.not_true, Bool.false_eq_true, ↓reduceIte]
      exact Json.setWalk_idem _ _ _
    | Index =>
      rw [hk] at hcont
      simp only at hcont
      have hno := not_object_of_array _ hcont.1
      simp only [hno, Bool.not_false, ↓reduceIte]
      rw [Json.setWalk_index_start tok rest (object []) v hk rfl,
        Json.setWalk_index_start tok rest _ v hk (not_array_of_object _ hstart)]


/-! ## Routes that start with an Index token -/

/-- `Set` through a route that starts with an Index token gives the same tree whatever the
root was: the root is first replaced by an empty object unless it is an object, and the walk
then replaces that object by an empty array. -/
theorem Json.Set_index_start (Root : NativeJson) (r : DynamicRoute) (v : NativeJson)
    (tok : RouteToken) (rest : List RouteToken) (hv : r.IsValid = true)
    (ht : r.GetTokens = tok :: rest) (hk : tok.Kind = RouteTokenType.Index) :
    Json.Set Root r v = Json.setWalk (array []) (tok :: rest) v := by
  rw [Json.Set_valid Root r v hv (by rw [ht]; simp), ht]
  apply Json.setWalk_index_start tok rest _ v hk
  cases h : Root.is_object
  · simp [is_array]
  · simpa using not_array_of_object Root h


/-! ## Where the tokens point -/

/-- Every emitted token points into the text it was emitted for. -/
theorem Lex.ptr_in_text {rest : List Char} {ts : List RouteToken} (h : Lex rest ts) :
    ∀ tok ∈ ts, ∃ p pre : List Char, tok.Ptr = some p ∧ rest = pre ++ p := by
  induction h with
  | done => intro tok h; simp at h
  | dot r ts _ _ ih =>
    intro tok h
    obtain ⟨p, pre, h1, h2⟩ := ih tok h
    exact ⟨p, '.' :: pre, h1, by rw [h2]; rfl⟩
  | group ds r ts _ _ _ _ ih =>
    intro tok h
    rcases List.mem_cons.1 h with h | h
    · exact ⟨ds ++ ']' :: r, ['['], by rw [h]; rfl, rfl⟩
    · obtain ⟨p, pre, h1, h2⟩ := ih tok h
      exact ⟨p, '[' :: (ds ++ ']' :: pre), h1, by rw [h2]; simp⟩
  | key k r ts _ _ _ _ _ ih =>
    intro tok h
    rcases List.mem_cons.1 h with h | h
    · exact ⟨k ++ r, [], by rw [h]; rfl, rfl⟩
    · obtain ⟨p, pre, h1, h2⟩ := ih tok h
      exact ⟨p, k ++ pre, h1, by rw [h2]; simp⟩


/-! ## The length bound on keys -/

theorem KeyPosition.tail_part (a b : List Char) (h : KeyPosition (a ++ b)) : KeyPosition b := by
  cases b with
  | nil => exact Or.inl rfl
  | cons x xs =>
    have hl : (a ++ x :: xs).getLast? = (x :: xs).getLast? := by
      rw [List.getLast?_append]
      cases h' : (x :: xs).getLast? with
      | none => simp at h'
      | some y => rfl
    rcases h with h | h | h
    · simp at h
    · exact Or.inr (Or.inl (by rw [← hl]; exact h))
    · exact Or.inr (Or.inr (by rw [← hl]; exact h))

theorem run_within (p : Char → Bool) : ∀ (c k post r : List Char), k ++ post = c ++ r →
    (∀ x ∈ k, p x = true) → (∀ x ∈ r.head?, p x = false) → k.length ≤ c.length
  | [], [], _, _, _, _, _ => by simp
  | [], a :: k, post, r, h, hk, hr => by
    simp only [List.nil_append, List.cons_append] at h
    have h1 := hk a (by simp)
    have h2 := hr a (by rw [← h]; simp)
    rw [h1] at h2
    exact absurd h2 (by simp)
  | _ :: _, [], _, _, _, _, _ => by simp
  | x :: c, a :: k, post, r, h, hk, hr => by
    simp only [List.cons_append, List.cons.injEq] at h
    have := run_within p c k post r h.2 (fun y hy => hk y (by simp [hy])) hr
    simp only [List.length_cons]
    omega

/-- In an accepted text a run of key characters that starts at a key position has at most
65535 characters. -/
theorem Lex.key_run_bound {rest : List Char} {ts : List RouteToken} (h : Lex rest ts) :
    ∀ pre k post : List Char, rest = pre ++ (k ++ post) → KeyPosition pre →
      (∀ c ∈ k, isKeyChar c = true) → k.length ≤ maxTokenLength := by
  induction h with
  | done =>
    intro pre k post h _ _
    have : k = [] := by
      have := congrArg List.length h
      simp only [List.length_nil, List.length_append] at this
      exact List.length_eq_zero.1 (by omega)
    simp [this]
  | dot r ts _ _ ih =>
    intro pre k post h hp hk
    cases pre with
    | nil =>
      cases k with
      | nil => simp
      | cons a k =>
        simp only [List.nil_append, List.cons_append, List.cons.injEq] at h
        have := hk a (by simp)
        rw [← h.1] at this
        exact absurd this (by decide)
    | cons a pre =>
      simp only [List.cons_append, List.cons.injEq] at h
      exact ih pre k post h.2 (KeyPosition.tail_part [a] pre hp) hk
  | group ds r ts _ _ hd _ ih =>
    intro pre k post h hp hk
    cases pre with
    | nil =>
      cases k with
      | nil => simp
      | cons a k =>
        simp only [List.nil_append, List.cons_append, List.cons.injEq] at h
        have := hk a (by simp)
        rw [← h.1] at this
        exact absurd this (by decide)
    | cons a pre =>
      simp only [List.cons_append, List.cons.injEq] at h
      have h2 : (ds ++ [']']) ++ r = pre ++ (k ++ post) := by simpa using h.2
      rcases List.append_eq_append_iff.1 h2 with ⟨a', h3, h4⟩ | ⟨c', h3, h4⟩
      · refine ih a' k post h4 ?_ hk
        rw [h3] at hp
        have : a :: (ds ++ [']'] ++ a') = (a :: (ds ++ [']'])) ++ a' := by simp
        rw [this] at hp
        exact KeyPosition.tail_part _ a' hp
      · cases c' using List.reverseRecOn with
        | nil =>
          simp only [List.append_nil] at h3
          simp only [List.nil_append] at h4
          exact ih [] k post (by simpa using h4.symm) (Or.inl rfl) hk
        | append_singleton c0 l _ =>
          have h5 : ds ++ [']'] = (pre ++ c0) ++ [l] := by rw [h3]; simp
          have h6 := (List.append_inj' h5 rfl).1
          have hdig : ∀ x ∈ pre, isDigitChar x = true := by
            intro x hx; exact hd x (by rw [h6]; simp [hx])
          exfalso
          rcases hp with hp | hp | hp
          · simp at hp
          · cases pre using List.reverseRecOn with
            | nil => simp at hp; rw [← h.1] at hp; exact absurd hp (by decide)
            | append_singleton p0 y _ =>
              rw [← List.cons_append, List.getLast?_append] at hp
              simp at hp
              have := hdig y (by simp)
              rw [hp] at this
              exact absurd this (by decide)
          · cases pre using List.reverseRecOn with
            | nil => simp at hp; rw [← h.1] at hp; exact absurd hp (by decide)
            | append_singleton p0 y _ =>
              rw [← List.cons_append, List.getLast?_append] at hp
              simp at hp
              have := hdig y (by simp)
              rw [hp] at this
              exact absurd this (by decide)
  | key k0 r ts _ hlen hk0 hr _ ih =>
    intro pre k post h hp hk
    rcases List.append_eq_append_iff.1 h with ⟨a', h3, h4⟩ | ⟨c', h3, h4⟩
    · refine ih a' k post h4 ?_ hk
      rw [h3] at hp
      exact KeyPosition.tail_part _ a' hp
    · have h5 := run_within isKeyChar c' k post r h4 hk hr
      have h6 := congrArg List.length h3
      simp only [List.length_append] at h6
      omega


/-! ## The length bound on digit runs; the Length field -/

/-- In an accepted text every `'['` is followed by a run of 1 to 65535 digits and `']'`. -/
theorem Lex.bracket_runs {rest : List Char} {ts : List RouteToken} (h : Lex rest ts) :
    ∀ pre post : List Char, rest = pre ++ '[' :: post →
      ∃ ds tl : List Char, ds ≠ [] ∧ ds.length ≤ maxTokenLength ∧
        (∀ d ∈ ds, isDigitChar d = true) ∧ post = ds ++ ']' :: tl := by
  induction h with
  | done => intro pre post h; simp at h
  | dot r ts _ _ ih =>
    intro pre post h
    cases pre with
    | nil => simp at h
    | cons a pre =>
      simp only [List.cons_append, List.cons.injEq] at h
      exact ih pre post h.2
  | group ds r ts hne hlen hd _ ih =>
    intro pre post h
    cases pre with
    | nil =>
      simp only [List.nil_append, List.cons.injEq, true_and] at h
      exact ⟨ds, r, hne, hlen, hd, h.symm⟩
    | cons a pre =>
      simp only [List.cons_append, List.cons.injEq] at h
      have h2 : (ds ++ [']']) ++ r = pre ++ '[' :: post := by simpa using h.2
      obtain ⟨mid, _, h4⟩ := split_after_run '[' (ds ++ [']']) r pre post (by
        intro c hc
        simp only [List.mem_append, List.mem_singleton] at hc
        rcases hc with h1 | h1
        · exact isDigitChar_ne_open c (hd c h1)
        · rw [h1]; decide) h2
      exact ih mid post h4
  | key k r ts _ _ hk _ _ ih =>
    intro pre post h
    obtain ⟨mid, _, h4⟩ := split_after_run '[' k r pre post
      (fun c hc => isKeyChar_ne_open c (hk c hc)) h
    exact ih mid post h4

/-- In an accepted text a run of digits right after a `'['` has at most 65535 digits. -/
theorem Lex.digit_run_bound {rest : List Char} {ts : List RouteToken} (h : Lex rest ts)
    (pre ds post : List Char) (hp : rest = pre ++ '[' :: (ds ++ post))
    (hd : ∀ d ∈ ds, isDigitChar d = true) : ds.length ≤ maxTokenLength := by
  obtain ⟨ds', tl, _, hlen, _, h4⟩ := h.bracket_runs pre (ds ++ post) hp
  obtain ⟨mid, h5, _⟩ := split_after_run ']' ds post ds' tl (by
    intro c hc hcc
    have := hd c hc
    rw [hcc] at this
    exact absurd this (by decide)) h4
  have := congrArg List.length h5
  simp only [List.length_append] at this
  omega

/-- The `Length` field of every emitted token is the length of the run at its pointer: the
run of key characters for a Key token, the run of digits for an Index token. -/
theorem Lex.token_run {rest : List Char} {ts : List RouteToken} (h : Lex rest ts) :
    ∀ tok ∈ ts, ∃ p : List Char, tok.Ptr = some p ∧
      tok.Length = (if tok.Kind = RouteTokenType.Key then (p.takeWhile isKeyChar).length
        else (p.takeWhile isDigitChar).length) ∧
      tok.GetString.length = tok.Length := by
  induction h with
  | done => intro tok h; simp at h
  | dot r ts _ _ ih => exact ih
  | group ds r ts hne hlen hd _ ih =>
    intro tok h
    rcases List.mem_cons.1 h with h | h
    · have hr : ∀ c ∈ (']' :: r).head?, isDigitChar c = false := by
        intro c hc; simp at hc; subst hc; decide
      have h1 := takeWhile_append_stop isDigitChar ds (']' :: r) hd hr
      have hmod : ds.length % 65536 = ds.length := by
        apply Nat.mod_eq_of_lt; simp only [maxTokenLength] at hlen; omega
      have hc := indexToken_content ds (']' :: r) hne hlen
      simp only [RouteToken.content, Prod.mk.injEq] at hc
      refine ⟨ds ++ ']' :: r, by rw [h]; rfl, ?_, ?_⟩
      · rw [h]; simp [indexToken, h1, hmod]
      · rw [h, hc.2.1]; simp [indexToken, hmod]
    · exact ih tok h
  | key k r ts hne hlen hk hr _ ih =>
    intro tok h
    rcases List.mem_cons.1 h with h | h
    · have h1 := takeWhile_append_stop isKeyChar k r hk hr
      have hmod : k.length % 65536 = k.length := by
        apply Nat.mod_eq_of_lt; simp only [maxTokenLength] at hlen; omega
      have hc := keyToken_content k r hne hlen
      simp only [RouteToken.content, Prod.mk.injEq] at hc
      refine ⟨k ++ r, by rw [h]; rfl, ?_, ?_⟩
      · rw [h]; simp [keyToken, h1, hmod]
      · rw [h, hc.2.1]; simp [keyToken, hmod]
    · exact ih tok h


/-! ## The parse-time tokenizer at every capacity -/

theorem StaticInv.fail {MaxTokens n : Nat} {rest : List Char} {p : ParsedStaticRoute}
    (h : StaticInv MaxTokens n rest p) (bound : Nat) :
    StaticStepInv MaxTokens n bound (staticFail p) := by
  obtain ⟨h1, h2, h3⟩ := h
  exact ⟨h1, h2, by simp only [List.length_nil]; omega⟩

theorem StaticInv.shorter {MaxTokens n : Nat} {rest rest' : List Char} {p : ParsedStaticRoute}
    (h : StaticInv MaxTokens n rest p) (hl : rest'.length ≤ rest.length) :
    StaticInv MaxTokens n rest' p := by
  obtain ⟨h1, h2, h3⟩ := h
  exact ⟨h1, h2, by omega⟩

theorem StaticInv.stored {MaxTokens n : Nat} {rest rest' : List Char} {p : ParsedStaticRoute}
    (h : StaticInv MaxTokens n rest p) (hcap : ¬ p.Count ≥ MaxTokens)
    (hl : rest'.length + 1 ≤ rest.length) (tok : RouteToken) :
    StaticInv MaxTokens n rest' (staticPush p tok) := by
  obtain ⟨h1, h2, h3⟩ := h
  refine ⟨by simp [staticPush, h1], ?_, ?_⟩
  · simp only [staticPush]; omega
  · simp only [staticPush]; omega

theorem staticTrailingDot_inv (MaxTokens n : Nat) (cursor : List Char) (p : ParsedStaticRoute)
    (h : StaticInv MaxTokens n cursor p) :
    StaticStepInv MaxTokens n cursor.length (staticTrailingDot cursor p) := by
  unfold staticTrailingDot
  split
  · split
    · exact h.fail _
    · exact ⟨h.shorter (by simp), by simp⟩
  · exact ⟨h, le_refl _⟩

theorem StaticStepInv.mono {MaxTokens n b b' : Nat} {s : StaticStep}
    (h : StaticStepInv MaxTokens n b s) (hb : b ≤ b') : StaticStepInv MaxTokens n b' s := by
  cases s with
  | Return q => exact h
  | Continue cur q => exact ⟨h.1, le_trans h.2 hb⟩

theorem staticBracket_open_inv (MaxTokens n : Nat) (term indexStart : List Char)
    (p : ParsedStaticRoute) (h : StaticInv MaxTokens n ('[' :: indexStart) p) :
    StaticStepInv MaxTokens n indexStart.length
      (staticBracket MaxTokens term ('[' :: indexStart) p) := by
  simp only [staticBracket, staticScanDigits_eq]
  cases hs : scanDigits indexStart with
  | none => exact h.fail _
  | some cur =>
    have hle := scanDigits_length_le _ _ hs
    simp only
    split
    · exact h.fail _
    · rename_i hc
      split
      · exact h.fail _
      · rename_i hcap
        split
        · exact h.fail _
        · have hne : cur.length ≠ 0 := fun h0 => hc (Or.inl (List.length_eq_zero.1 h0))
          have htl : cur.tail.length = cur.length - 1 := by simp
          refine (staticTrailingDot_inv MaxTokens n cur.tail _
            (h.stored hcap (by simp only [List.length_cons]; omega) _)).mono (by omega)

theorem staticBracket_inv (MaxTokens n : Nat) (term cursor : List Char)
    (p : ParsedStaticRoute) (h : StaticInv MaxTokens n cursor p) :
    StaticStepInv MaxTokens n cursor.length (staticBracket MaxTokens term cursor p) := by
  by_cases hb : ∃ indexStart, cursor = '[' :: indexStart
  · obtain ⟨indexStart, rfl⟩ := hb
    exact (staticBracket_open_inv MaxTokens n term indexStart p h).mono (by simp)
  · have : staticBracket MaxTokens term cursor p = staticTrailingDot cursor p := by
      unfold staticBracket
      split
      · rename_i indexStart
        exact absurd ⟨indexStart, rfl⟩ hb
      · rfl
    rw [this]
    exact staticTrailingDot_inv MaxTokens n cursor p h

/-- A pass through the static loop body keeps the table in order and uses up at least one
character, at every capacity. -/
theorem staticBody_inv (MaxTokens n : Nat) (term : List Char) (c : Char) (cs : List Char)
    (p : ParsedStaticRoute) (h : StaticInv MaxTokens n (c :: cs) p) :
    StaticStepInv MaxTokens n cs.length (staticBody MaxTokens term c cs p) := by
  unfold staticBody
  simp only [staticSkipKey_eq]
  by_cases hdot : c = '.'
  · simp only [hdot, ↓reduceIte]
    split
    · exact h.fail _
    · exact ⟨h.shorter (by simp), le_refl _⟩
  · simp only [hdot, ↓reduceIte]
    have hle := skipKey_length_le (c :: cs)
    simp only [List.length_cons] at hle
    by_cases hk : (c :: cs).length - (skipKey (c :: cs)).length > 0
    · rw [if_pos hk]
      simp only [List.length_cons] at hk
      split
      · exact h.fail _
      · rename_i hcap
        split
        · exact h.fail _
        · refine (staticBracket_inv MaxTokens n term _ _
            (h.stored hcap (by simp only [List.length_cons]; omega) _)).mono (by omega)
    · rw [if_neg hk]
      simp only [List.length_cons] at hk
      have hlen : (skipKey (c :: cs)).length = cs.length + 1 := by omega
      by_cases hb : c = '['
      · subst hb
        have hsk : skipKey ('[' :: cs) = '[' :: cs := by simp [skipKey]
        rw [hsk]
        exact staticBracket_open_inv MaxTokens n term cs p h
      · have hsk : skipKey (c :: cs) = skipKey cs := by simp [skipKey, hdot, hb]
        have := skipKey_length_le cs
        rw [hsk] at hlen
        omega

theorem ParseStaticRoute_literal (text : List Char) (MaxTokens : Nat) :
    ParseStaticRoute (literal text) MaxTokens =
      staticLoop MaxTokens [Char.ofNat 0] text.length text
        { Tokens := List.replicate MaxTokens {}, Count := 0, Valid := true } := by
  simp [ParseStaticRoute, literal]


/-! ## One slot per character -/

/-- Every emitted token has used up at least one character. -/
theorem Lex.length_le {rest : List Char} {ts : List RouteToken} (h : Lex rest ts) :
    ts.length ≤ rest.length := by
  induction h with
  | done => simp
  | dot r ts _ _ ih => simp only [List.length_cons]; omega
  | group ds r ts _ _ _ _ ih =>
    simp only [List.length_cons, List.length_append]; omega
  | key k r ts hne _ _ _ _ ih =>
    have := List.length_pos.2 hne
    simp only [List.length_cons, List.length_append]; omega

/-- At the head of the static loop, with one slot per character, the table matches the
runtime tokenizer's vector and has a free slot for every unread character. -/
theorem StaticReach.sim {MaxTokens : Nat} {term text rest : List Char}
    {p : ParsedStaticRoute} (hcap : text.length ≤ MaxTokens)
    (h : StaticReach MaxTokens term text rest p) :
    ∃ t : List RouteToken, Sim MaxTokens t p ∧ t.length + rest.length ≤ MaxTokens := by
  induction h with
  | start => exact ⟨[], ⟨rfl, rfl, by simp, by simp⟩, by simpa using hcap⟩
  | pass c cs cursor parsed next _ hstep ih =>
    obtain ⟨t, hsim, hlen⟩ := ih
    have hb := body_sim MaxTokens term c cs t parsed hsim hlen
    rw [hstep] at hb
    cases hd : dynBody c cs t with
    | Return v tk => rw [hd] at hb; exact hb.elim
    | Continue cur tk =>
      rw [hd] at hb
      obtain ⟨h1, h2, h3⟩ := hb
      subst h1
      exact ⟨tk, h2, h3⟩

theorem bracketCapacityExceeded_false (MaxTokens : Nat) (cursor : List Char) (count : Nat)
    (h : count + cursor.length ≤ MaxTokens) :
    bracketCapacityExceeded MaxTokens cursor count = false := by
  unfold bracketCapacityExceeded
  split
  · simp only [List.length_cons] at h
    split
    · rfl
    · split
      · rfl
      · simp only [decide_eq_false_iff_not]; omega
  · rfl

/-- With a free slot for every unread character a pass takes neither capacity return. -/
theorem capacityExceeded_false (MaxTokens : Nat) (c : Char) (cs : List Char)
    (p : ParsedStaticRoute) (h : p.Count + (c :: cs).length ≤ MaxTokens) :
    capacityExceeded MaxTokens c cs p = false := by
  unfold capacityExceeded
  simp only [staticSkipKey_eq]
  simp only [List.length_cons] at h
  have hle := skipKey_length_le (c :: cs)
  simp only [List.length_cons] at hle
  split
  · rfl
  · split
    · rename_i hk
      simp only [List.length_cons] at hk
      split
      · rename_i hcap; omega
      · split
        · rfl
        · exact bracketCapacityExceeded_false _ _ _ (by omega)
    · exact bracketCapacityExceeded_false _ _ _ (by omega)

/-- A pass that takes a capacity return does return, and as invalid. -/
theorem capacityExceeded_returns (MaxTokens : Nat) (term : List Char) (c : Char)
    (cs : List Char) (p : ParsedStaticRoute) (h : capacityExceeded MaxTokens c cs p = true) :
    ∃ q, staticBody MaxTokens term c cs p = StaticStep.Return q ∧ q.Valid = false := by
  unfold capacityExceeded at h
  unfold staticBody
  by_cases hdot : c = '.'
  · simp [hdot] at h
  · simp only [hdot, ↓reduceIte] at h ⊢
    by_cases hk : (c :: cs).length - (staticSkipKey (c :: cs)).length > 0
    · rw [if_pos hk] at h ⊢
      by_cases hcap : p.Count ≥ MaxTokens
      · rw [if_pos hcap]; exact ⟨_, rfl, rfl⟩
      · rw [if_neg hcap] at h ⊢
        by_cases hl : (c :: cs).length - (staticSkipKey (c :: cs)).length > maxTokenLength
        · rw [if_pos hl] at h; simp at h
        · rw [if_neg hl] at h ⊢
          revert h
          unfold bracketCapacityExceeded staticBracket
          split
          · split
            · intro h; simp at h
            · split
              · intro h; simp at h
              · intro h
                have : ∀ tok, (staticPush p tok).Count ≥ MaxTokens := by
                  intro tok; simpa [staticPush] using h
                simp only [this, ↓reduceIte]
                exact ⟨_, rfl, rfl⟩
          · intro h; simp at h
    · rw [if_neg hk] at h ⊢
      revert h
      unfold bracketCapacityExceeded staticBracket
      split
      · split
        · intro h; simp at h
        · split
          · intro h; simp at h
          · intro h
            have : p.Count ≥ MaxTokens := by simpa using h
            simp only [this, ↓reduceIte]
            exact ⟨_, rfl, rfl⟩
      · intro h; simp at h


/-! ## Progress of the runtime tokenizer's loop -/

theorem scanDigits_suffix (l cur : List Char) (h : scanDigits l = some cur) :
    cur = l.dropWhile isDigitChar := by
  rw [scanDigits_eq] at h
  split at h
  · rename_i heq; simp at h; rw [heq, h]
  · rename_i c r heq
    split at h
    · simp at h; rw [heq, h]
    · simp at h

theorem dynTrailingDot_suffix (cursor : List Char) (t : List RouteToken) (cur : List Char)
    (t' : List RouteToken) (h : dynTrailingDot cursor t = LoopStep.Continue cur t') :
    cur <:+ cursor := by
  unfold dynTrailingDot at h
  split at h
  · split at h
    · simp at h
    · simp at h; rw [← h.1]; exact List.suffix_cons _ _
  · simp at h; rw [← h.1]

theorem dynBracket_suffix (cursor : List Char) (t : List RouteToken) (cur : List Char)
    (t' : List RouteToken) (h : dynBracket cursor t = LoopStep.Continue cur t') :
    cur <:+ cursor := by
  unfold dynBracket at h
  split at h
  · rename_i indexStart
    split at h
    · simp at h
    · rename_i c hc
      split at h
      · simp at h
      · split at h
        · simp at h
        · have h1 := dynTrailingDot_suffix _ _ _ _ h
          have h2 : c <:+ indexStart := by
            rw [scanDigits_suffix _ _ hc]; exact List.dropWhile_suffix _
          exact ((h1.trans (List.tail_suffix c)).trans h2).trans (List.suffix_cons _ _)
  · exact dynTrailingDot_suffix _ _ _ _ h

/-- The cursor a pass goes on with is a later place of the same text. -/
theorem dynBody_suffix (c : Char) (cs : List Char) (t : List RouteToken) (cur : List Char)
    (t' : List RouteToken) (h : dynBody c cs t = LoopStep.Continue cur t') :
    cur <:+ c :: cs := by
  unfold dynBody at h
  split at h
  · split at h
    · simp at h
    · simp at h; rw [← h.1]; exact List.suffix_cons _ _
  · have hs : skipKey (c :: cs) <:+ c :: cs := by
      rw [skipKey_eq_dropWhile]; exact List.dropWhile_suffix _
    simp only at h
    split at h
    · split at h
      · simp at h
      · exact (dynBracket_suffix _ _ _ _ h).trans hs
    · exact (dynBracket_suffix _ _ _ _ h).trans hs

/-- After `n` passes at least `n` characters of the text have been read, and the cursor is
a place of the text. -/
theorem DynReach.progress {path cursor : List Char} {n : Nat} {t : List RouteToken}
    (h : DynReach path n cursor t) :
    n + cursor.length ≤ path.length ∧ ∃ consumed, path = consumed ++ cursor := by
  induction h with
  | start => exact ⟨by simp, [], rfl⟩
  | pass n c cs cursor t t' _ hstep ih =>
    have hl := dynBody_length c cs t cursor t' hstep
    obtain ⟨pre, hpre⟩ := dynBody_suffix c cs t cursor t' hstep
    obtain ⟨h1, consumed, h2⟩ := ih
    simp only [List.length_cons] at h1
    exact ⟨by omega, consumed ++ pre, by rw [h2, ← hpre]; simp⟩


/-! ## The token invariant -/

theorem isDigitChar_le (c : Char) (h : isDigitChar c = true) : '0' ≤ c ∧ c ≤ '9' := by
  simpa [isDigitChar] using h

theorem wellReferenced_key (keyStart : List Char) (len : Nat) (h0 : 0 < len)
    (hmax : len ≤ maxTokenLength) (hle : len ≤ keyStart.length) :
    WellReferenced (RouteToken.mk (some keyStart) (len % 2 ^ 16) RouteTokenType.Key 0) := by
  have hmod : len % 2 ^ 16 = len := by
    apply Nat.mod_eq_of_lt; simp only [maxTokenLength] at hmax; omega
  refine ⟨by rw [hmod]; exact h0, ?_, by intro h; simp at h⟩
  simp only [RouteToken.GetString, hmod, gt_iff_lt, h0, ↓reduceIte, List.length_take]
  omega

theorem wellReferenced_index (indexStart : List Char) (h0 : indexStart.takeWhile isDigitChar ≠ [])
    (hmax : (indexStart.takeWhile isDigitChar).length ≤ maxTokenLength) (idx : Nat) :
    WellReferenced (RouteToken.mk (some indexStart)
      ((indexStart.takeWhile isDigitChar).length % 2 ^ 16) RouteTokenType.Index idx) := by
  have hpos : 0 < (indexStart.takeWhile isDigitChar).length := List.length_pos.2 h0
  have hmod : (indexStart.takeWhile isDigitChar).length % 2 ^ 16 =
      (indexStart.takeWhile isDigitChar).length := by
    apply Nat.mod_eq_of_lt; simp only [maxTokenLength] at hmax; omega
  have hs : RouteToken.GetString (RouteToken.mk (some indexStart)
      ((indexStart.takeWhile isDigitChar).length % 2 ^ 16) RouteTokenType.Index idx) =
      indexStart.takeWhile isDigitChar := by
    simp only [RouteToken.GetString, hmod, gt_iff_lt, hpos, ↓reduceIte]
    exact take_length_takeWhile isDigitChar indexStart
  refine ⟨by rw [hmod]; exact hpos, by rw [hs, hmod], ?_⟩
  intro _ c hc
  rw [hs] at hc
  exact isDigitChar_le c (takeWhile_all isDigitChar indexStart c hc)

theorem dynTrailingDot_tokens (cursor : List Char) (t : List RouteToken) (cur : List Char)
    (t' : List RouteToken) (h : dynTrailingDot cursor t = LoopStep.Continue cur t') : t' = t := by
  unfold dynTrailingDot at h
  split at h
  · split at h
    · simp at h
    · simp at h; exact h.2.symm
  · simp at h; exact h.2.symm

theorem dynBracket_wellReferenced (cursor : List Char) (t : List RouteToken) (cur : List Char)
    (t' : List RouteToken) (h : dynBracket cursor t = LoopStep.Continue cur t')
    (ht : ∀ tok ∈ t, WellReferenced tok) : ∀ tok ∈ t', WellReferenced tok := by
  unfold dynBracket at h
  split at h
  · rename_i indexStart
    split at h
    · simp at h
    · rename_i c hc
      split at h
      · simp at h
      · rename_i hne
        split at h
        · simp at h
        · rename_i hmax
          have hcur := scanDigits_suffix _ _ hc
          have hlen := length_sub_dropWhile isDigitChar indexStart
          rw [← hcur] at hlen
          rw [dynTrailingDot_tokens _ _ _ _ h]
          intro tok htok
          rcases List.mem_append.1 htok with h1 | h1
          · exact ht tok h1
          · simp only [List.mem_singleton] at h1
            rw [h1, hlen]
            apply wellReferenced_index
            · intro h0
              have : indexStart.length - c.length = 0 := by rw [hlen, h0]; rfl
              have hle := scanDigits_length_le _ _ hc
              exact hne (Or.inr (by omega))
            · rw [← hlen]; omega
  · rw [dynTrailingDot_tokens _ _ _ _ h]; exact ht

/-- A pass through the loop body keeps the token invariant. -/
theorem dynBody_wellReferenced (c : Char) (cs : List Char) (t : List RouteToken)
    (cur : List Char) (t' : List RouteToken) (h : dynBody c cs t = LoopStep.Continue cur t')
    (ht : ∀ tok ∈ t, WellReferenced tok) : ∀ tok ∈ t', WellReferenced tok := by
  unfold dynBody at h
  split at h
  · split at h
    · simp at h
    · simp at h; rw [← h.2]; exact ht
  · simp only at h
    split at h
    · rename_i hk
      split at h
      · simp at h
      · rename_i hmax
        refine dynBracket_wellReferenced _ _ _ _ h ?_
        intro tok htok
        rcases List.mem_append.1 htok with h1 | h1
        · exact ht tok h1
        · simp only [List.mem_singleton] at h1
          rw [h1]
          exact wellReferenced_key _ _ hk (by omega) (Nat.sub_le _ _)
    · exact dynBracket_wellReferenced _ _ _ _ h ht

theorem DynReach.tokens_wellReferenced {path cursor : List Char} {n : Nat} {t : List RouteToken}
    (h : DynReach path n cursor t) : ∀ tok ∈ t, WellReferenced tok := by
  induction h with
  | start => intro tok h; simp at h
  | pass n c cs cursor t t' _ hstep ih => exact dynBody_wellReferenced c cs t cursor t' hstep ih

theorem Lex.wellReferenced {rest : List Char} {ts : List RouteToken} (h : Lex rest ts) :
    ∀ tok ∈ ts, WellReferenced tok := by
  intro tok htok
  rcases h.token_shape tok htok with ⟨k, r, hne, hlen, _, hk⟩ | ⟨ds, r, hne, hlen, hd, hi⟩
  · have hc := keyToken_content k r hne hlen
    rw [← hk] at hc
    simp only [RouteToken.content, Prod.mk.injEq] at hc
    have hmod : k.length % 65536 = k.length := by
      apply Nat.mod_eq_of_lt; simp only [maxTokenLength] at hlen; omega
    have hL : tok.Length = k.length := by rw [hk]; simp [keyToken, hmod]
    exact ⟨by rw [hL]; exact List.length_pos.2 hne, by rw [hc.2.1, hL],
      by intro h; rw [hc.1] at h; simp at h⟩
  · have hc := indexToken_content ds (']' :: r) hne hlen
    rw [← hi] at hc
    simp only [RouteToken.content, Prod.mk.injEq] at hc
    have hmod : ds.length % 65536 = ds.length := by
      apply Nat.mod_eq_of_lt; simp only [maxTokenLength] at hlen; omega
    have hL : tok.Length = ds.length := by rw [hi]; simp [indexToken, hmod]
    refine ⟨by rw [hL]; exact List.length_pos.2 hne, by rw [hc.2.1, hL], ?_⟩
    intro _ c hcm
    rw [hc.2.1] at hcm
    exact isDigitChar_le c (hd c hcm)


/-! ## Token spans -/

/-- Every emitted token points into the text, and its span ends inside the text. -/
theorem Lex.unread_le {rest : List Char} {ts : List RouteToken} (h : Lex rest ts) :
    ∀ tok ∈ ts, tok.unread ≤ rest.length ∧ tok.Length ≤ tok.unread := by
  intro tok htok
  obtain ⟨p, pre, h1, h2⟩ := h.ptr_in_text tok htok
  obtain ⟨p', h3, h4, _⟩ := h.token_run tok htok
  rw [h1] at h3
  simp only [Option.some.injEq] at h3
  subst h3
  have hu : tok.unread = p.length := by simp [RouteToken.unread, h1]
  refine ⟨by rw [hu, h2]; simp, ?_⟩
  rw [hu, h4]
  split
  · exact (List.takeWhile_sublist _).length_le
  · exact (List.takeWhile_sublist _).length_le

/-- Tokens are emitted in text order: a later token starts at or after the end of the span
of an earlier one. -/
theorem Lex.ordered {rest : List Char} {ts : List RouteToken} (h : Lex rest ts) :
    ts.Pairwise (fun a b => b.unread + a.Length ≤ a.unread) := by
  induction h with
  | done => exact List.Pairwise.nil
  | dot r ts _ _ ih => exact ih
  | group ds r ts _ hlen _ hlex ih =>
    refine List.Pairwise.cons ?_ ih
    intro b hb
    have hb1 := (hlex.unread_le b hb).1
    have hmod : ds.length % 65536 = ds.length := by
      apply Nat.mod_eq_of_lt; simp only [maxTokenLength] at hlen; omega
    have hu : (indexToken (ds ++ ']' :: r) ds.length).unread = ds.length + (r.length + 1) := by
      simp [indexToken, RouteToken.unread]
    have hL : (indexToken (ds ++ ']' :: r) ds.length).Length = ds.length := by
      simp [indexToken, hmod]
    rw [hu, hL]
    omega
  | key k r ts _ hlen _ _ hlex ih =>
    refine List.Pairwise.cons ?_ ih
    intro b hb
    have hb1 := (hlex.unread_le b hb).1
    have hmod : k.length % 65536 = k.length := by
      apply Nat.mod_eq_of_lt; simp only [maxTokenLength] at hlen; omega
    have hu : (keyToken (k ++ r) k.length).unread = k.length + r.length := by
      simp [keyToken, RouteToken.unread]
    have hL : (keyToken (k ++ r) k.length).Length = k.length := by
      simp [keyToken, hmod]
    rw [hu, hL]
    omega

/-- The text a token gives is the part of the path at its offset with its length. -/
theorem Lex.text_at_offset {path : List Char} {ts : List RouteToken} (h : Lex path ts) :
    ∀ tok ∈ ts, tok.GetString = (path.drop (tok.offset path)).take tok.Length ∧
      tok.offset path + tok.Length ≤ path.length := by
  intro tok htok
  obtain ⟨p, pre, h1, h2⟩ := h.ptr_in_text tok htok
  obtain ⟨hu, hl⟩ := h.unread_le tok htok
  have hpos := (h.wellReferenced tok htok).1
  have hun : tok.unread = p.length := by simp [RouteToken.unread, h1]
  have hoff : tok.offset path = pre.length := by
    simp only [RouteToken.offset, hun, h2, List.length_append]; omega
  refine ⟨?_, by simp only [RouteToken.offset]; omega⟩
  rw [hoff]
  conv_rhs => rw [h2]
  rw [List.drop_left]
  simp [RouteToken.GetString, h1, hpos]


/-! ## Joining accepted texts with a dot -/

theorem getLast?_tail_part (a r : List Char) (x : Char) (h : (a ++ r).getLast? ≠ some x) :
    r.getLast? ≠ some x := by
  intro hr
  apply h
  rw [List.getLast?_append, hr]
  rfl

theorem head?_append_of_ne_nil (r s : List Char) (h : r ≠ []) : (r ++ s).head? = r.head? := by
  cases r with
  | nil => exact absurd rfl h
  | cons a as => rfl

/-- Accepted texts can be joined with a single dot: the tokens are those of the first text
followed by those of the second. -/
theorem Lex.append_dot {p : List Char} {ts₁ : List RouteToken} (h : Lex p ts₁) :
    p.getLast? ≠ some '.' → ∀ (q : List Char) (ts₂ : List RouteToken), Lex q ts₂ →
      q.head? ≠ some '.' →
      ∃ ts, Lex (p ++ '.' :: q) ts ∧
        ts.map RouteToken.content = ts₁.map RouteToken.content ++ ts₂.map RouteToken.content := by
  induction h with
  | done =>
    intro _ q ts₂ hq hh
    exact ⟨ts₂, Lex.dot q ts₂ hh hq, by simp⟩
  | dot r ts hh _ ih =>
    intro hl q ts₂ hq hqh
    have hne : r ≠ [] := by
      intro hr; subst hr; exact hl rfl
    obtain ⟨ts', h1, h2⟩ := ih (getLast?_tail_part ['.'] r '.' hl) q ts₂ hq hqh
    refine ⟨ts', ?_, h2⟩
    exact Lex.dot (r ++ '.' :: q) ts' (by rw [head?_append_of_ne_nil r _ hne]; exact hh) h1
  | group ds r ts hne hlen hd _ ih =>
    intro hl q ts₂ hq hqh
    have hl' : r.getLast? ≠ some '.' := by
      apply getLast?_tail_part ('[' :: (ds ++ [']'])) r '.'
      simpa using hl
    obtain ⟨ts', h1, h2⟩ := ih hl' q ts₂ hq hqh
    refine ⟨indexToken (ds ++ ']' :: (r ++ '.' :: q)) ds.length :: ts', ?_, ?_⟩
    · have := Lex.group ds (r ++ '.' :: q) ts' hne hlen hd h1
      simpa using this
    · simp only [List.map_cons, h2, List.cons_append]
      rw [indexToken_content ds _ hne hlen, indexToken_content ds _ hne hlen]
  | key k r ts hne hlen hk hr _ ih =>
    intro hl q ts₂ hq hqh
    obtain ⟨ts', h1, h2⟩ := ih (getLast?_tail_part k r '.' hl) q ts₂ hq hqh
    refine ⟨keyToken (k ++ (r ++ '.' :: q)) k.length :: ts', ?_, ?_⟩
    · have hstop : ∀ c ∈ (r ++ '.' :: q).head?, isKeyChar c = false := by
        intro c hc
        cases r with
        | nil => simp at hc; rw [← hc]; decide
        | cons a as => exact hr c (by simpa using hc)
      have := Lex.key k (r ++ '.' :: q) ts' hne hlen hk hstop h1
      simpa using this
    · simp only [List.map_cons, h2, List.cons_append]
      rw [keyToken_content k _ hne hlen, keyToken_content k _ hne hlen]


/-! ## Dots at the edges of a text -/

theorem takeWhile_append_stop_one (p : Char → Bool) (x : Char) (hx : p x = false) :
    ∀ l : List Char, (l ++ [x]).takeWhile p = l.takeWhile p ∧
      (l ++ [x]).dropWhile p = l.dropWhile p ++ [x]
  | [] => by simp [List.takeWhile_cons, List.dropWhile_cons, hx]
  | a :: l => by
    obtain ⟨h1, h2⟩ := takeWhile_append_stop_one p x hx l
    by_cases ha : p a = true
    · simp [List.takeWhile_cons, List.dropWhile_cons, ha, h1, h2]
    · simp [List.takeWhile_cons, List.dropWhile_cons, ha]

theorem indexToken_content_append (r s : List Char) (n : Nat) (h : n ≤ r.length) :
    (indexToken (r ++ s) n).content = (indexToken r n).content := by
  have hl : n % 2 ^ 16 ≤ r.length := le_trans (Nat.mod_le _ _) h
  simp only [RouteToken.content, indexToken, RouteToken.GetString]
  rw [List.take_append_of_le_length hl, List.take_append_of_le_length h]

theorem keyToken_content_append (r s : List Char) (n : Nat) (h : n ≤ r.length) :
    (keyToken (r ++ s) n).content = (keyToken r n).content := by
  have hl : n % 2 ^ 16 ≤ r.length := le_trans (Nat.mod_le _ _) h
  simp only [RouteToken.content, keyToken, RouteToken.GetString]
  rw [List.take_append_of_le_length hl]

/-- A single dot at the end of a text that does not end with a dot changes neither the flag
nor what the tokens say. -/
theorem parseFrom_trailing_dot : ∀ (n : Nat) (p : List Char) (t₁ t₂ : List RouteToken),
    p.length ≤ n → p.getLast? ≠ some '.' →
    t₁.map RouteToken.content = t₂.map RouteToken.content →
    (parseFrom (p ++ ['.']) t₁).map resultView = (parseFrom p t₂).map resultView
  | _, [], t₁, t₂, _, _, ht => by
    simp only [List.nil_append]
    rw [parseFrom_dot, parseFrom_nil, parseFrom_nil]
    simp [resultView, ht]
  | 0, _ :: _, _, _, h, _, _ => by simp at h
  | n + 1, c :: r, t₁, t₂, h, hl, ht => by
    simp only [List.length_cons, Nat.add_le_add_iff_right] at h
    by_cases hdot : c = '.'
    · subst hdot
      have hne : r ≠ [] := by
        intro hr; subst hr; exact hl rfl
      simp only [List.cons_append]
      rw [parseFrom_dot, parseFrom_dot, head?_append_of_ne_nil r _ hne]
      by_cases hh : r.head? = some '.'
      · simp [hh]
      · rw [if_neg hh, if_neg hh]
        exact parseFrom_trailing_dot n r t₁ t₂ h (getLast?_tail_part ['.'] r '.' hl) ht
    · by_cases hbr : c = '['
      · subst hbr
        simp only [List.cons_append]
        rw [parseFrom_open, parseFrom_open]
        obtain ⟨h1, h2⟩ := takeWhile_append_stop_one isDigitChar '.' (by decide) r
        rw [h1, h2]
        cases hd : r.dropWhile isDigitChar with
        | nil => simp
        | cons x tl =>
          simp only [List.cons_append, List.head?_cons, List.tail_cons]
          by_cases hc : r.takeWhile isDigitChar ≠ [] ∧
              (r.takeWhile isDigitChar).length ≤ maxTokenLength ∧ some x = some ']'
          · rw [if_pos hc, if_pos hc]
            have hr : r = r.takeWhile isDigitChar ++ x :: tl := by
              rw [← hd, List.takeWhile_append_dropWhile]
            have hlen : tl.length ≤ n := by
              have := congrArg List.length hr
              simp only [List.length_append, List.length_cons] at this
              omega
            have hlast : tl.getLast? ≠ some '.' := by
              apply getLast?_tail_part ('[' :: (r.takeWhile isDigitChar ++ [x])) tl '.'
              have : '[' :: (r.takeWhile isDigitChar ++ [x]) ++ tl = '[' :: r := by
                conv_rhs => rw [hr]
                simp
              rw [this]; exact hl
            apply parseFrom_trailing_dot n tl _ _ hlen hlast
            simp only [List.map_append, ht, List.map_cons, List.map_nil]
            rw [indexToken_content_append r ['.'] _ (List.takeWhile_sublist _).length_le]
          · rw [if_neg hc, if_neg hc]
      · have hk : isKeyChar c = true := isKeyChar_of_ne c ⟨hdot, hbr⟩
        simp only [List.cons_append]
        rw [parseFrom_key c (r ++ ['.']) t₁ hk, parseFrom_key c r t₂ hk]
        obtain ⟨h1, h2⟩ := takeWhile_append_stop_one isKeyChar '.' (by decide) (c :: r)
        simp only [List.cons_append] at h1 h2
        rw [h1, h2]
        by_cases hlen : ((c :: r).takeWhile isKeyChar).length ≤ maxTokenLength
        · rw [if_pos hlen, if_pos hlen]
          have hd : (c :: r).dropWhile isKeyChar = r.dropWhile isKeyChar := by
            simp [List.dropWhile_cons, hk]
          have hlt : ((c :: r).dropWhile isKeyChar).length ≤ n := by
            rw [hd]; exact le_trans (List.dropWhile_sublist _).length_le h
          have hlast : ((c :: r).dropWhile isKeyChar).getLast? ≠ some '.' := by
            apply getLast?_tail_part ((c :: r).takeWhile isKeyChar) _ '.'
            rw [List.takeWhile_append_dropWhile]; exact hl
          apply parseFrom_trailing_dot n _ _ _ hlt hlast
          simp only [List.map_append, ht, List.map_cons, List.map_nil]
          have := keyToken_content_append (c :: r) ['.'] ((c :: r).takeWhile isKeyChar).length
            (List.takeWhile_sublist _).length_le
          simp only [List.cons_append] at this
          rw [this]
        · rw [if_neg hlen, if_neg hlen]

/-- A text with two adjacent dots is rejected. -/
theorem ParseDynamicRoute_dotdot (pre post : List Char) (out : List RouteToken) :
    ParseDynamicRoute (pre ++ '.' :: '.' :: post) out = some (false, []) := by
  rcases ParseDynamicRoute_total (pre ++ '.' :: '.' :: post) out with ⟨ts, _, h2⟩ | h1
  · have := h2.no_dotdot
    rw [hasDotDot_mid] at this
    exact absurd this (by decide)
  · exact h1


/-! ## Walks from an object and into an array -/

/-- The walk from an object through a first Key token stores under that key only. -/
theorem Json.setWalk_key_start (members : List (List Char × NativeJson)) (tok : RouteToken)
    (rest : List RouteToken) (v : NativeJson) (hk : tok.Kind = RouteTokenType.Key) :
    ∃ stored, Json.setWalk (object members) (tok :: rest) v =
      object (setMember members tok.GetString stored) := by
  cases rest with
  | nil => exact ⟨v, by simp [Json.setWalk, hk, Json.ensureObject, is_object, setKey]⟩
  | cons next rest =>
    refine ⟨Json.setWalk (Json.coerceChild next ((object members).atKey tok.GetString))
      (next :: rest) v, ?_⟩
    simp only [Json.setWalk, hk, ↓reduceIte, Json.ensureObject, is_object,
      Bool.not_true, Bool.false_eq_true, setKey]

theorem take_set_ge {α : Type} : ∀ (l : List α) (n m : Nat) (a : α), n ≤ m →
    (l.set m a).take n = l.take n
  | [], _, _, _, _ => by simp
  | _ :: _, 0, _, _, _ => by simp
  | x :: l, n + 1, 0, a, h => by omega
  | x :: l, n + 1, m + 1, a, h => by
    simp only [List.set_cons_succ, List.take_succ_cons, List.cons.injEq, true_and]
    exact take_set_ge l n m a (by omega)

theorem keeps_refl (p : ParsedStaticRoute) : Keeps p p := ⟨le_refl _, rfl⟩

theorem Keeps.chain {p q r : ParsedStaticRoute} (h₁ : Keeps p q) (h₂ : Keeps q r) :
    Keeps p r := by
  obtain ⟨h1, h2⟩ := h₁
  obtain ⟨h3, h4⟩ := h₂
  refine ⟨le_trans h1 h3, ?_⟩
  have e1 : r.Tokens.take p.Count = (r.Tokens.take q.Count).take p.Count := by
    rw [List.take_take, Nat.min_eq_left h1]
  have e2 : q.Tokens.take p.Count = (q.Tokens.take q.Count).take p.Count := by
    rw [List.take_take, Nat.min_eq_left h1]
  rw [e1, h4, ← e2, h2]

theorem kept_refl (MaxTokens : Nat) (p : ParsedStaticRoute) : Kept MaxTokens 0 p p :=
  ⟨keeps_refl p, le_refl _, rfl, fun h => h⟩

theorem TableFilled.after_push {MaxTokens : Nat} {p : ParsedStaticRoute}
    (h : TableFilled MaxTokens p) (hcap : ¬ p.Count ≥ MaxTokens) (tok : RouteToken)
    (hptr : tok.Ptr ≠ none) : TableFilled MaxTokens (staticPush p tok) := by
  obtain ⟨h1, h2, h3, h4⟩ := h
  refine ⟨by simp [staticPush, h1], by simp only [staticPush]; omega, ?_, ?_⟩
  · intro i hi
    simp only [staticPush] at hi ⊢
    by_cases hic : i = p.Count
    · subst hic
      exact ⟨tok, by rw [List.getElem?_set_self (by omega)], hptr⟩
    · rw [List.getElem?_set_ne (Ne.symm hic)]
      exact h3 i (by omega)
  · intro i hi him
    simp only [staticPush] at hi ⊢
    rw [List.getElem?_set_ne (by omega)]
    exact h4 i (by omega) him

/-- Storing a token keeps everything stored before. -/
theorem kept_push (MaxTokens : Nat) (p : ParsedStaticRoute) (hcap : ¬ p.Count ≥ MaxTokens)
    (tok : RouteToken) (hptr : tok.Ptr ≠ none) : Kept MaxTokens 1 p (staticPush p tok) := by
  refine ⟨⟨by simp [staticPush], ?_⟩, by simp [staticPush], rfl,
    fun h => h.after_push hcap tok hptr⟩
  simp only [staticPush]
  exact take_set_ge _ _ _ _ (le_refl _)

/-- A failing return changes the flag only. -/
theorem stepKeeps_fail (MaxTokens k : Nat) (p : ParsedStaticRoute) :
    StepKeeps MaxTokens k p (staticFail p) :=
  ⟨⟨le_refl _, rfl⟩, Nat.le_add_right _ _, rfl, fun h => h⟩

theorem StepKeeps.after {MaxTokens j k : Nat} {p q : ParsedStaticRoute} {s : StaticStep}
    (h₁ : Kept MaxTokens j p q) (h₂ : StepKeeps MaxTokens k q s) :
    StepKeeps MaxTokens (j + k) p s := by
  obtain ⟨a1, a2, a3, a4⟩ := h₁
  cases s with
  | Return r =>
    obtain ⟨b1, b2, b3, b4⟩ := h₂
    exact ⟨a1.chain b1, by omega, b3, fun h => b4 (a4 h)⟩
  | Continue cur r =>
    obtain ⟨b1, b2, b3, b4⟩ := h₂
    exact ⟨a1.chain b1, by omega, by rw [b3, a3], fun h => b4 (a4 h)⟩

theorem StepKeeps.weaken {MaxTokens j k : Nat} {p : ParsedStaticRoute} {s : StaticStep}
    (h : StepKeeps MaxTokens j p s) (hjk : j ≤ k) : StepKeeps MaxTokens k p s := by
  cases s with
  | Return r =>
    obtain ⟨b1, b2, b3, b4⟩ := h
    exact ⟨b1, by omega, b3, b4⟩
  | Continue cur r =>
    obtain ⟨b1, b2, b3, b4⟩ := h
    exact ⟨b1, by omega, b3, b4⟩

theorem staticTrailingDot_keeps (MaxTokens : Nat) (cursor : List Char)
    (p : ParsedStaticRoute) : StepKeeps MaxTokens 0 p (staticTrailingDot cursor p) := by
  unfold staticTrailingDot
  split
  · split
    · exact stepKeeps_fail MaxTokens 0 p
    · exact kept_refl MaxTokens p
  · exact kept_refl MaxTokens p

theorem staticBracket_keeps (MaxTokens : Nat) (term cursor : List Char)
    (p : ParsedStaticRoute) : StepKeeps MaxTokens 1 p (staticBracket MaxTokens term cursor p) := by
  unfold staticBracket
  split
  · split
    · exact stepKeeps_fail MaxTokens 1 p
    · split
      · exact stepKeeps_fail MaxTokens 1 p
      · split
        · exact stepKeeps_fail MaxTokens 1 p
        · rename_i hcap
          split
          · exact stepKeeps_fail MaxTokens 1 p
          · exact StepKeeps.after (kept_push MaxTokens p hcap _ (by simp))
              (staticTrailingDot_keeps MaxTokens _ _)
  · exact (staticTrailingDot_keeps MaxTokens cursor p).weaken (by omega)

/-- A pass through the static loop body stores at most two tokens and touches nothing else:
what was stored before is kept, also when the pass returns as invalid. -/
theorem staticBody_keeps (MaxTokens : Nat) (term : List Char) (c : Char) (cs : List Char)
    (p : ParsedStaticRoute) : StepKeeps MaxTokens 2 p (staticBody MaxTokens term c cs p) := by
  unfold staticBody
  split
  · split
    · exact stepKeeps_fail MaxTokens 2 p
    · have h0 : StepKeeps MaxTokens 0 p (StaticStep.Continue cs p) := kept_refl MaxTokens p
      exact h0.weaken (by omega)
  · simp only
    split
    · split
      · exact stepKeeps_fail MaxTokens 2 p
      · rename_i hcap
        split
        · exact stepKeeps_fail MaxTokens 2 p
        · exact StepKeeps.after (kept_push MaxTokens p hcap _ (by simp))
            (staticBracket_keeps MaxTokens term _ _)
    · exact (staticBracket_keeps MaxTokens term _ p).weaken (by omega)


/-- At the head of every pass of the static loop the table is in order, nothing has failed
and the table holds exactly its `Count` stored tokens. -/
theorem StaticReach.table {MaxTokens : Nat} {term text rest : List Char}
    {p : ParsedStaticRoute} (h : StaticReach MaxTokens term text rest p) :
    StaticInv MaxTokens text.length rest p ∧ p.Valid = true ∧ TableFilled MaxTokens p := by
  induction h with
  | start =>
    refine ⟨⟨by simp, by simp, by simp⟩, rfl, by simp, by simp, ?_, ?_⟩
    · intro i hi; simp at hi
    · intro i _ him
      simp [List.getElem?_replicate, him]
  | pass c cs cursor parsed next _ hstep ih =>
    obtain ⟨h1, h2, h3⟩ := ih
    have hinv := staticBody_inv MaxTokens text.length term c cs parsed h1
    have hk := staticBody_keeps MaxTokens term c cs parsed
    rw [hstep] at hinv hk
    obtain ⟨_, _, k3, k4⟩ := hk
    exact ⟨hinv.1, by rw [k3, h2], k4 h3⟩

/-- The run from a loop-head state is the rest of the run from the start. -/
theorem StaticReach.run {MaxTokens : Nat} {term text rest : List Char}
    {p : ParsedStaticRoute} (h : StaticReach MaxTokens term text rest p) :
    ∃ fuel, rest.length ≤ fuel ∧
      staticLoop MaxTokens term fuel rest p =
        staticLoop MaxTokens term text.length text
          { Tokens := List.replicate MaxTokens {}, Count := 0, Valid := true } := by
  induction h with
  | start => exact ⟨text.length, le_refl _, rfl⟩
  | pass c cs cursor parsed next hreach hstep ih =>
    obtain ⟨fuel, hf, hrun⟩ := ih
    cases fuel with
    | zero => simp at hf
    | succ f =>
      simp only [staticLoop, hstep] at hrun
      have hinv := staticBody_inv MaxTokens text.length term c cs parsed hreach.table.1
      rw [hstep] at hinv
      simp only [List.length_cons] at hf
      exact ⟨f, by have := hinv.2; omega, hrun⟩

/-- C1: a path built by joining non-empty well-formed segments with single dots tokenizes
as valid, and its tokens are, segment by segment, one Key token carrying the key text (if
the segment has a key) followed by one Index token per bracket group carrying the decimal
value of the group. -/
theorem C1_wellformed_path_tokens (segs : List Segment) (hne : segs ≠ [])
    (hwf : ∀ s ∈ segs, s.WellFormed) (out : List RouteToken) :
    ∃ toks : List RouteToken,
      ParseDynamicRoute (joinDots (segs.map Segment.text)) out = some (true, toks) ∧
      toks.map RouteToken.content = (segs.map Segment.contents).flatten := by
  obtain ⟨ts, h1, h2⟩ := parseFrom_segments segs [] hne hwf
  exact ⟨ts, by rw [ParseDynamicRoute_eq, h1]; simp, h2⟩

/-- C1 at the path `Flat`: one segment with the key `Flat`, giving the single token
Key `Flat`. -/
theorem C1_wellformed_path_tokens_witness :
    ∃ toks : List RouteToken,
      ParseDynamicRoute ['F', 'l', 'a', 't'] [] = some (true, toks) ∧
      toks.map RouteToken.content = [(RouteTokenType.Key, ['F', 'l', 'a', 't'], 0)] :=
  C1_wellformed_path_tokens [{ key := ['F', 'l', 'a', 't'], groups := [] }] (by decide)
    (by
      intro s hs
      simp only [List.mem_singleton] at hs
      subst hs
      simp only [Segment.WellFormed]
      decide) []

/-- C2: the path `A.B[2].C` tokenizes as valid with exactly the four tokens Key `A`,
Key `B`, Index 2, Key `C`, in that order, and the route built from it has token count 4. -/
theorem C2_example_tokens :
    (∀ out : List RouteToken,
      (ParseDynamicRoute "A.B[2].C".toList out).map
          (fun r => (r.1, r.2.map RouteToken.content)) =
        some (true, [(RouteTokenType.Key, ['A'], 0), (RouteTokenType.Key, ['B'], 0),
          (RouteTokenType.Index, ['2'], 2), (RouteTokenType.Key, ['C'], 0)])) ∧
    (route "A.B[2].C".toList).map DynamicRoute.GetTokenCount = some 4 ∧
    (route "A.B[2].C".toList).map DynamicRoute.IsValid = some true := by
  refine ⟨?_, by decide, by decide⟩
  intro out
  rw [ParseDynamicRoute_eq]
  decide


/-- C5: every path with two adjacent dots anywhere in it is rejected: the runtime tokenizer
returns valid = false (with an empty token vector). -/
theorem C5_adjacent_dots_rejected (pre post : List Char) (out : List RouteToken) :
    ParseDynamicRoute (pre ++ '.' :: '.' :: post) out = some (false, []) := by
  rcases ParseDynamicRoute_total (pre ++ '.' :: '.' :: post) out with ⟨ts, _, h2⟩ | h1
  · have := h2.no_dotdot
    rw [hasDotDot_mid] at this
    exact absurd this (by decide)
  · exact h1


/-- C6: in every path the runtime tokenizer accepts, each `'['` is immediately followed by
one or more decimal digits and then `']'`; equivalently, a path with a `'['` that is not
followed that way (unterminated, empty, or with a non-digit inside) is rejected with
valid = false. -/
theorem C6_brackets_well_formed (path : List Char) (out : List RouteToken) :
    (∀ toks, ParseDynamicRoute path out = some (true, toks) →
      ∀ pre post : List Char, path = pre ++ '[' :: post →
        ∃ ds tl : List Char, ds ≠ [] ∧ (∀ d ∈ ds, '0' ≤ d ∧ d ≤ '9') ∧ post = ds ++ ']' :: tl) ∧
    ((∃ pre post : List Char, path = pre ++ '[' :: post ∧
        ¬ ∃ ds tl : List Char, ds ≠ [] ∧ (∀ d ∈ ds, '0' ≤ d ∧ d ≤ '9') ∧ post = ds ++ ']' :: tl) →
      ParseDynamicRoute path out = some (false, [])) := by
  constructor
  · intro toks h
    exact (ParseDynamicRoute_accepts path out toks h).brackets_closed
  · rintro ⟨pre, post, hp, hbad⟩
    rcases ParseDynamicRoute_total path out with ⟨ts, _, h2⟩ | h1
    · exact absurd (h2.brackets_closed pre post hp) hbad
    · exact h1

/-- C6 at the accepted path `a[12]`: its `'['` is followed by the digits `12` and `']'`. -/
theorem C6_brackets_well_formed_witness :
    ∃ ds tl : List Char, ds ≠ [] ∧ (∀ d ∈ ds, '0' ≤ d ∧ d ≤ '9') ∧
      ['1', '2', ']'] = ds ++ ']' :: tl :=
  (C6_brackets_well_formed ['a', '[', '1', '2', ']'] []).1
    [keyToken ['a', '[', '1', '2', ']'] 1, indexToken ['1', '2', ']'] 2]
    (by decide) ['a'] ['1', '2', ']'] rfl


/-- C7 fails as stated: the path `a[1]b` is accepted (tokens Key `a`, Index 1, Key `b`),
yet it is not a sequence of dot-separated segments of the form key-then-bracket-groups,
its `']'` being directly followed by a key. -/
theorem C7_grammar_counterexample :
    (ParseDynamicRoute ['a', '[', '1', ']', 'b'] []).map
        (fun r => (r.1, r.2.map RouteToken.content)) =
      some (true, [(RouteTokenType.Key, ['a'], 0), (RouteTokenType.Index, ['1'], 1),
        (RouteTokenType.Key, ['b'], 0)]) ∧
    ¬ InGrammar ['a', '[', '1', ']', 'b'] := by
  refine ⟨by decide, ?_⟩
  rintro ⟨segs, hshape, hp⟩
  match segs, hshape, hp with
  | [], _, hp => simp [joinDots] at hp
  | [s], hshape, hp =>
    simp only [List.map_cons, List.map_nil, joinDots, Segment.text] at hp
    by_cases hg : s.groups = []
    · rw [hg] at hp
      simp only [List.map_nil, List.flatten_nil, List.append_nil] at hp
      have := ((hshape s (by simp)).1 '[' (by rw [← hp]; decide)).2
      exact this rfl
    · have := groups_getLast? s.groups s.key hg
      rw [← hp] at this
      revert this
      decide
  | a :: b :: l, _, hp =>
    have := dot_mem_joinDots a.text b.text (l.map Segment.text)
    simp only [List.map_cons] at hp
    rw [← hp] at this
    revert this
    decide

/-- C7 as amended: every path the runtime tokenizer accepts is a sequence of runs separated
by `'.'`, each run being zero or more segments (an optional key followed by zero or more
bracket groups) written back to back. -/
theorem C7_relaxed_grammar (path : List Char) (out toks : List RouteToken)
    (h : ParseDynamicRoute path out = some (true, toks)) : InRelaxedGrammar path := by
  obtain ⟨run, runs, h1, h2⟩ := (ParseDynamicRoute_accepts path out toks h).relaxed
  exact ⟨run :: runs, h1, h2⟩

/-- C7 as amended, at the accepted path `a[1]b`. -/
theorem C7_relaxed_grammar_witness : InRelaxedGrammar ['a', '[', '1', ']', 'b'] :=
  C7_relaxed_grammar ['a', '[', '1', ']', 'b'] []
    [keyToken ['a', '[', '1', ']', 'b'] 1, indexToken ['1', ']', 'b'] 1, keyToken ['b'] 1]
    (by decide)


/-- C8 fails as stated: the path `[4294967296]` is accepted with one Index token whose digit
run reads 4294967296 in base 10, while its decoded `Index` field is 0. -/
theorem C8_index_counterexample :
    ∃ tok : RouteToken,
      ParseDynamicRoute "[4294967296]".toList [] = some (true, [tok]) ∧
      tok.Kind = RouteTokenType.Index ∧ tok.GetString = "4294967296".toList ∧
      decimalValue tok.GetString = 4294967296 ∧ tok.Index = 0 :=
  ⟨indexToken "4294967296]".toList 10, by decide, by decide, by decide, by decide, by decide⟩

/-- C8 as amended: for every accepted path, each Index token's decoded value is the base-10
reading of the digit run it references reduced modulo `2^32` (hence that reading itself when
it is below `2^32`), and it always fits the 32-bit unsigned range. -/
theorem C8_index_decoding (path : List Char) (out toks : List RouteToken)
    (h : ParseDynamicRoute path out = some (true, toks)) :
    ∀ tok ∈ toks, tok.Kind = RouteTokenType.Index →
      tok.Index = decimalValue tok.GetString % 2 ^ 32 ∧ tok.Index < 2 ^ 32 ∧
      (decimalValue tok.GetString < 2 ^ 32 → tok.Index = decimalValue tok.GetString) := by
  intro tok htok hkind
  have hlex := ParseDynamicRoute_accepts path out toks h
  rcases hlex.token_shape tok htok with ⟨k, r, _, _, _, hk⟩ | ⟨ds, r, hne, hlen, _, hd⟩
  · rw [hk] at hkind; simp [keyToken] at hkind
  · have hc := indexToken_content ds (']' :: r) hne hlen
    rw [← hd] at hc
    simp only [RouteToken.content, Prod.mk.injEq] at hc
    obtain ⟨_, hs, hi⟩ := hc
    rw [hs, hi]
    refine ⟨decodeIndex_eq_mod ds, decodeIndex_lt ds, fun hlt => decodeIndex_eq ds hlt⟩

/-- C8 as amended, at the accepted path `[4294967298]`, whose Index token decodes to 2. -/
theorem C8_index_decoding_witness :
    (indexToken "4294967298]".toList 10).Index =
        decimalValue (indexToken "4294967298]".toList 10).GetString % 2 ^ 32 ∧
      (indexToken "4294967298]".toList 10).Index < 2 ^ 32 ∧
      (decimalValue (indexToken "4294967298]".toList 10).GetString < 2 ^ 32 →
        (indexToken "4294967298]".toList 10).Index =
          decimalValue (indexToken "4294967298]".toList 10).GetString) :=
  C8_index_decoding "[4294967298]".toList [] [indexToken "4294967298]".toList 10]
    (by decide) (indexToken "4294967298]".toList 10) (by simp) (by decide)


/-- C9: for every text, the runtime tokenizer and the parse-time tokenizer instantiated with
the default capacity of `StaticRoute` (one slot per character, one slot for the empty text)
both return, with the same validity; when the text is valid they give the same token count
and the same sequence of (kind, referenced text, index value). -/
theorem C9_static_dynamic_agree (text : List Char) (out : List RouteToken) :
    ∃ (d : Bool × List RouteToken) (s : ParsedStaticRoute),
      ParseDynamicRoute text out = some d ∧
      ParseStaticRoute (literal text) (defaultMaxTokens (literal text)) = some s ∧
      s.Valid = d.1 ∧
      (d.1 = true → s.Count = d.2.length ∧
        s.GetTokens.map RouteToken.content = d.2.map RouteToken.content) := by
  have hlen : (literal text).length = text.length + 1 := by simp [literal]
  have hsim := loop_sim (defaultMaxTokens (literal text)) [Char.ofNat 0] text.length text []
    { Tokens := List.replicate (defaultMaxTokens (literal text)) {}, Count := 0, Valid := true }
    ⟨rfl, rfl, by simp, by simp⟩
    (by simp only [defaultMaxTokens, hlen, List.length_nil]; split <;> omega)
  have hstat : ParseStaticRoute (literal text) (defaultMaxTokens (literal text)) =
      staticLoop (defaultMaxTokens (literal text)) [Char.ofNat 0] text.length text
        { Tokens := List.replicate (defaultMaxTokens (literal text)) {}, Count := 0,
          Valid := true } := by
    simp [ParseStaticRoute, literal]
  have hdyn : ParseDynamicRoute text out = dynLoop text.length text [] := by
    simp [ParseDynamicRoute]
  rw [← hstat, ← hdyn] at hsim
  have hd : ∃ d, ParseDynamicRoute text out = some d := by
    rcases ParseDynamicRoute_total text out with ⟨ts, h1, _⟩ | h1
    · exact ⟨_, h1⟩
    · exact ⟨_, h1⟩
  obtain ⟨d, hd⟩ := hd
  rw [hd] at hsim
  cases hs : ParseStaticRoute (literal text) (defaultMaxTokens (literal text)) with
  | none => rw [hs] at hsim; exact hsim.elim
  | some s =>
    rw [hs] at hsim
    obtain ⟨h1, h2⟩ := hsim
    refine ⟨d, s, hd, rfl, h1, ?_⟩
    intro hv
    obtain ⟨_, h3, _, h4⟩ := h2 hv
    exact ⟨h3, h4⟩


/-! ## The claims about the traversal engine -/

/-- C4: `FindPath` is the reference walk: it processes the tokens in order from the root,
stepping through objects by key and through arrays by in-bounds index; it returns absent
exactly when some step of that walk fails, otherwise the final node reached, and the root
itself for an empty token sequence. -/
theorem C4_FindPath_is_reference_walk (root : NativeJson) (tokens : List RouteToken) :
    Json.FindPath root tokens = refWalk root tokens ∧
    (Json.FindPath root tokens = none ↔
      ∃ (k : Nat) (tok : RouteToken) (node : NativeJson),
        tokens[k]? = some tok ∧ refWalk root (tokens.take k) = some node ∧
        refStep node tok = none) ∧
    Json.FindPath root [] = some root := by
  refine ⟨Json.FindPath_eq_refWalk tokens root, ?_, rfl⟩
  rw [Json.FindPath_eq_refWalk]
  exact refWalk_none_iff tokens root


/-- C3: round trip.  For every root of any kind, every valid route with at least one token
and every value, the lookup over the route after `Set` is present and returns the value. -/
theorem C3_set_then_get (Root : NativeJson) (r : DynamicRoute) (v : NativeJson)
    (hv : r.IsValid = true) (hn : 1 ≤ r.GetTokenCount) :
    Json.TryGet (Json.Set Root r v) r = some v := by
  have hne : r.GetTokens ≠ [] := by
    intro h
    simp [DynamicRoute.GetTokenCount, DynamicRoute.GetTokens] at h hn
    simp [h] at hn
  rw [Json.Set_valid Root r v hv hne]
  simp only [Json.TryGet, Json.IsRouteValid, hv, Bool.not_true, Bool.false_eq_true, ↓reduceIte]
  exact Json.FindPath_setWalk r.GetTokens _ v hne

/-- C3 at a null root, the route of `A.B[2].C` and the value 42. -/
theorem C3_set_then_get_witness :
    Json.TryGet
      (Json.Set NativeJson.null
        { Path := "A.B[2].C".toList
          Tokens := [keyToken "A.B[2].C".toList 1, keyToken "B[2].C".toList 1,
            indexToken "2].C".toList 1, keyToken "C".toList 1]
          Valid := true } (NativeJson.number 42))
      { Path := "A.B[2].C".toList
        Tokens := [keyToken "A.B[2].C".toList 1, keyToken "B[2].C".toList 1,
          indexToken "2].C".toList 1, keyToken "C".toList 1]
        Valid := true } = some (NativeJson.number 42) :=
  C3_set_then_get NativeJson.null
    { Path := "A.B[2].C".toList
      Tokens := [keyToken "A.B[2].C".toList 1, keyToken "B[2].C".toList 1,
        indexToken "2].C".toList 1, keyToken "C".toList 1]
      Valid := true } (NativeJson.number 42) rfl (by decide)

/-- C10: autovivification.  For every root, every valid route and every value, after `Set`
the lookup over each proper front part of the route's tokens (the empty one included, and
through any valid route whose tokens say the same as that front part) is present and yields
the container the next token needs: an object for a Key token, an array of size strictly
greater than the index for an Index token. -/
theorem C10_autovivification (Root : NativeJson) (r : DynamicRoute) (v : NativeJson)
    (hv : r.IsValid = true) (k : Nat) (tok : RouteToken) (hk : r.GetTokens[k]? = some tok)
    (q : DynamicRoute) (hq : q.IsValid = true)
    (hpre : q.GetTokens.map RouteToken.content = (r.GetTokens.take k).map RouteToken.content) :
    ∃ node, Json.TryGet (Json.Set Root r v) q = some node ∧ ContainerFor tok node := by
  have hne : r.GetTokens ≠ [] := by
    intro h; rw [h] at hk; simp at hk
  rw [Json.Set_valid Root r v hv hne]
  simp only [Json.TryGet, Json.IsRouteValid, hq, Bool.not_true, Bool.false_eq_true, ↓reduceIte]
  rw [Json.FindPath_congr _ _ _ hpre]
  exact Json.FindPath_setWalk_take r.GetTokens _ v k tok hk

/-- C10 at an empty-object root and the route of `A.B[2].C`: the lookup through the route of
`A.B` finds an array of size at least 3, the container the token Index 2 needs. -/
theorem C10_autovivification_witness :
    ∃ node,
      Json.TryGet
        (Json.Set (NativeJson.object [])
          { Path := "A.B[2].C".toList
            Tokens := [keyToken "A.B[2].C".toList 1, keyToken "B[2].C".toList 1,
              indexToken "2].C".toList 1, keyToken "C".toList 1]
            Valid := true } (NativeJson.number 42))
        { Path := "A.B".toList
          Tokens := [keyToken "A.B".toList 1, keyToken "B".toList 1]
          Valid := true } = some node ∧
      ContainerFor (indexToken "2].C".toList 1) node :=
  C10_autovivification (NativeJson.object [])
    { Path := "A.B[2].C".toList
      Tokens := [keyToken "A.B[2].C".toList 1, keyToken "B[2].C".toList 1,
        indexToken "2].C".toList 1, keyToken "C".toList 1]
      Valid := true } (NativeJson.number 42) rfl 2 (indexToken "2].C".toList 1) rfl
    { Path := "A.B".toList
      Tokens := [keyToken "A.B".toList 1, keyToken "B".toList 1]
      Valid := true } rfl (by decide)


/-! ## Further claims about the traversal engine and the tokenizers -/

/-- C11: destructive coercion.  For every object root whose key `A` holds a value that is
not an object and every value `x`, after `Set` through the route of `A.B` the node under `A`
is exactly the object with the single entry `B` to `x`. -/
theorem C11_destructive_coercion (members : List (List Char × NativeJson))
    (old x : NativeJson) (hA : NativeJson.findMember members "A".toList = some old)
    (hold : old.is_object = false) :
    ∃ r : DynamicRoute, route "A.B".toList = some r ∧ r.IsValid = true ∧
      (Json.Set (NativeJson.object members) r x).find "A".toList =
        some (NativeJson.object [("B".toList, x)]) := by
  refine ⟨_, route_A_B, rfl, ?_⟩
  have hA' : findMember members ['A'] = some old := hA
  have hc : Json.coerceChild (keyToken "B".toList 1) old = NativeJson.object [] := by
    simp [Json.coerceChild, keyToken, hold]
  have h1 : (keyToken "A.B".toList 1).GetString = ['A'] := by decide
  have h2 : (keyToken "B".toList 1).GetString = ['B'] := by decide
  have hk1 : (keyToken "A.B".toList 1).Kind = RouteTokenType.Key := rfl
  have hk2 : (keyToken "B".toList 1).Kind = RouteTokenType.Key := rfl
  simp only [Json.Set, Json.IsRouteValid, DynamicRoute.IsValid, DynamicRoute.GetTokens,
    Json.SetPathValue, Bool.not_true, Bool.false_eq_true, ↓reduceIte, List.isEmpty_cons,
    is_object, Json.setWalk, hk1, hk2, Json.ensureObject, h1, h2, atKey, hA', Option.getD_some,
    hc, setKey, find, setMember]
  exact findMember_setMember_same members ['A'] _

/-- C11 at the root with the single member `A` holding the number 1, and the value 7. -/
theorem C11_destructive_coercion_witness :
    ∃ r : DynamicRoute, route "A.B".toList = some r ∧ r.IsValid = true ∧
      (Json.Set (NativeJson.object [("A".toList, NativeJson.number 1)]) r
          (NativeJson.number 7)).find "A".toList =
        some (NativeJson.object [("B".toList, NativeJson.number 7)]) :=
  C11_destructive_coercion [("A".toList, NativeJson.number 1)] (NativeJson.number 1)
    (NativeJson.number 7) (by simp [findMember]) rfl

/-- C13: invalid routes are inert.  For every root, every value and every route whose
validity flag is false, whatever tokens it carries, `Set` leaves the tree unchanged and
`TryGet` returns absent. -/
theorem C13_invalid_route_inert (Root : NativeJson) (r : DynamicRoute) (v : NativeJson)
    (hv : r.IsValid = false) :
    Json.Set Root r v = Root ∧ Json.TryGet Root r = none := by
  simp [Json.Set, Json.TryGet, Json.IsRouteValid, hv]

/-- C13 at an array root and an invalid route that still carries a token. -/
theorem C13_invalid_route_inert_witness :
    Json.Set (NativeJson.array [NativeJson.number 1])
        { Path := "a..".toList, Tokens := [keyToken "a..".toList 1], Valid := false }
        (NativeJson.number 7) = NativeJson.array [NativeJson.number 1] ∧
      Json.TryGet (NativeJson.array [NativeJson.number 1])
        { Path := "a..".toList, Tokens := [keyToken "a..".toList 1], Valid := false } = none :=
  C13_invalid_route_inert (NativeJson.array [NativeJson.number 1])
    { Path := "a..".toList, Tokens := [keyToken "a..".toList 1], Valid := false }
    (NativeJson.number 7) rfl

/-- C16: `Set` through a route with an empty token sequence is a no-op: for every root of
any kind and every value the tree after `Set` is the tree before. -/
theorem C16_empty_route_noop (Root : NativeJson) (r : DynamicRoute) (v : NativeJson)
    (hv : r.IsValid = true) (hn : r.GetTokenCount = 0) : Json.Set Root r v = Root := by
  have : r.Tokens = [] := List.length_eq_zero.1 hn
  simp [Json.Set, Json.IsRouteValid, hv, Json.SetPathValue, DynamicRoute.GetTokens, this]

/-- C16 at a null root and the route of the empty path. -/
theorem C16_empty_route_noop_witness :
    Json.Set NativeJson.null { Path := [], Tokens := [], Valid := true } (NativeJson.number 7) =
      NativeJson.null :=
  C16_empty_route_noop NativeJson.null { Path := [], Tokens := [], Valid := true }
    (NativeJson.number 7) rfl rfl


/-- C15: the empty path tokenizes to zero tokens with valid = true, in the runtime tokenizer
(whatever the output vector held, and so in the default-constructed `DynamicRoute`) and in
the parse-time tokenizer (for every capacity). -/
theorem C15_empty_path :
    (∀ out : List RouteToken, ParseDynamicRoute [] out = some (true, [])) ∧
    route [] = some { Path := [], Tokens := [], Valid := true } ∧
    (∀ MaxTokens : Nat, ∃ s : ParsedStaticRoute,
      ParseStaticRoute (literal []) MaxTokens = some s ∧ s.Valid = true ∧ s.Count = 0 ∧
        s.GetTokens = []) := by
  refine ⟨fun out => by simp [ParseDynamicRoute, dynLoop], by decide, fun MaxTokens => ?_⟩
  refine ⟨_, rfl, rfl, rfl, ?_⟩
  simp [ParsedStaticRoute.GetTokens]


/-- C12: idempotence of `Set`.  For every root, every route (valid or not, with or without
tokens) and every value, applying `Set` twice in a row leaves the tree equal to the tree
after applying it once. -/
theorem C12_set_idempotent (Root : NativeJson) (r : DynamicRoute) (v : NativeJson) :
    Json.Set (Json.Set Root r v) r v = Json.Set Root r v := by
  unfold Json.Set
  cases h : Json.IsRouteValid r
  · simp
  · simp only [Bool.not_true, Bool.false_eq_true, ↓reduceIte]
    exact Json.SetPathValue_idem Root r.GetTokens v


/-- C14 fails on the code: for the array root `[1, 2, 3]` and the route of `[0]`, `Set` of
9 leaves the array `[9]`; the elements the root held at the indexes 1 and 2 are gone.  An
array that is not the root is only grown: under the key `k` the same array becomes
`[9, 2, 3]` through the route of `k[0]`. -/
theorem C14_array_root_emptied :
    route "[0]".toList =
      some { Path := "[0]".toList, Tokens := [indexToken "0]".toList 1], Valid := true } ∧
    Json.Set (array [number 1, number 2, number 3])
        { Path := "[0]".toList, Tokens := [indexToken "0]".toList 1], Valid := true }
        (number 9) = array [number 9] ∧
    route "k[0]".toList =
      some { Path := "k[0]".toList,
             Tokens := [keyToken "k[0]".toList 1, indexToken "0]".toList 1], Valid := true } ∧
    Json.Set (object [("k".toList, array [number 1, number 2, number 3])])
        { Path := "k[0]".toList,
          Tokens := [keyToken "k[0]".toList 1, indexToken "0]".toList 1], Valid := true }
        (number 9) = object [("k".toList, array [number 9, number 2, number 3])] := by
  refine ⟨by decide, ?_, by decide, ?_⟩
  · rfl
  · rfl


/-- C18: no partial results from the runtime tokenizer.  For every path and every prior
content of the output vector the tokenizer returns; when it returns valid = false the
output is empty; when it returns true the output is what the path gives on an empty vector
and every token in it points into this path. -/
theorem C18_no_stale_tokens (path : List Char) (out : List RouteToken) :
    (∃ r, ParseDynamicRoute path out = some r) ∧
    (∀ toks, ParseDynamicRoute path out = some (false, toks) → toks = []) ∧
    (∀ toks, ParseDynamicRoute path out = some (true, toks) →
      ParseDynamicRoute path [] = some (true, toks) ∧
      ∀ tok ∈ toks, ∃ p pre : List Char, tok.Ptr = some p ∧ path = pre ++ p) := by
  refine ⟨?_, ?_, ?_⟩
  · rcases ParseDynamicRoute_total path out with ⟨ts, h1, _⟩ | h1
    · exact ⟨_, h1⟩
    · exact ⟨_, h1⟩
  · intro toks h
    rcases ParseDynamicRoute_total path out with ⟨ts, h1, _⟩ | h1
    · rw [h1] at h; simp at h
    · rw [h1] at h; simp at h; exact h
  · intro toks h
    refine ⟨?_, (ParseDynamicRoute_accepts path out toks h).ptr_in_text⟩
    rw [ParseDynamicRoute_eq] at h ⊢
    exact h

/-- C18 at the path `a.b` with a stale token in the output vector: the output is the two
tokens of `a.b`. -/
theorem C18_no_stale_tokens_witness :
    ParseDynamicRoute "a.b".toList [] =
        some (true, [keyToken "a.b".toList 1, keyToken "b".toList 1]) ∧
      ∀ tok ∈ [keyToken "a.b".toList 1, keyToken "b".toList 1],
        ∃ p pre : List Char, tok.Ptr = some p ∧ "a.b".toList = pre ++ p :=
  (C18_no_stale_tokens "a.b".toList [indexToken "7]".toList 1]).2.2
    [keyToken "a.b".toList 1, keyToken "b".toList 1] (by decide)


/-- C17: the length bound.  A path with a run of more than 65535 key characters at a key
position, or with more than 65535 digits right after a `'['`, is rejected with valid =
false; and in every accepted path each token's `Length` field is the true length of the run
it references, which is also the length of the text it gives. -/
theorem C17_length_bound (path : List Char) (out : List RouteToken) :
    ((∃ pre k post : List Char, path = pre ++ (k ++ post) ∧ KeyPosition pre ∧
        (∀ c ∈ k, c ≠ '.' ∧ c ≠ '[') ∧ k.length > 65535) →
      ParseDynamicRoute path out = some (false, [])) ∧
    ((∃ pre ds post : List Char, path = pre ++ '[' :: (ds ++ post) ∧
        (∀ d ∈ ds, '0' ≤ d ∧ d ≤ '9') ∧ ds.length > 65535) →
      ParseDynamicRoute path out = some (false, [])) ∧
    (∀ toks, ParseDynamicRoute path out = some (true, toks) →
      ∀ tok ∈ toks, ∃ p : List Char, tok.Ptr = some p ∧
        tok.Length = (if tok.Kind = RouteTokenType.Key then (p.takeWhile isKeyChar).length
          else (p.takeWhile isDigitChar).length) ∧
        tok.GetString.length = tok.Length) := by
  refine ⟨?_, ?_, ?_⟩
  · rintro ⟨pre, k, post, hp, hpos, hk, hlen⟩
    rcases ParseDynamicRoute_total path out with ⟨ts, _, h2⟩ | h1
    · have := h2.key_run_bound pre k post hp hpos (fun c hc => isKeyChar_of_ne c (hk c hc))
      simp only [maxTokenLength] at this
      omega
    · exact h1
  · rintro ⟨pre, ds, post, hp, hd, hlen⟩
    rcases ParseDynamicRoute_total path out with ⟨ts, _, h2⟩ | h1
    · have := h2.digit_run_bound pre ds post hp (fun c hc => isDigitChar_of_le c (hd c hc))
      simp only [maxTokenLength] at this
      omega
    · exact h1
  · intro toks h
    exact (ParseDynamicRoute_accepts path out toks h).token_run

/-- C17 at the path made of 65536 letters `a`: it is one key run that is too long, so the
path is rejected. -/
theorem C17_length_bound_witness :
    ParseDynamicRoute (List.replicate 65536 'a') [] = some (false, []) :=
  (C17_length_bound (List.replicate 65536 'a') []).1
    ⟨[], List.replicate 65536 'a', [], (List.append_nil _).symm, Or.inl rfl,
      fun c hc => by
        rw [List.eq_of_mem_replicate hc]
        exact ⟨by decide, by decide⟩,
      by rw [List.length_replicate]; omega⟩



/-- C20: one token slot per character is always sufficient.  For every path of length
`n >= 1` the default capacity of `StaticRoute` is `n`; an accepted path has at most `n`
tokens; the parse-time tokenizer with `MaxTokens = n` has, at the head of every pass of its loop, a free slot for every unread
character, so no pass takes a capacity return; and it returns with the validity the runtime
tokenizer, which has no capacity, gives the path. -/
theorem C20_one_slot_per_character (text : List Char) (hn : 1 ≤ text.length)
    (out : List RouteToken) :
    defaultMaxTokens (literal text) = text.length ∧
    (∀ toks, ParseDynamicRoute text out = some (true, toks) → toks.length ≤ text.length) ∧
    (∀ (c : Char) (cs : List Char) (parsed : ParsedStaticRoute),
      StaticReach text.length [Char.ofNat 0] text (c :: cs) parsed →
        parsed.Count + (c :: cs).length ≤ text.length ∧
        capacityExceeded text.length c cs parsed = false) ∧
    (∃ (s : ParsedStaticRoute) (d : Bool × List RouteToken),
      ParseStaticRoute (literal text) text.length = some s ∧
      ParseDynamicRoute text out = some d ∧ s.Valid = d.1) := by
  refine ⟨?_, ?_, ?_, ?_⟩
  · simp only [defaultMaxTokens, literal, List.length_append, List.length_singleton]
    split <;> omega
  · intro toks h
    exact (ParseDynamicRoute_accepts text out toks h).length_le
  · intro c cs parsed hr
    obtain ⟨t, hsim, hlen⟩ := hr.sim (le_refl _)
    have hc : parsed.Count + (c :: cs).length ≤ text.length := by rw [hsim.2.1]; exact hlen
    exact ⟨hc, capacityExceeded_false _ c cs parsed hc⟩
  · have hsim := loop_sim text.length [Char.ofNat 0] text.length text []
      { Tokens := List.replicate text.length {}, Count := 0, Valid := true }
      ⟨rfl, rfl, by simp, by simp⟩ (by simp)
    rw [← ParseStaticRoute_literal] at hsim
    have hdyn : ParseDynamicRoute text out = dynLoop text.length text [] := by
      simp [ParseDynamicRoute]
    rw [← hdyn] at hsim
    rcases ParseDynamicRoute_total text out with ⟨ts, h1, _⟩ | h1
    · rw [h1] at hsim
      cases hs : ParseStaticRoute (literal text) text.length with
      | none => rw [hs] at hsim; exact hsim.elim
      | some s => rw [hs] at hsim; exact ⟨s, _, rfl, h1, hsim.1⟩
    · rw [h1] at hsim
      cases hs : ParseStaticRoute (literal text) text.length with
      | none => rw [hs] at hsim; exact hsim.elim
      | some s => rw [hs] at hsim; exact ⟨s, _, rfl, h1, hsim.1⟩

/-- C20 at the path `a[1]`, four characters and two tokens: at the start of the loop the
table of four slots is empty and the first pass takes no capacity return. -/
theorem C20_one_slot_per_character_witness :
    (0 : Nat) + ('a' :: "[1]".toList).length ≤ "a[1]".toList.length ∧
      capacityExceeded "a[1]".toList.length 'a' "[1]".toList
        { Tokens := List.replicate "a[1]".toList.length {}, Count := 0, Valid := true } = false :=
  (C20_one_slot_per_character "a[1]".toList (by decide) []).2.2.1 'a' "[1]".toList
    { Tokens := List.replicate "a[1]".toList.length {}, Count := 0, Valid := true }
    StaticReach.start


/-! ## Claims about progress, token invariants and composition -/

/-- C27: the scan makes progress and terminates.  A pass through the body of the outer loop
returns or goes on with a cursor strictly further on in the same text; after `n` passes the
cursor is a place of the path at least `n` characters in; and `length(path)` passes are
enough for the loop to return, on every input, a larger budget changing nothing. -/
theorem C27_scan_terminates (path : List Char) (out : List RouteToken) :
    (∀ (c : Char) (cs cursor : List Char) (t t' : List RouteToken),
      dynBody c cs t = LoopStep.Continue cursor t' →
        cursor.length < (c :: cs).length ∧ ∃ consumed, c :: cs = consumed ++ cursor) ∧
    (∀ (n : Nat) (cursor : List Char) (t : List RouteToken), DynReach path n cursor t →
      n + cursor.length ≤ path.length ∧ ∃ consumed, path = consumed ++ cursor) ∧
    (∃ r, dynLoop path.length path [] = some r ∧ ParseDynamicRoute path out = some r ∧
      ∀ fuel, path.length ≤ fuel → dynLoop fuel path [] = some r) := by
  refine ⟨?_, ?_, ?_⟩
  · intro c cs cursor t t' h
    have h1 := dynBody_length c cs t cursor t' h
    obtain ⟨pre, hpre⟩ := dynBody_suffix c cs t cursor t' h
    exact ⟨by simp only [List.length_cons]; omega, pre, hpre.symm⟩
  · intro n cursor t h
    exact h.progress
  · have hdyn : ParseDynamicRoute path out = dynLoop path.length path [] := by
      simp [ParseDynamicRoute]
    rcases ParseDynamicRoute_total path out with ⟨ts, h1, _⟩ | h1
    · refine ⟨_, by rw [← hdyn]; exact h1, h1, fun fuel hf => ?_⟩
      rw [dynLoop_eq_parseFrom fuel path [] hf, ← ParseDynamicRoute_eq path out]; exact h1
    · refine ⟨_, by rw [← hdyn]; exact h1, h1, fun fuel hf => ?_⟩
      rw [dynLoop_eq_parseFrom fuel path [] hf, ← ParseDynamicRoute_eq path out]; exact h1

/-- C27 at the malformed text `ab.[`: the first pass, from the start of the text, goes on
three characters further on, at the unterminated bracket. -/
theorem C27_scan_terminates_witness :
    "[".toList.length < ('a' :: "b.[".toList).length ∧
      ∃ consumed, 'a' :: "b.[".toList = consumed ++ "[".toList :=
  (C27_scan_terminates "ab.[".toList []).1 'a' "b.[".toList "[".toList []
    [keyToken "ab.[".toList 2] (by decide)



/-- C22: the token invariant.  For every path, every token the runtime tokenizer returns,
and every token it holds at the head of any pass of its loop (also on a path it ends up
rejecting), has a referenced length greater than 0 and gives a text of that length; the text
of an Index token consists of the characters `'0'` to `'9'` only. -/
theorem C22_token_invariant (path : List Char) (out : List RouteToken) :
    (∀ (valid : Bool) (toks : List RouteToken),
      ParseDynamicRoute path out = some (valid, toks) → ∀ tok ∈ toks, WellReferenced tok) ∧
    (∀ (n : Nat) (cursor : List Char) (t : List RouteToken), DynReach path n cursor t →
      ∀ tok ∈ t, WellReferenced tok) := by
  refine ⟨?_, fun n cursor t h => h.tokens_wellReferenced⟩
  intro valid toks h
  rcases ParseDynamicRoute_total path out with ⟨ts, h1, h2⟩ | h1
  · rw [h1] at h
    simp only [Option.some.injEq, Prod.mk.injEq] at h
    rw [← h.2]
    exact h2.wellReferenced
  · rw [h1] at h
    simp only [Option.some.injEq, Prod.mk.injEq] at h
    rw [← h.2]
    intro tok htok
    simp at htok

/-- C22 at the path `ab[12]`: its Index token references the two digits `12`. -/
theorem C22_token_invariant_witness : WellReferenced (indexToken "12]".toList 2) :=
  (C22_token_invariant "ab[12]".toList []).1 true
    [keyToken "ab[12]".toList 2, indexToken "12]".toList 2] (by decide)
    (indexToken "12]".toList 2) (by simp)



/-- C24: tokens are emitted in path order and reference the path text.  For every accepted
path, the text of each token is the part of the path at the token's start offset with the
token's length; for any two tokens the span of the one emitted earlier ends at or before
the start of the later one, so the spans are disjoint and the offsets strictly increase;
and no Key token's text contains `'.'` or `'['`. -/
theorem C24_tokens_in_path_order (path : List Char) (out toks : List RouteToken)
    (h : ParseDynamicRoute path out = some (true, toks)) :
    (∀ tok ∈ toks, tok.GetString = (path.drop (tok.offset path)).take tok.Length ∧
      tok.offset path + tok.Length ≤ path.length) ∧
    toks.Pairwise (fun a b => a.offset path + a.Length ≤ b.offset path ∧
      a.offset path < b.offset path) ∧
    (∀ tok ∈ toks, tok.Kind = RouteTokenType.Key →
      ∀ c ∈ tok.GetString, c ≠ '.' ∧ c ≠ '[') := by
  have hlex := ParseDynamicRoute_accepts path out toks h
  refine ⟨hlex.text_at_offset, ?_, ?_⟩
  · refine List.Pairwise.imp_of_mem ?_ hlex.ordered
    intro a b ha hb hab
    have ha1 := hlex.unread_le a ha
    have hb1 := hlex.unread_le b hb
    have hpos := (hlex.wellReferenced a ha).1
    simp only [RouteToken.offset]
    omega
  · intro tok htok hkind c hc
    rcases hlex.token_shape tok htok with ⟨k, r, hne, hlen, hk, hkt⟩ | ⟨ds, r, _, _, _, hi⟩
    · have hcont := keyToken_content k r hne hlen
      rw [← hkt] at hcont
      simp only [RouteToken.content, Prod.mk.injEq] at hcont
      rw [hcont.2.1] at hc
      exact ⟨isKeyChar_ne_dot c (hk c hc), isKeyChar_ne_open c (hk c hc)⟩
    · rw [hi] at hkind; simp [indexToken] at hkind

/-- C24 at the path `ab[12].c`: its tokens start at the offsets 0, 3 and 7. -/
theorem C24_tokens_in_path_order_witness :
    [keyToken "ab[12].c".toList 2, indexToken "12].c".toList 2, keyToken "c".toList 1].Pairwise
      (fun a b => a.offset "ab[12].c".toList + a.Length ≤ b.offset "ab[12].c".toList ∧
        a.offset "ab[12].c".toList < b.offset "ab[12].c".toList) :=
  (C24_tokens_in_path_order "ab[12].c".toList []
    [keyToken "ab[12].c".toList 2, indexToken "12].c".toList 2, keyToken "c".toList 1]
    (by decide)).2.1



/-- C25: tokenizing is compositional over a dot.  For all paths `p` and `q` that tokenize as
valid, `p` not ending with a dot and `q` not starting with one, the path `p ++ "." ++ q`
tokenizes as valid and its sequence of (kind, referenced text, index) is that of `p`
followed by that of `q`.  With `p` empty this says that a single leading dot is ignored,
with `q` empty that a single trailing dot is ignored. -/
theorem C25_compositional_over_dot (p q : List Char) (out tp tq : List RouteToken)
    (hp : ParseDynamicRoute p out = some (true, tp))
    (hq : ParseDynamicRoute q out = some (true, tq))
    (hpl : p.getLast? ≠ some '.') (hqh : q.head? ≠ some '.') :
    ∃ ts, ParseDynamicRoute (p ++ '.' :: q) out = some (true, ts) ∧
      ts.map RouteToken.content = tp.map RouteToken.content ++ tq.map RouteToken.content := by
  obtain ⟨ts, h1, h2⟩ := (ParseDynamicRoute_accepts p out tp hp).append_dot hpl q tq
    (ParseDynamicRoute_accepts q out tq hq) hqh
  refine ⟨ts, ?_, h2⟩
  rw [ParseDynamicRoute_eq, h1.accepted []]
  simp

/-- C25 with `p` the path `a[1]` and `q` empty: the trailing dot of `a[1].` is ignored. -/
theorem C25_compositional_over_dot_witness :
    ∃ ts, ParseDynamicRoute ("a[1]".toList ++ '.' :: []) [] = some (true, ts) ∧
      ts.map RouteToken.content =
        [keyToken "a[1]".toList 1, indexToken "1]".toList 1].map RouteToken.content ++
          ([] : List RouteToken).map RouteToken.content :=
  C25_compositional_over_dot "a[1]".toList [] []
    [keyToken "a[1]".toList 1, indexToken "1]".toList 1] [] (by decide) (by decide)
    (by decide) (by decide)



/-- C21 fails as stated: the paths `.a` and `a.`, which start and end with a dot, are
accepted, each with the single token Key `a`. -/
theorem C21_edge_dot_counterexample :
    (ParseDynamicRoute ".a".toList []).map resultView =
        some (true, [(RouteTokenType.Key, ['a'], 0)]) ∧
    (ParseDynamicRoute "a.".toList []).map resultView =
        some (true, [(RouteTokenType.Key, ['a'], 0)]) := by
  refine ⟨by decide, by decide⟩

/-- C21 as amended: a dot at the start or the end of a path makes it rejected only when it
is next to another dot.  A path that starts or ends with two dots is rejected; a single
leading dot is skipped, the path tokenizing exactly as the rest does; and a single trailing
dot is skipped, the path having the flag and the tokens (by kind, text and index) of the
path without it. -/
theorem C21_edge_dots (p : List Char) (out : List RouteToken) :
    ParseDynamicRoute ('.' :: '.' :: p) out = some (false, []) ∧
    ParseDynamicRoute (p ++ ['.', '.']) out = some (false, []) ∧
    (p.head? ≠ some '.' → ParseDynamicRoute ('.' :: p) out = ParseDynamicRoute p out) ∧
    (p.getLast? ≠ some '.' →
      (ParseDynamicRoute (p ++ ['.']) out).map resultView =
        (ParseDynamicRoute p out).map resultView) := by
  refine ⟨ParseDynamicRoute_dotdot [] p out, ParseDynamicRoute_dotdot p [] out, ?_, ?_⟩
  · intro h
    rw [ParseDynamicRoute_eq, ParseDynamicRoute_eq, parseFrom_dot, if_neg h]
  · intro h
    rw [ParseDynamicRoute_eq, ParseDynamicRoute_eq]
    exact parseFrom_trailing_dot p.length p [] [] (le_refl _) h rfl

/-- C21 as amended, at the path `a[1]`: with a dot added at its end it is accepted with the
same tokens. -/
theorem C21_edge_dots_witness :
    (ParseDynamicRoute ("a[1]".toList ++ ['.']) []).map resultView =
      (ParseDynamicRoute "a[1]".toList []).map resultView :=
  (C21_edge_dots "a[1]".toList []).2.2.2 (by decide)



/-- C26: `Set` leaves unrelated top-level entries alone.  For every object root, every valid
route whose first token is a Key token, every value and every key other than that token's,
after `Set` the root is still an object and the lookup of the other key in it gives what it
gave before: absent if it was absent, the same value if it was present. -/
theorem C26_other_keys_untouched (members : List (List Char × NativeJson))
    (r : DynamicRoute) (v : NativeJson) (tk : RouteToken) (rest : List RouteToken)
    (k' : List Char) (hv : r.IsValid = true) (ht : r.GetTokens = tk :: rest)
    (hk : tk.Kind = RouteTokenType.Key) (hne : k' ≠ tk.GetString) :
    (Json.Set (object members) r v).is_object = true ∧
    (Json.Set (object members) r v).find k' = (object members).find k' := by
  rw [Json.Set_valid (object members) r v hv (by rw [ht]; simp), ht]
  simp only [is_object, Bool.not_true, Bool.false_eq_true, ↓reduceIte]
  obtain ⟨stored, hs⟩ := Json.setWalk_key_start members tk rest v hk
  rw [hs]
  exact ⟨rfl, by simp only [find]; exact findMember_setMember_other members _ k' stored hne⟩

/-- C26 at the root with the members `a` and `b`, the route of `a.x` and the key `b`. -/
theorem C26_other_keys_untouched_witness :
    (Json.Set (object [("a".toList, number 1), ("b".toList, number 2)])
        { Path := "a.x".toList
          Tokens := [keyToken "a.x".toList 1, keyToken "x".toList 1]
          Valid := true } (number 9)).is_object = true ∧
    (Json.Set (object [("a".toList, number 1), ("b".toList, number 2)])
        { Path := "a.x".toList
          Tokens := [keyToken "a.x".toList 1, keyToken "x".toList 1]
          Valid := true } (number 9)).find "b".toList =
      (object [("a".toList, number 1), ("b".toList, number 2)]).find "b".toList :=
  C26_other_keys_untouched [("a".toList, number 1), ("b".toList, number 2)]
    { Path := "a.x".toList
      Tokens := [keyToken "a.x".toList 1, keyToken "x".toList 1]
      Valid := true } (number 9) (keyToken "a.x".toList 1) [keyToken "x".toList 1]
    "b".toList rfl rfl rfl (by decide)


end charted
